import Mathlib

/-!
Verification of core memory-management, loading and scheduling routines of the
lymadOS kernel, via a shallow embedding of the Rust sources into Lean.

Conventions used throughout:
* machine integers (`u64`, `usize`) are modelled as `Nat`; a `% 2 ^ 64` is
  inserted exactly where two's-complement wrap-around can matter;
* raw pointers are modelled as numeric addresses (`Nat`);
* intrusive doubly-linked free lists are modelled as Lean lists of the
  addresses they contain, in list order (head of the Lean list = head of the
  intrusive list); unlinking an interior node is `List.erase`;
* the buddy allocator's packed bitmap (one bit per index, stored in bytes) is
  modelled as the list of indices whose bit is 1; an XOR toggle of a bit is
  insertion/removal of its index;
* recursive routines are given a structural fuel argument large enough that
  the fuel can never run out on the guarded orders the source admits, so all
  definitions reduce inside the kernel.
-/

namespace LymadOS

/-! ### Buddy allocator — src/kernel/src/mm/buddy.rs -/

namespace Buddy

def MAX_ORDER : Nat := 12

def PAGE_SIZE : Nat := 4096

def MAX_PAGES : Nat := 262144

/-- Size in bytes of an order-`k` block: `2^k` pages (`1 << order` pages in the
source). -/
def blockSize (k : Nat) : Nat := (1 <<< k) * PAGE_SIZE

/-- State of `BuddyAllocator`: the per-order free lists (`free_lists`), the
set of bitmap bits currently equal to 1 (`bits`), and the virtual-memory
offset of the managed window (`offset`). -/
structure BState where
  freeLists : List (List Nat)
  bits : List Nat
  offset : Nat
deriving DecidableEq

/-- `BuddyAllocator::new()` followed by `set_offset(off)`: empty free lists,
all bitmap bits 0. -/
def newState (off : Nat) : BState :=
  { freeLists := List.replicate MAX_ORDER [], bits := [], offset := off }

/-- The free list of order `k` (out-of-range orders read as empty). -/
def flist (s : BState) (k : Nat) : List Nat := s.freeLists.getD k []

/-- `get_bit_index`: offset of the order's band in the bitmap plus the pair
index within the band. -/
def get_bit_index (page_idx order : Nat) : Nat :=
  (List.range order).foldl (fun acc i => acc + (MAX_PAGES >>> (i + 1))) 0 +
    (page_idx >>> (order + 1))

/-- Whether bitmap bit `i` is currently 1. -/
def bitSet (s : BState) (i : Nat) : Bool := decide (i ∈ s.bits)

/-- `toggle_bit`: XOR the bit for `(page_idx, order)` with 1 and return the
new value of the bit together with the new state. -/
def toggle_bit (s : BState) (page_idx order : Nat) : Bool × BState :=
  let idx := get_bit_index page_idx order
  if idx ∈ s.bits then (false, { s with bits := s.bits.erase idx })
  else (true, { s with bits := idx :: s.bits })

/-- `calculate_buddy_address`: XOR the offset-relative address with the block
size. -/
def calculate_buddy_address (s : BState) (ptr order : Nat) : Nat :=
  ((ptr - s.offset) ^^^ ((1 <<< order) * PAGE_SIZE)) + s.offset

/-- `push_free`: push `ptr` at the head of the order's free list. -/
def push_free (s : BState) (ptr order : Nat) : BState :=
  { s with freeLists := s.freeLists.set order (ptr :: flist s order) }

/-- `remove_frame`: unlink `ptr` from the order's (doubly linked) free list. -/
def remove_frame (s : BState) (ptr order : Nat) : BState :=
  { s with freeLists := s.freeLists.set order ((flist s order).erase ptr) }

/-- `alloc`, with structural fuel.  Fuel `MAX_ORDER` always suffices because
the recursion increments `order` and the `order >= MAX_ORDER` guard fires
first; at fuel 0 we return `none`, which agrees with the guard. -/
def allocFuel : Nat → BState → Nat → Option (Nat × BState)
  | 0, _, _ => none
  | fuel + 1, s, order =>
    if MAX_ORDER ≤ order then none
    else
      match flist s order with
      | f :: _ =>
        let s1 := remove_frame s f order
        let s2 :=
          if order < MAX_ORDER - 1 then
            (toggle_bit s1 ((f - s.offset) / PAGE_SIZE) order).2
          else s1
        some (f, s2)
      | [] =>
        match allocFuel fuel s (order + 1) with
        | none => none
        | some (p, s1) =>
          let buddy := calculate_buddy_address s1 p order
          let s2 :=
            if order < MAX_ORDER - 1 then
              (toggle_bit s1 ((p - s1.offset) / PAGE_SIZE) order).2
            else s1
          some (p, push_free s2 buddy order)

/-- `BuddyAllocator::alloc`. -/
def alloc (s : BState) (order : Nat) : Option (Nat × BState) :=
  allocFuel MAX_ORDER s order

/-- `dealloc`, with structural fuel (fuel `MAX_ORDER` always suffices: the
recursion stops once `order >= MAX_ORDER - 1`). -/
def deallocFuel : Nat → BState → Nat → Nat → BState
  | 0, s, _, _ => s
  | fuel + 1, s, ptr, order =>
    if ptr < s.offset ∨ s.offset + MAX_PAGES * PAGE_SIZE ≤ ptr then s
    else if MAX_ORDER - 1 ≤ order then push_free s ptr order
    else
      let page_idx := (ptr - s.offset) / PAGE_SIZE
      let t := toggle_bit s page_idx order
      if t.1 then push_free t.2 ptr order
      else
        let buddy := calculate_buddy_address t.2 ptr order
        let s2 := remove_frame t.2 buddy order
        deallocFuel fuel s2 (min ptr buddy) (order + 1)

/-- `BuddyAllocator::dealloc`.  (For `order ≥ MAX_ORDER` the Rust source
indexes `free_lists` out of bounds and panics; the model's `List.set` is a
no-op there.  All claims below only exercise orders `< MAX_ORDER`.) -/
def dealloc (s : BState) (ptr order : Nat) : BState :=
  deallocFuel MAX_ORDER s ptr order

/-- `add_frame`: reject addresses outside the managed window, otherwise free
at order 0. -/
def add_frame (s : BState) (frame : Nat) : BState :=
  if frame < s.offset ∨ s.offset + MAX_PAGES * PAGE_SIZE ≤ frame then s
  else dealloc s frame 0

/-- Does the order-`k` block at address `a` cover byte address `x`? -/
def covB (a k x : Nat) : Bool := decide (a ≤ x ∧ x < a + blockSize k)

/-- 1 if the order-`k` block at `a` covers `x`, else 0. -/
def cInd (a k x : Nat) : Nat := if covB a k x then 1 else 0

/-- Number of blocks on one free list covering byte address `x`. -/
def listCnt (k : Nat) (l : List Nat) (x : Nat) : Nat := l.countP (fun a => covB a k x)

/-- Number of free blocks (over all orders) covering byte address `x`.  In a
consistent allocator this is 0 or 1, and `0 < freeCount s x` says byte `x`
is free. -/
def freeCount (s : BState) (x : Nat) : Nat :=
  ∑ k in Finset.range MAX_ORDER, listCnt k (flist s k) x

/-- Number of outstanding allocated blocks covering byte address `x`. -/
def outCount (out : List (Nat × Nat)) (x : Nat) : Nat :=
  (out.map (fun p => cInd p.1 p.2 x)).sum

/-- Well-formed block: inside the window starting at `offset`, aligned to its
order's size, ending within the window. -/
def WF (off a k : Nat) : Prop :=
  off ≤ a ∧ (a - off) % blockSize k = 0 ∧ (a - off) + blockSize k ≤ MAX_PAGES * PAGE_SIZE

instance (off a k : Nat) : Decidable (WF off a k) := by unfold WF; infer_instance

/-- A configuration: allocator state plus the multiset of outstanding
(allocated, not yet freed) blocks, recorded as (address, order) pairs. -/
structure Config where
  st : BState
  out : List (Nat × Nat)

/-- One legal interaction with the allocator, as constrained by the source's
safety contracts: `add_frame` feeds a page-aligned frame that is not already
free or outstanding; `dealloc` frees a block previously returned by `alloc`
at the same order. -/
inductive BStep : Config → Config → Prop
  | add_frame (c : Config) (f : Nat) :
      (f - c.st.offset) % PAGE_SIZE = 0 →
      c.st.offset ≤ f →
      (∀ x, f ≤ x → x < f + PAGE_SIZE → freeCount c.st x = 0) →
      (∀ x, f ≤ x → x < f + PAGE_SIZE → outCount c.out x = 0) →
      BStep c ⟨add_frame c.st f, c.out⟩
  | alloc (c : Config) (k p : Nat) (s2 : BState) :
      alloc c.st k = some (p, s2) →
      BStep c ⟨s2, (p, k) :: c.out⟩
  | dealloc (c : Config) (p k : Nat) :
      (p, k) ∈ c.out →
      BStep c ⟨dealloc c.st p k, c.out.erase (p, k)⟩

/-- Configurations reachable from a fresh allocator with window offset `off`
by legal interactions. -/
inductive Reachable (off : Nat) : Config → Prop
  | init : Reachable off ⟨newState off, []⟩
  | step {c c' : Config} : Reachable off c → BStep c c' → Reachable off c'

/-- Start of the bitmap band of a given order
(`Σ_{i<order} MAX_PAGES >> (i+1)`, the first summand of `get_bit_index`). -/
def bandStart (order : Nat) : Nat :=
  (List.range order).foldl (fun acc i => acc + (MAX_PAGES >>> (i + 1))) 0

/-- Consistency invariant tying a reachable configuration together:
window/alignment of every free and outstanding block, no double coverage of
any byte, and the bitmap bit of every buddy pair equal to the XOR of the
pair's two free-list memberships. -/
structure Inv (off : Nat) (c : Config) : Prop where
  hoff : c.st.offset = off
  hlen : c.st.freeLists.length = MAX_ORDER
  hnodup : c.st.bits.Nodup
  hfree : ∀ k < MAX_ORDER, ∀ a ∈ flist c.st k, WF off a k
  hout : ∀ p ∈ c.out, p.2 < MAX_ORDER ∧ WF off p.1 p.2
  hcnt : ∀ x, freeCount c.st x + outCount c.out x ≤ 1
  hbit : ∀ k, k + 1 < MAX_ORDER → ∀ a, WF off a (k + 1) →
    bitSet c.st (get_bit_index ((a - off) / PAGE_SIZE) k) =
      Bool.xor (decide (a ∈ flist c.st k)) (decide (a + blockSize k ∈ flist c.st k))

/-- Feed the `n` single frames `b, b+4096, …, b+(n-1)·4096` (in increasing
address order) through `add_frame`. -/
def feedLin (s : BState) (b : Nat) : Nat → BState
  | 0 => s
  | n + 1 => feedLin (add_frame s b) (b + PAGE_SIZE) (n)

/-- Feed the `2^j` frames of the order-`j` block at `b`, lower half first —
the same frames as `feedLin s b (2^j)`. -/
def feedBlock (s : BState) (b : Nat) : Nat → BState
  | 0 => add_frame s b
  | j + 1 => feedBlock (feedBlock s b j) (b + blockSize j) j

/-- In a state with window offset 0: no bitmap bit is set for any buddy pair
whose footprint lies inside the order-`j` block at `b`. -/
def BitsClear (s : BState) (b j : Nat) : Prop :=
  ∀ i q, i + 1 < MAX_ORDER →
    b ≤ q * blockSize (i + 1) → (q + 1) * blockSize (i + 1) ≤ b + blockSize j →
    get_bit_index (q * 2 ^ (i + 1)) i ∉ s.bits

end Buddy

/-! ### Bootstrap frame allocator — src/kernel/src/mm/memory.rs -/

namespace BFA

def PAGE_SIZE : Nat := 4096

def MAX_RANGES : Nat := 256

/-- `PhysRange { start, end }` (half-open; `end` is a Lean keyword, renamed
`stop`). -/
structure PhysRange where
  start : Nat
  stop : Nat
deriving DecidableEq

/-- A region of the bootloader memory map: `[start, stop)` plus whether its
kind is `Usable`. -/
structure Region where
  start : Nat
  stop : Nat
  usable : Bool

/-- `BootInfoFrameAllocator` (the fixed-capacity array plus `range_count` is
modelled as the list of its first `range_count` entries). -/
structure FState where
  free_ranges : List PhysRange
  allocated_bytes : Nat
  total_bytes : Nat
deriving DecidableEq

/-- First phase of `init`: keep usable regions, align start up / end down to
page boundaries, drop empty results, stop adding beyond `MAX_RANGES`;
accumulate `total_bytes`. -/
def collect : List Region → List PhysRange × Nat
  | [] => ([], 0)
  | r :: rest =>
    let (l, t) := collect rest
    -- the source iterates forward appending; building the tail first and
    -- consing preserves the order of kept regions
    if r.usable then
      let s := (r.start + PAGE_SIZE - 1) / PAGE_SIZE * PAGE_SIZE
      let e := r.stop / PAGE_SIZE * PAGE_SIZE
      if s < e ∧ l.length < MAX_RANGES then (⟨s, e⟩ :: l, (e - s) + t) else (l, t)
    else (l, t)

/-- `insert_range_sorted` (also the inner step of `init`'s insertion sort):
place the new range before the first entry with a strictly larger start. -/
def insert_range_sorted (r : PhysRange) : List PhysRange → List PhysRange
  | [] => [r]
  | x :: xs => if r.start < x.start then r :: x :: xs else x :: insert_range_sorted r xs

/-- The insertion sort performed at the end of `init`. -/
def sortRanges (l : List PhysRange) : List PhysRange :=
  l.foldl (fun acc x => insert_range_sorted x acc) []

/-- `BootInfoFrameAllocator::init`. -/
def init (regions : List Region) : FState :=
  let (l, t) := collect regions
  { free_ranges := sortRanges l, allocated_bytes := 0, total_bytes := t }

/-- `(a + alignment - 1) & !(alignment - 1)` for a power-of-two alignment,
written with division so it is meaningful for every positive alignment. -/
def alignUp (a alignment : Nat) : Nat := (a + alignment - 1) / alignment * alignment

/-- The scan loop of `allocate_contiguous_aligned`: `acc` is the reversed
prefix of ranges already passed over, `n` the total range count (used by the
capacity check, which inspects `range_count` before any mutation). -/
def allocGo (alignment required n : Nat) (acc : List PhysRange) :
    List PhysRange → Option (Nat × List PhysRange)
  | [] => none
  | r :: rest =>
    let aligned_start := alignUp r.start alignment
    if r.start ≤ aligned_start ∧ aligned_start + required ≤ r.stop then
      let alloc_end := aligned_start + required
      let has_before := r.start < aligned_start
      let has_after := alloc_end < r.stop
      if (has_before ∧ has_after) ∧ MAX_RANGES ≤ n then
        allocGo alignment required n (r :: acc) rest
      else
        let base := acc.reverse ++ rest
        let base1 := if has_before then insert_range_sorted ⟨r.start, aligned_start⟩ base else base
        let base2 := if has_after then insert_range_sorted ⟨alloc_end, r.stop⟩ base1 else base1
        some (aligned_start, base2)
    else allocGo alignment required n (r :: acc) rest

/-- `allocate_contiguous_aligned(count, alignment)`; returns the start
address and the new state. -/
def allocate_contiguous_aligned (s : FState) (count alignment : Nat) :
    Option (Nat × FState) :=
  if count = 0 then none
  else
    let required := count * PAGE_SIZE
    match allocGo alignment required s.free_ranges.length [] s.free_ranges with
    | none => none
    | some (addr, l) =>
      some (addr, { free_ranges := l,
                    allocated_bytes := s.allocated_bytes + required,
                    total_bytes := s.total_bytes })

/-- `coalesce_ranges`, with structural fuel (the merge branch shortens the
list, so fuel `length` suffices; surplus fuel is harmless). -/
def coalesceFuel : Nat → List PhysRange → List PhysRange
  | 0, l => l
  | _ + 1, [] => []
  | _ + 1, [r] => [r]
  | fuel + 1, r1 :: r2 :: rest =>
    if r1.stop = r2.start then coalesceFuel fuel (⟨r1.start, r2.stop⟩ :: rest)
    else r1 :: coalesceFuel fuel (r2 :: rest)

def coalesce_ranges (l : List PhysRange) : List PhysRange :=
  coalesceFuel l.length l

/-- `free_contiguous(start, count)`.  (`allocated_bytes` uses `saturating_sub`;
Lean's `Nat` subtraction is exactly that.) -/
def free_contiguous (s : FState) (start count : Nat) : FState :=
  if count = 0 then s
  else
    { free_ranges := coalesce_ranges (insert_range_sorted
        ⟨start, start + count * PAGE_SIZE⟩ s.free_ranges),
      allocated_bytes := s.allocated_bytes - count * PAGE_SIZE,
      total_bytes := s.total_bytes }

/-- Sum of range sizes, `Σ (end - start)`. -/
def rangeSum (l : List PhysRange) : Nat := (l.map (fun r => r.stop - r.start)).sum

/-- Two ranges are disjoint. -/
def DisjR (a b : PhysRange) : Prop := a.stop ≤ b.start ∨ b.stop ≤ a.start

instance (a b : PhysRange) : Decidable (DisjR a b) := by unfold DisjR; infer_instance

/-- A configuration: allocator state plus outstanding allocations
(start address, page count). -/
structure FConfig where
  st : FState
  out : List (Nat × Nat)

/-- One legal interaction: an aligned allocation (the source only ever passes
power-of-two alignments: `PAGE_SIZE` and `HUGE_PAGE_SIZE`), or a free of a
previously allocated region.  The free step carries the source's non-panic
condition `range_count < MAX_RANGES` (otherwise `insert_range_sorted` panics
and there is no post-state). -/
inductive FStep : FConfig → FConfig → Prop
  | alloc (c : FConfig) (count alignment j addr : Nat) (s2 : FState) :
      alignment = 2 ^ j →
      allocate_contiguous_aligned c.st count alignment = some (addr, s2) →
      FStep c ⟨s2, (addr, count) :: c.out⟩
  | free (c : FConfig) (addr count : Nat) :
      (addr, count) ∈ c.out →
      c.st.free_ranges.length < MAX_RANGES →
      FStep c ⟨free_contiguous c.st addr count, c.out.erase (addr, count)⟩

/-- Configurations reachable from `init regions`. -/
inductive ReachableF (regions : List Region) : FConfig → Prop
  | init : ReachableF regions ⟨init regions, []⟩
  | step {c c' : FConfig} : ReachableF regions c → FStep c c' → ReachableF regions c'

/-- An outstanding allocation `(addr, count)` is disjoint from a range. -/
def DisjO (o : Nat × Nat) (r : PhysRange) : Prop :=
  o.1 + o.2 * PAGE_SIZE ≤ r.start ∨ r.stop ≤ o.1

instance (o : Nat × Nat) (r : PhysRange) : Decidable (DisjO o r) := by
  unfold DisjO; infer_instance

/-- Two outstanding allocations are disjoint. -/
def DisjOO (o p : Nat × Nat) : Prop :=
  o.1 + o.2 * PAGE_SIZE ≤ p.1 ∨ p.1 + p.2 * PAGE_SIZE ≤ o.1

instance (o p : Nat × Nat) : Decidable (DisjOO o p) := by
  unfold DisjOO; infer_instance

/-- Consistency invariant of the bootstrap allocator: every tracked range is
nonempty; ranges are ordered and disjoint; the byte accounting balances; the
allocated counter equals the outstanding total; outstanding allocations are
nonempty, pairwise disjoint, and disjoint from every free range. -/
structure InvF (c : FConfig) : Prop where
  hne : ∀ r ∈ c.st.free_ranges, r.start < r.stop
  hord : c.st.free_ranges.Pairwise (fun a b => a.stop ≤ b.start)
  hsum : c.st.total_bytes = c.st.allocated_bytes + rangeSum c.st.free_ranges
  halloc : c.st.allocated_bytes = (c.out.map (fun o => o.2 * PAGE_SIZE)).sum
  houtpos : ∀ o ∈ c.out, 0 < o.2
  houtdis : ∀ o ∈ c.out, ∀ r ∈ c.st.free_ranges, DisjO o r
  houtpair : c.out.Pairwise DisjOO

end BFA

/-! ### ELF loader — src/kernel/src/tasks/elf.rs -/

namespace Elf

def PAGE : Nat := 4096

def USER_STACK_TOP : Nat := 0x7FFFFF000

def USER_STACK_PAGES : Nat := 16

def USER_STACK_SIZE : Nat := USER_STACK_PAGES * 4096

/-- Page-table flag bits used by the loader (numeric values of the x86_64
`PageTableFlags`). -/
def FLAG_PRESENT : Nat := 1

def FLAG_WRITABLE : Nat := 2

def FLAG_USER_ACCESSIBLE : Nat := 4

def FLAG_NO_EXECUTE : Nat := 2 ^ 63

/-- `enum Error`.  (`InvalidElf` wraps a `goblin::error::Error` in the source;
the payload is irrelevant to the claims and omitted.) -/
inductive Error where
  | MappingFailed (msg : String)
  | InvalidElf
deriving DecidableEq

/-- Everything `load_elf` does to the outside world, in order: page mappings
performed via `map_user_page` (each allocating the next fresh physical
frame), page zeroings, and byte copies from the file into a frame. -/
inductive LEvent where
  | map (vaddr flags frame : Nat)
  | zero (frame : Nat)
  | copy (frame pageOffset : Nat) (bytes : List Nat)
deriving DecidableEq

/-- Loader-visible machine state: the next fresh frame index (the frame
provider is modelled as inexhaustible, so `map_user_page` never fails) and
the event log. -/
structure MState where
  nextFrame : Nat
  events : List LEvent
deriving DecidableEq

def initM : MState := ⟨0, []⟩

/-- Outcome of running loader code: a value, an early `Err` return, or a Rust
panic (out-of-bounds slice index). -/
inductive LRes (α : Type) where
  | ok (a : α)
  | err (e : Error)
  | panic
deriving DecidableEq

/-- Little-endian read of `n` bytes at offset `off` (reads are always guarded
by bounds checks in the source; out-of-range bytes read as 0). -/
def readLE (data : List Nat) (off n : Nat) : Nat :=
  (List.range n).foldr (fun i acc => acc * 256 + data.getD (off + i) 0) 0

/-- The fields of `goblin::elf64::program_header::ProgramHeader` read at
byte offset `off` (struct layout: `p_type`,`p_flags` u32; then u64
`p_offset`,`p_vaddr`,`p_paddr`,`p_filesz`,`p_memsz`,`p_align`). -/
structure PH where
  p_type : Nat
  p_flags : Nat
  p_offset : Nat
  p_vaddr : Nat
  p_filesz : Nat
  p_memsz : Nat
deriving DecidableEq

def readPH (data : List Nat) (off : Nat) : PH :=
  { p_type := readLE data off 4
    p_flags := readLE data (off + 4) 4
    p_offset := readLE data (off + 8) 8
    p_vaddr := readLE data (off + 16) 8
    p_filesz := readLE data (off + 32) 8
    p_memsz := readLE data (off + 40) 8 }

/-- `map_user_page` with the inexhaustible provider: allocate the next frame,
log the mapping, return the frame's physical address (identified with its
index). -/
def map_user_page (st : MState) (vaddr flags : Nat) : Nat × MState :=
  (st.nextFrame, ⟨st.nextFrame + 1, st.events ++ [LEvent.map vaddr flags st.nextFrame]⟩)

/-- Process one page of a LOAD segment: map, zero, and copy the overlap of
the segment's file data with this page (a slice index past the end of `data`
is a Rust panic). -/
def processPage (data : List Nat) (ph : PH) (flags pageVaddr : Nat) (st : MState) :
    LRes MState :=
  let mp := map_user_page st pageVaddr flags
  let phys := mp.1
  let st2 : MState := ⟨mp.2.nextFrame, mp.2.events ++ [LEvent.zero phys]⟩
  let page_start := pageVaddr
  let page_end := pageVaddr + 4096
  let seg_start := ph.p_vaddr
  let seg_file_end := (ph.p_vaddr + ph.p_filesz) % 2 ^ 64
  if page_start < seg_file_end ∧ seg_start < page_end then
    let copy_start := max seg_start page_start
    let copy_end := min seg_file_end page_end
    let copy_len := copy_end - copy_start
    if 0 < copy_len then
      let file_offset := ph.p_offset + (copy_start - ph.p_vaddr)
      if file_offset + copy_len ≤ data.length then
        LRes.ok ⟨st2.nextFrame, st2.events ++
          [LEvent.copy phys (copy_start - pageVaddr) ((data.drop file_offset).take copy_len)]⟩
      else LRes.panic
    else LRes.ok st2
  else LRes.ok st2

def processPages (data : List Nat) (ph : PH) (flags : Nat) :
    List Nat → MState → LRes MState
  | [], st => LRes.ok st
  | v :: vs, st =>
    match processPage data ph flags v st with
    | LRes.ok st' => processPages data ph flags vs st'
    | LRes.err e => LRes.err e
    | LRes.panic => LRes.panic

/-- The list of page addresses `(start_page..end_page).step_by(4096)` for a
segment; the `end_page` computation wraps modulo `2^64` exactly as the `u64`
arithmetic in the source does. -/
def segPageList (vaddr memsz : Nat) : List Nat :=
  let start_page := vaddr / 4096 * 4096
  let end_page := (vaddr + memsz + 0xFFF) % 2 ^ 64 / 4096 * 4096
  (List.range ((end_page - start_page) / 4096)).map (fun i => start_page + 4096 * i)

/-- The body of the program-header loop for one (already bounds-checked)
header: LOAD segments (`p_type == 1`) get their pages mapped
writable/user/present, with no-execute when the executable flag (bit 0 of
`p_flags`) is clear; other types are skipped. -/
def processSegment (data : List Nat) (ph : PH) (st : MState) : LRes MState :=
  if ph.p_type = 1 then
    let flags :=
      (FLAG_PRESENT ||| FLAG_USER_ACCESSIBLE ||| FLAG_WRITABLE) |||
        (if ph.p_flags % 2 = 0 then FLAG_NO_EXECUTE else 0)
    processPages data ph flags (segPageList ph.p_vaddr ph.p_memsz) st
  else LRes.ok st

/-- The program-header loop over indices `idxs` (each index is first checked
for `ph_start + size_of::<ProgramHeader>() > data.len()`). -/
def phLoop (data : List Nat) (ph_offset ph_size : Nat) :
    List Nat → MState → LRes MState
  | [], st => LRes.ok st
  | i :: is, st =>
    let ph_start := ph_offset + i * ph_size
    if data.length < ph_start + 56 then LRes.err (Error.MappingFailed "Program header out of bounds")
    else
      match processSegment data (readPH data ph_start) st with
      | LRes.ok st' => phLoop data ph_offset ph_size is st'
      | LRes.err e => LRes.err e
      | LRes.panic => LRes.panic

/-- The user-stack mapping loop at the end of `load_elf`: 16 pages below
`USER_STACK_TOP`, mapped present/writable/user/no-execute and zeroed. -/
def stackLoop : List Nat → MState → MState
  | [], st => st
  | v :: vs, st =>
    let flags := FLAG_PRESENT ||| FLAG_WRITABLE ||| FLAG_USER_ACCESSIBLE ||| FLAG_NO_EXECUTE
    let mp := map_user_page st v flags
    stackLoop vs ⟨mp.2.nextFrame, mp.2.events ++ [LEvent.zero mp.1]⟩

def stackPageList : List Nat :=
  (List.range USER_STACK_PAGES).map
    (fun i => (USER_STACK_TOP - USER_STACK_SIZE) + 4096 * i)

/-- `ElfLoadResult` plus the final machine state. -/
structure LoadResult where
  entry_point : Nat
  stack_top : Nat
  final : MState
deriving DecidableEq

/-- `load_elf`.  Header validation exactly as in the source: minimum length,
magic `\x7fELF`, 64-bit class byte; then the program-header loop, then the
user stack. -/
def load_elf (data : List Nat) : LRes LoadResult :=
  if data.length < 64 then LRes.err (Error.MappingFailed "ELF too small for header")
  else if ¬(data.getD 0 0 = 0x7f ∧ data.getD 1 0 = 0x45 ∧ data.getD 2 0 = 0x4c ∧
      data.getD 3 0 = 0x46) then
    LRes.err (Error.MappingFailed "Invalid ELF magic")
  else if data.getD 4 0 ≠ 2 then LRes.err (Error.MappingFailed "Not a 64-bit ELF")
  else
    let entry := readLE data 24 8
    let ph_offset := readLE data 32 8
    let ph_size := readLE data 54 2
    let ph_count := readLE data 56 2
    match phLoop data ph_offset ph_size (List.range ph_count) initM with
    | LRes.ok st => LRes.ok ⟨entry, USER_STACK_TOP, stackLoop stackPageList st⟩
    | LRes.err e => LRes.err e
    | LRes.panic => LRes.panic

end Elf

/-! ### Scheduler — src/kernel/src/tasks/scheduler.rs -/

namespace Sched

inductive TaskState where
  | Ready
  | Running
  | Blocked
deriving DecidableEq

/-- `TaskContext` (src/kernel/src/tasks/task.rs): the full saved register
file; field order follows the struct. -/
structure TaskContext where
  r15 : Nat
  r14 : Nat
  r13 : Nat
  r12 : Nat
  r11 : Nat
  r10 : Nat
  r9 : Nat
  r8 : Nat
  rbp : Nat
  rdi : Nat
  rsi : Nat
  rdx : Nat
  rcx : Nat
  rbx : Nat
  rax : Nat
  rip : Nat
  cs : Nat
  rflags : Nat
  rsp : Nat
  ss : Nat
deriving DecidableEq

def zeroCtx : TaskContext := ⟨0,0,0,0,0,0,0,0,0,0,0,0,0,0,0,0,0,0,0,0⟩

/-- `Task`, restricted to the fields the scheduler reads: id, state, context,
and the value of `kernel_stack_top()` (base address of the boxed kernel
stack plus its size). -/
structure Task where
  id : Nat
  state : TaskState
  context : TaskContext
  kernel_stack_top : Nat
deriving DecidableEq

def dummyTask : Task := ⟨0, TaskState.Ready, zeroCtx, 0⟩

structure Scheduler where
  tasks : List Task
  current : Nat
  initialized : Bool
deriving DecidableEq

/-- `Scheduler::schedule`.  Pointers to the outgoing and incoming
`TaskContext` are modelled by the indices of the tasks holding them; the
third component is the incoming task's kernel-stack top.  (Indexing with
`current ≥ tasks.len()` panics in Rust; the model reads a dummy, and all
statements below assume `current < tasks.length`.) -/
def schedule (s : Scheduler) : Option ((Nat × Nat × Nat) × Scheduler) :=
  if s.tasks.length < 2 then none
  else
    let cur := s.current
    let t0 := s.tasks.getD cur dummyTask
    let tasks1 := s.tasks.set cur { t0 with state := TaskState.Ready }
    let newCur := (cur + 1) % tasks1.length
    let t1 := tasks1.getD newCur dummyTask
    let tasks2 := tasks1.set newCur { t1 with state := TaskState.Running }
    some ((cur, newCur, t1.kernel_stack_top),
      { tasks := tasks2, current := newCur, initialized := s.initialized })

end Sched

/-! ### Slab cache — src/kernel/src/mm/slub.rs -/

namespace Slub

def PAGE_SIZE : Nat := 4096

/-- The part of a `SlabHeader` `dealloc` interacts with: the embedded free
list (as the list of free object addresses, head first) and the `in_use`
count.  The `next_slab` links are represented once, by the order of the
cache's partial list below. -/
structure SlabData where
  freelist : List Nat
  in_use : Nat
deriving DecidableEq

/-- State seen by `SCache::dealloc`: the slab headers (indexed by page base
address), the cache's partial list (page base addresses, head first — the
intrusive `next_slab` chain), and the log of pages returned to the page
provider via `free_page`. -/
structure SlubState where
  slabs : Nat → SlabData
  partialList : List Nat
  freed : List Nat

def updSlab (f : Nat → SlabData) (p : Nat) (d : SlabData) : Nat → SlabData :=
  fun q => if q = p then d else f q

/-- `remove_slab_from_partial`: unlink the first matching node. -/
def remove_slab_from_partial (l : List Nat) (p : Nat) : List Nat := l.erase p

/-- `SCache::dealloc(ptr)`: mask `ptr` to its page, push the object on the
slab's freelist, decrement `in_use`; then (a) if `in_use` hit 0, unlink the
slab from partial and return the page to the provider, else (b) if the slab
was previously full (old freelist empty), re-link it at the head of partial,
else (c) leave the partial list alone. -/
def dealloc (s : SlubState) (ptr : Nat) : SlubState :=
  let page := ptr - ptr % PAGE_SIZE
  let sl := s.slabs page
  let sl2 : SlabData := ⟨ptr :: sl.freelist, sl.in_use - 1⟩
  if sl2.in_use = 0 then
    { slabs := updSlab s.slabs page sl2,
      partialList := remove_slab_from_partial s.partialList page,
      freed := s.freed ++ [page] }
  else if sl.freelist = [] then
    { slabs := updSlab s.slabs page sl2,
      partialList := page :: s.partialList,
      freed := s.freed }
  else
    { slabs := updSlab s.slabs page sl2,
      partialList := s.partialList,
      freed := s.freed }

end Slub

/-! ### Page-table editor — src/kernel/src/mm/user.rs -/

namespace PTE

def FLAG_PRESENT : Nat := 1

def FLAG_WRITABLE : Nat := 2

def FLAG_USER_ACCESSIBLE : Nat := 4

def FLAG_HUGE_PAGE : Nat := 128

def FLAG_NO_EXECUTE : Nat := 2 ^ 63

/-- The mask `!NO_EXECUTE.bits()` of a `u64`: all bits except bit 63. -/
def NX_CLEAR_MASK : Nat := 2 ^ 63 - 1

/-- A page-table entry: target frame address and flag bits (`set_flags`
replaces the flag bits and keeps the address). -/
structure PTEntry where
  addr : Nat
  flags : Nat
deriving DecidableEq

/-- All page-table memory, through the kernel's physical window: table frame
address → entry index → entry. -/
def World : Type := Nat → Nat → PTEntry

def upd (w : World) (t i : Nat) (e : PTEntry) : World :=
  fun t' i' => if t' = t ∧ i' = i then e else w t' i'

/-- `PageTableEntry::frame()`: the frame if the entry is present (bit 0) and
not huge (bit 7), otherwise an error (`.expect` panics, modelled as
`none`). -/
def entryFrame (e : PTEntry) : Option Nat :=
  if e.flags.testBit 0 ∧ ¬ e.flags.testBit 7 then some e.addr else none

def p4_index (va : Nat) : Nat := va >>> 39 % 512

def p3_index (va : Nat) : Nat := va >>> 30 % 512

def p2_index (va : Nat) : Nat := va >>> 21 % 512

def p1_index (va : Nat) : Nat := va >>> 12 % 512

/-- Flags written at the final level: OR-in user (and writable if requested),
AND-out no-execute if executable is requested. -/
def finalFlags (f : Nat) (writable executable : Bool) : Nat :=
  let f1 := f ||| FLAG_USER_ACCESSIBLE
  let f2 := if writable then f1 ||| FLAG_WRITABLE else f1
  if executable then f2 &&& NX_CLEAR_MASK else f2

/-- `set_page_user_accessible(mapper, page, writable, executable)`, walking
from the level-4 table at `l4frame` (the CR3 root) for the page containing
`va`.  Each step reads the entry *after* the previous level's update, as the
source does; `none` is the panic of a failed `.expect` on `frame()` (whose
present/huge test, `entryFrame` above, is inlined here as an `if`). -/
def set_page_user_accessible (w : World) (l4frame va : Nat)
    (writable executable : Bool) : Option World :=
  let e4 := w l4frame (p4_index va)
  let e4' : PTEntry := ⟨e4.addr, e4.flags ||| FLAG_USER_ACCESSIBLE⟩
  let w1 := upd w l4frame (p4_index va) e4'
  if e4'.flags.testBit 0 ∧ ¬ e4'.flags.testBit 7 then
    let l3frame := e4'.addr
    let e3 := w1 l3frame (p3_index va)
    let e3' : PTEntry := ⟨e3.addr, e3.flags ||| FLAG_USER_ACCESSIBLE⟩
    let w2 := upd w1 l3frame (p3_index va) e3'
    if e3'.flags.testBit 0 ∧ ¬ e3'.flags.testBit 7 then
      let l2frame := e3'.addr
      let e2 := w2 l2frame (p2_index va)
      if e2.flags.testBit 7 then
        some (upd w2 l2frame (p2_index va) ⟨e2.addr, finalFlags e2.flags writable executable⟩)
      else
        let e2' : PTEntry := ⟨e2.addr, e2.flags ||| FLAG_USER_ACCESSIBLE⟩
        let w3 := upd w2 l2frame (p2_index va) e2'
        if e2'.flags.testBit 0 ∧ ¬ e2'.flags.testBit 7 then
          let l1frame := e2'.addr
          let e1 := w3 l1frame (p1_index va)
          some (upd w3 l1frame (p1_index va) ⟨e1.addr, finalFlags e1.flags writable executable⟩)
        else none
    else none
  else none

end PTE

end LymadOS

/-! ## Theorems -/

namespace LymadOS

/-! ### Generic list helpers -/

namespace Util

theorem getD_set_self {α : Type} (l : List α) (i : Nat) (x d : α) (h : i < l.length) :
    (l.set i x).getD i d = x := by
  induction l generalizing i with
  | nil => simp at h
  | cons a t ih =>
    cases i with
    | zero => rfl
    | succ n => simpa using ih n (by simpa using h)

theorem getD_set_ne {α : Type} (l : List α) (i j : Nat) (x d : α) (h : i ≠ j) :
    (l.set i x).getD j d = l.getD j d := by
  induction l generalizing i j with
  | nil => simp
  | cons a t ih =>
    cases i with
    | zero =>
      cases j with
      | zero => exact absurd rfl h
      | succ m => rfl
    | succ n =>
      cases j with
      | zero => rfl
      | succ m => simpa using ih n m (by omega)

theorem set_getD_self {α : Type} (l : List α) (i : Nat) (d : α) :
    l.set i (l.getD i d) = l := by
  induction l generalizing i with
  | nil => rfl
  | cons a t ih =>
    cases i with
    | zero => rfl
    | succ n => simpa using ih n

theorem countP_erase_mem {α : Type} [DecidableEq α] (l : List α) (a : α) (p : α → Bool)
    (h : a ∈ l) :
    (l.erase a).countP p + (if p a then 1 else 0) = l.countP p := by
  induction l with
  | nil => simp at h
  | cons b t ih =>
    by_cases hba : b = a
    · subst hba
      rw [List.erase_cons_head, List.countP_cons]
    · rw [List.erase_cons_tail (by simpa using (Ne.symm hba ∘ Eq.symm) ∘ beq_iff_eq.mp)]
      have hat : a ∈ t := by
        cases h with
        | head => exact absurd rfl hba
        | tail _ h => exact h
      rw [List.countP_cons, List.countP_cons]
      have := ih hat
      omega

theorem sum_map_erase {α : Type} [BEq α] [LawfulBEq α] (l : List α) (a : α) (f : α → Nat)
    (h : a ∈ l) :
    ((l.erase a).map f).sum + f a = (l.map f).sum := by
  induction l with
  | nil => simp at h
  | cons b t ih =>
    by_cases hba : b = a
    · subst hba
      simp [List.erase_cons_head]
      omega
    · rw [List.erase_cons_tail (by simpa using (Ne.symm hba ∘ Eq.symm) ∘ beq_iff_eq.mp)]
      have hat : a ∈ t := by
        cases h with
        | head => exact absurd rfl hba
        | tail _ h => exact h
      have := ih hat
      simp only [List.map_cons, List.sum_cons]
      omega

end Util

end LymadOS

namespace LymadOS

/-! ### C10 — out-of-window dealloc and add_frame are no-ops -/

namespace Buddy

theorem deallocFuel_out_of_range (fuel : Nat) (s : BState) (ptr order : Nat)
    (h : ptr < s.offset ∨ s.offset + MAX_PAGES * PAGE_SIZE ≤ ptr) :
    deallocFuel fuel s ptr order = s := by
  cases fuel with
  | zero => rfl
  | succ n => simp only [deallocFuel, if_pos h]

/-- C10: for every allocator state and every pointer outside the window
`[offset, offset + MAX_PAGES * 4096)`, both `dealloc(ptr, order)` (for any
order) and `add_frame(ptr)` return without signalling an error and leave the
entire state (free lists, bitmap, offset) unchanged. -/
theorem c10_out_of_window_noop (s : BState) (ptr order : Nat)
    (h : ptr < s.offset ∨ s.offset + MAX_PAGES * PAGE_SIZE ≤ ptr) :
    dealloc s ptr order = s ∧ add_frame s ptr = s := by
  refine ⟨deallocFuel_out_of_range _ _ _ _ h, ?_⟩
  simp only [add_frame, if_pos h]

/-- Witness for C10 at a concrete state and pointer just past the window. -/
theorem c10_out_of_window_noop_witness :
    dealloc (newState 77) 0 3 = newState 77 ∧ add_frame (newState 77) 0 = newState 77 :=
  c10_out_of_window_noop (newState 77) 0 3 (Or.inl (by decide))

end Buddy

/-! ### C6 — Scheduler::schedule -/

namespace Sched

theorem succ_mod_ne (c n : Nat) (h2 : 2 ≤ n) (hc : c < n) : (c + 1) % n ≠ c := by
  rcases Nat.lt_or_ge (c + 1) n with h | h
  · rw [Nat.mod_eq_of_lt h]; omega
  · have hcn : c + 1 = n := by omega
    rw [hcn, Nat.mod_self]; omega

/-- C6: `schedule()` returns `None` exactly when fewer than two tasks exist;
otherwise it marks the task at the old `current` Ready, advances `current`
to `(current + 1) % n`, marks the task there Running, leaves every other
task and all other task fields untouched, and returns the triple (outgoing
context, incoming context, incoming kernel-stack top) — context pointers
being modelled by the indices of the tasks that own them. -/
theorem c6_schedule_spec (s : Scheduler) (hcur : s.current < s.tasks.length) :
    (schedule s = none ↔ s.tasks.length < 2) ∧
    (2 ≤ s.tasks.length →
      ∃ st : Scheduler,
        schedule s = some ((s.current, (s.current + 1) % s.tasks.length,
          (s.tasks.getD ((s.current + 1) % s.tasks.length) dummyTask).kernel_stack_top),
          st) ∧
        st.current = (s.current + 1) % s.tasks.length ∧
        st.current ≠ s.current ∧
        st.tasks.length = s.tasks.length ∧
        st.tasks.getD s.current dummyTask =
          { s.tasks.getD s.current dummyTask with state := TaskState.Ready } ∧
        st.tasks.getD st.current dummyTask =
          { s.tasks.getD st.current dummyTask with state := TaskState.Running } ∧
        (∀ i, i ≠ s.current → i ≠ st.current →
          st.tasks.getD i dummyTask = s.tasks.getD i dummyTask) ∧
        st.initialized = s.initialized) := by
  constructor
  · constructor
    · intro h
      by_contra hlt
      simp only [schedule, if_neg hlt] at h
      exact Option.noConfusion h
    · intro h
      simp only [schedule, if_pos h]
  · intro h2
    have hn2 : ¬ s.tasks.length < 2 := by omega
    have hne : (s.current + 1) % s.tasks.length ≠ s.current :=
      succ_mod_ne s.current s.tasks.length h2 hcur
    simp only [schedule, if_neg hn2, List.length_set]
    rw [Util.getD_set_ne s.tasks s.current ((s.current + 1) % s.tasks.length) _ dummyTask
      (Ne.symm hne)]
    refine ⟨_, rfl, rfl, hne, ?_, ?_, ?_, ?_, rfl⟩
    · dsimp only
      simp only [List.length_set]
    · dsimp only
      rw [Util.getD_set_ne _ _ _ _ _ hne]
      exact Util.getD_set_self _ _ _ _ hcur
    · dsimp only
      rw [Util.getD_set_self _ _ _ _
        (by simp only [List.length_set]; exact Nat.mod_lt _ (by omega))]
    · intro i hic hic2
      dsimp only at hic2 ⊢
      rw [Util.getD_set_ne _ _ _ _ _ (Ne.symm hic2), Util.getD_set_ne _ _ _ _ _ (Ne.symm hic)]

/-- Witness for C6: a concrete two-task scheduler with `current = 0`; the
rotation picks task index 1 and reports its kernel-stack top 22. -/
theorem c6_schedule_spec_witness :
    ∃ st : Scheduler,
      schedule ⟨[⟨1, TaskState.Running, zeroCtx, 11⟩, ⟨2, TaskState.Ready, zeroCtx, 22⟩],
        0, true⟩ = some ((0, 1, 22), st) ∧ st.current = 1 := by
  have h := c6_schedule_spec
    ⟨[⟨1, TaskState.Running, zeroCtx, 11⟩, ⟨2, TaskState.Ready, zeroCtx, 22⟩], 0, true⟩
    (by decide)
  obtain ⟨st, h1, h2, _⟩ := h.2 (by decide)
  refine ⟨st, ?_, ?_⟩
  · exact h1.trans (congrArg (fun t => some (t, st)) (by decide))
  · rw [h2]
    decide

end Sched

end LymadOS

namespace LymadOS

/-! ### C9 — SCache::dealloc partial-list behaviour -/

namespace Slub

theorem updSlab_self (f : Nat → SlabData) (p : Nat) (d : SlabData) : updSlab f p d p = d := by
  simp [updSlab]

theorem updSlab_other (f : Nat → SlabData) (p q : Nat) (d : SlabData) (h : q ≠ p) :
    updSlab f p d q = f q := by
  simp [updSlab, h]

/-- C9: for a `dealloc` of an object on a slab in a consistent state
(`in_use ≥ 1`): the object is pushed on the slab's freelist and `in_use`
decremented; if `in_use` reached 0 the slab is unlinked from the cache's
partial list and its page handed to the provider's `free_page`; if the slab
was previously full (its freelist had been empty) it is re-linked at the
head of the partial list; in all other cases the partial list and the
provider are untouched.  No other slab changes. -/
theorem c9_dealloc_partial_spec (s : SlubState) (ptr : Nat)
    (h1 : 1 ≤ (s.slabs (ptr - ptr % PAGE_SIZE)).in_use) :
    (dealloc s ptr).slabs (ptr - ptr % PAGE_SIZE) =
      ⟨ptr :: (s.slabs (ptr - ptr % PAGE_SIZE)).freelist,
        (s.slabs (ptr - ptr % PAGE_SIZE)).in_use - 1⟩ ∧
    (∀ q, q ≠ ptr - ptr % PAGE_SIZE → (dealloc s ptr).slabs q = s.slabs q) ∧
    ((s.slabs (ptr - ptr % PAGE_SIZE)).in_use = 1 →
      (dealloc s ptr).partialList = s.partialList.erase (ptr - ptr % PAGE_SIZE) ∧
      (dealloc s ptr).freed = s.freed ++ [ptr - ptr % PAGE_SIZE]) ∧
    ((s.slabs (ptr - ptr % PAGE_SIZE)).in_use ≠ 1 →
      (s.slabs (ptr - ptr % PAGE_SIZE)).freelist = [] →
      (dealloc s ptr).partialList = (ptr - ptr % PAGE_SIZE) :: s.partialList ∧
      (dealloc s ptr).freed = s.freed) ∧
    ((s.slabs (ptr - ptr % PAGE_SIZE)).in_use ≠ 1 →
      (s.slabs (ptr - ptr % PAGE_SIZE)).freelist ≠ [] →
      (dealloc s ptr).partialList = s.partialList ∧
      (dealloc s ptr).freed = s.freed) := by
  set page := ptr - ptr % PAGE_SIZE with hpage
  set sl := s.slabs page with hsl
  by_cases hz : sl.in_use - 1 = 0
  · have h1' : sl.in_use = 1 := by omega
    refine ⟨?_, ?_, ?_, ?_, ?_⟩
    · simp only [dealloc, ← hpage, ← hsl, if_pos hz]
      exact updSlab_self _ _ _
    · intro q hq
      simp only [dealloc, ← hpage, ← hsl, if_pos hz]
      exact updSlab_other _ _ _ _ hq
    · intro _
      simp only [dealloc, ← hpage, ← hsl, if_pos hz]
      refine ⟨?_, ?_⟩ <;> first
        | rfl
        | trivial
    · intro hne _
      exact absurd h1' hne
    · intro hne _
      exact absurd h1' hne
  · have h1' : sl.in_use ≠ 1 := by omega
    by_cases hfl : sl.freelist = []
    · refine ⟨?_, ?_, ?_, ?_, ?_⟩
      · simp only [dealloc, ← hpage, ← hsl, if_neg hz, if_pos hfl]
        exact updSlab_self _ _ _
      · intro q hq
        simp only [dealloc, ← hpage, ← hsl, if_neg hz, if_pos hfl]
        exact updSlab_other _ _ _ _ hq
      · intro hc
        exact absurd hc h1'
      · intro _ _
        simp only [dealloc, ← hpage, ← hsl, if_neg hz, if_pos hfl]
        refine ⟨?_, ?_⟩ <;> first
        | rfl
        | trivial
      · intro _ hc
        exact absurd hfl hc
    · refine ⟨?_, ?_, ?_, ?_, ?_⟩
      · simp only [dealloc, ← hpage, ← hsl, if_neg hz, if_neg hfl]
        exact updSlab_self _ _ _
      · intro q hq
        simp only [dealloc, ← hpage, ← hsl, if_neg hz, if_neg hfl]
        exact updSlab_other _ _ _ _ hq
      · intro hc
        exact absurd hc h1'
      · intro _ hc
        exact absurd hc hfl
      · intro _ _
        simp only [dealloc, ← hpage, ← hsl, if_neg hz, if_neg hfl]
        refine ⟨?_, ?_⟩ <;> first
        | rfl
        | trivial

/-- Witness for C9: a one-object slab at page 4096 whose single object
0x1010 is freed; `in_use` hits 0, the slab leaves the partial list and the
page goes back to the provider. -/
theorem c9_dealloc_partial_spec_witness :
    (dealloc ⟨fun _ => ⟨[], 1⟩, [4096], []⟩ 0x1010).partialList = [] ∧
    (dealloc ⟨fun _ => ⟨[], 1⟩, [4096], []⟩ 0x1010).freed = [4096] := by
  have h := c9_dealloc_partial_spec ⟨fun _ => ⟨[], 1⟩, [4096], []⟩ 0x1010 (by decide)
  obtain ⟨-, -, h3, -, -⟩ := h
  obtain ⟨ha, hb⟩ := h3 (by decide)
  constructor
  · rw [ha]
    decide
  · rw [hb]
    decide

end Slub

end LymadOS

namespace LymadOS

/-! ### C7 — set_page_user_accessible -/

namespace PTE

theorem upd_self (w : World) (t i : Nat) (e : PTEntry) : upd w t i e t i = e := by
  simp [upd]

theorem upd_other (w : World) (t i : Nat) (e : PTEntry) (t' i' : Nat)
    (h : ¬(t' = t ∧ i' = i)) : upd w t i e t' i' = w t' i' := by
  simp only [upd, if_neg h]

theorem or_user_testBit (f i : Nat) (h : i ≠ 2) :
    (f ||| FLAG_USER_ACCESSIBLE).testBit i = f.testBit i := by
  have h4 : FLAG_USER_ACCESSIBLE = 2 ^ 2 := rfl
  rw [h4, Nat.testBit_lor, Nat.testBit_two_pow_of_ne (Ne.symm h), Bool.or_false]

theorem or_user_testBit2 (f : Nat) :
    (f ||| FLAG_USER_ACCESSIBLE).testBit 2 = true := by
  have h4 : FLAG_USER_ACCESSIBLE = 2 ^ 2 := rfl
  rw [h4, Nat.testBit_lor, Nat.testBit_two_pow_self, Bool.or_true]

theorem entryFrame_or_user (e : PTEntry) :
    entryFrame ⟨e.addr, e.flags ||| FLAG_USER_ACCESSIBLE⟩ = entryFrame e := by
  simp only [entryFrame, or_user_testBit e.flags 0 (by omega),
    or_user_testBit e.flags 7 (by omega)]

theorem finalFlags_bit2 (f : Nat) (wr ex : Bool) : (finalFlags f wr ex).testBit 2 = true := by
  cases wr <;> cases ex <;>
    simp [finalFlags, NX_CLEAR_MASK, FLAG_WRITABLE, FLAG_USER_ACCESSIBLE,
      Nat.testBit_lor, Nat.testBit_land, Nat.testBit_two_pow_sub_one,
      show Nat.testBit 4 2 = true from by decide,
      show Nat.testBit 2 2 = false from by decide,
      show Nat.testBit 9223372036854775807 2 = true from by decide]

theorem finalFlags_bit1 (f : Nat) (wr ex : Bool) :
    (finalFlags f wr ex).testBit 1 = (f.testBit 1 || wr) := by
  cases wr <;> cases ex <;>
    simp [finalFlags, NX_CLEAR_MASK, FLAG_WRITABLE, FLAG_USER_ACCESSIBLE,
      Nat.testBit_lor, Nat.testBit_land, Nat.testBit_two_pow_sub_one,
      show Nat.testBit 4 1 = false from by decide,
      show Nat.testBit 2 1 = true from by decide,
      show Nat.testBit 9223372036854775807 1 = true from by decide]

theorem finalFlags_bit63 (f : Nat) (wr ex : Bool) :
    (finalFlags f wr ex).testBit 63 = (f.testBit 63 && !ex) := by
  cases wr <;> cases ex <;>
    simp [finalFlags, NX_CLEAR_MASK, FLAG_WRITABLE, FLAG_USER_ACCESSIBLE,
      Nat.testBit_lor, Nat.testBit_land, Nat.testBit_two_pow_sub_one,
      show Nat.testBit 4 63 = false from by decide,
      show Nat.testBit 2 63 = false from by decide,
      show Nat.testBit 9223372036854775807 63 = false from by decide]

theorem finalFlags_bit_other (f : Nat) (wr ex : Bool) (i : Nat) (hi : i < 64)
    (h1 : i ≠ 1) (h2 : i ≠ 2) (h63 : i ≠ 63) :
    (finalFlags f wr ex).testBit i = f.testBit i := by
  have hmask : NX_CLEAR_MASK.testBit i = true := by
    rw [show NX_CLEAR_MASK = 2 ^ 63 - 1 from rfl, Nat.testBit_two_pow_sub_one]
    exact decide_eq_true (by omega)
  have e4 : FLAG_USER_ACCESSIBLE = 2 ^ 2 := rfl
  have e2 : FLAG_WRITABLE = 2 ^ 1 := rfl
  cases wr <;> cases ex <;>
    simp [finalFlags, e4, e2, Nat.testBit_lor, Nat.testBit_land, hmask,
      Nat.testBit_two_pow_of_ne (Ne.symm h1), Nat.testBit_two_pow_of_ne (Ne.symm h2)]

end PTE

end LymadOS

namespace LymadOS

namespace PTE

theorem or_user_cond (e : PTEntry) (hp : e.flags.testBit 0 = true)
    (hh : e.flags.testBit 7 = false) :
    ((⟨e.addr, e.flags ||| FLAG_USER_ACCESSIBLE⟩ : PTEntry).flags.testBit 0 = true) ∧
    ¬ ((⟨e.addr, e.flags ||| FLAG_USER_ACCESSIBLE⟩ : PTEntry).flags.testBit 7 = true) := by
  constructor
  · show (e.flags ||| FLAG_USER_ACCESSIBLE).testBit 0 = true
    rw [or_user_testBit e.flags 0 (by omega)]
    exact hp
  · show ¬ ((e.flags ||| FLAG_USER_ACCESSIBLE).testBit 7 = true)
    rw [or_user_testBit e.flags 7 (by omega), hh]
    exact Bool.false_ne_true

/-- The walk of `set_page_user_accessible` on a consistent non-huge mapping,
computed as four pointwise updates. -/
theorem spua_eq_nonhuge (w : World) (l4f va : Nat) (wr ex : Bool)
    (e4 e3 e2 : PTEntry)
    (he4 : w l4f (p4_index va) = e4)
    (he3 : w e4.addr (p3_index va) = e3)
    (he2 : w e3.addr (p2_index va) = e2)
    (hp4 : e4.flags.testBit 0 = true) (hh4 : e4.flags.testBit 7 = false)
    (hp3 : e3.flags.testBit 0 = true) (hh3 : e3.flags.testBit 7 = false)
    (hp2 : e2.flags.testBit 0 = true) (hh2 : e2.flags.testBit 7 = false)
    (hd43 : ¬(e4.addr = l4f ∧ p3_index va = p4_index va))
    (hd42 : ¬(e3.addr = l4f ∧ p2_index va = p4_index va))
    (hd32 : ¬(e3.addr = e4.addr ∧ p2_index va = p3_index va))
    (hd41 : ¬(e2.addr = l4f ∧ p1_index va = p4_index va))
    (hd31 : ¬(e2.addr = e4.addr ∧ p1_index va = p3_index va))
    (hd21 : ¬(e2.addr = e3.addr ∧ p1_index va = p2_index va)) :
    set_page_user_accessible w l4f va wr ex =
      some (upd (upd (upd (upd w
        l4f (p4_index va) ⟨e4.addr, e4.flags ||| FLAG_USER_ACCESSIBLE⟩)
        e4.addr (p3_index va) ⟨e3.addr, e3.flags ||| FLAG_USER_ACCESSIBLE⟩)
        e3.addr (p2_index va) ⟨e2.addr, e2.flags ||| FLAG_USER_ACCESSIBLE⟩)
        e2.addr (p1_index va)
        ⟨(w e2.addr (p1_index va)).addr, finalFlags (w e2.addr (p1_index va)).flags wr ex⟩) := by
  simp only [set_page_user_accessible, he4]
  rw [if_pos (or_user_cond e4 hp4 hh4)]
  simp only [upd_other w l4f (p4_index va) _ e4.addr (p3_index va) hd43, he3]
  rw [if_pos (or_user_cond e3 hp3 hh3)]
  have hr2 : upd (upd w l4f (p4_index va) ⟨e4.addr, e4.flags ||| FLAG_USER_ACCESSIBLE⟩)
      e4.addr (p3_index va) ⟨e3.addr, e3.flags ||| FLAG_USER_ACCESSIBLE⟩
      e3.addr (p2_index va) = e2 := by
    rw [upd_other _ _ _ _ _ _ hd32, upd_other _ _ _ _ _ _ hd42, he2]
  simp only [hr2]
  rw [if_neg (by rw [hh2]; exact Bool.false_ne_true)]
  rw [if_pos (or_user_cond e2 hp2 hh2)]
  have hr1 : upd (upd (upd w l4f (p4_index va) ⟨e4.addr, e4.flags ||| FLAG_USER_ACCESSIBLE⟩)
      e4.addr (p3_index va) ⟨e3.addr, e3.flags ||| FLAG_USER_ACCESSIBLE⟩)
      e3.addr (p2_index va) ⟨e2.addr, e2.flags ||| FLAG_USER_ACCESSIBLE⟩
      e2.addr (p1_index va) = w e2.addr (p1_index va) := by
    rw [upd_other _ _ _ _ _ _ hd21, upd_other _ _ _ _ _ _ hd31,
      upd_other _ _ _ _ _ _ hd41]
  simp only [hr1]

/-- The walk of `set_page_user_accessible` when the level-2 entry is a huge
page: three pointwise updates. -/
theorem spua_eq_huge (w : World) (l4f va : Nat) (wr ex : Bool)
    (e4 e3 e2 : PTEntry)
    (he4 : w l4f (p4_index va) = e4)
    (he3 : w e4.addr (p3_index va) = e3)
    (he2 : w e3.addr (p2_index va) = e2)
    (hp4 : e4.flags.testBit 0 = true) (hh4 : e4.flags.testBit 7 = false)
    (hp3 : e3.flags.testBit 0 = true) (hh3 : e3.flags.testBit 7 = false)
    (hh2 : e2.flags.testBit 7 = true)
    (hd43 : ¬(e4.addr = l4f ∧ p3_index va = p4_index va))
    (hd42 : ¬(e3.addr = l4f ∧ p2_index va = p4_index va))
    (hd32 : ¬(e3.addr = e4.addr ∧ p2_index va = p3_index va)) :
    set_page_user_accessible w l4f va wr ex =
      some (upd (upd (upd w
        l4f (p4_index va) ⟨e4.addr, e4.flags ||| FLAG_USER_ACCESSIBLE⟩)
        e4.addr (p3_index va) ⟨e3.addr, e3.flags ||| FLAG_USER_ACCESSIBLE⟩)
        e3.addr (p2_index va) ⟨e2.addr, finalFlags e2.flags wr ex⟩) := by
  simp only [set_page_user_accessible, he4]
  rw [if_pos (or_user_cond e4 hp4 hh4)]
  simp only [upd_other w l4f (p4_index va) _ e4.addr (p3_index va) hd43, he3]
  rw [if_pos (or_user_cond e3 hp3 hh3)]
  have hr2 : upd (upd w l4f (p4_index va) ⟨e4.addr, e4.flags ||| FLAG_USER_ACCESSIBLE⟩)
      e4.addr (p3_index va) ⟨e3.addr, e3.flags ||| FLAG_USER_ACCESSIBLE⟩
      e3.addr (p2_index va) = e2 := by
    rw [upd_other _ _ _ _ _ _ hd32, upd_other _ _ _ _ _ _ hd42, he2]
  simp only [hr2]
  rw [if_pos hh2]

end PTE

end LymadOS

namespace LymadOS

namespace PTE

theorem nsymm {a b c d : Nat} (h : ¬(a = b ∧ c = d)) : ¬(b = a ∧ d = c) :=
  fun hh => h ⟨hh.1.symm, hh.2.symm⟩

/-- C7: after `set_page_user_accessible(page, writable, executable)` on a
page whose walk has all needed entries present and whose four walked slots
are pairwise distinct, the user-accessible bit (bit 2) is set at levels 4
and 3 with every other flag bit and the frame address unchanged there; at
the final level (level 1, or level 2 for a huge-page entry) additionally the
writable bit (bit 1) is OR-ed with `writable`, the no-execute bit (bit 63)
is cleared exactly when `executable` is requested and unchanged otherwise,
and all other flag bits below 64 are unchanged; every slot other than the
walked ones is untouched. -/
theorem c7_set_page_user_accessible_spec (w : World) (l4f va : Nat) (wr ex : Bool)
    (e4 e3 e2 : PTEntry)
    (he4 : w l4f (p4_index va) = e4)
    (he3 : w e4.addr (p3_index va) = e3)
    (he2 : w e3.addr (p2_index va) = e2)
    (hp4 : e4.flags.testBit 0 = true) (hh4 : e4.flags.testBit 7 = false)
    (hp3 : e3.flags.testBit 0 = true) (hh3 : e3.flags.testBit 7 = false)
    (hp2 : e2.flags.testBit 7 = false → e2.flags.testBit 0 = true)
    (hd43 : ¬(e4.addr = l4f ∧ p3_index va = p4_index va))
    (hd42 : ¬(e3.addr = l4f ∧ p2_index va = p4_index va))
    (hd32 : ¬(e3.addr = e4.addr ∧ p2_index va = p3_index va))
    (hd41 : ¬(e2.addr = l4f ∧ p1_index va = p4_index va))
    (hd31 : ¬(e2.addr = e4.addr ∧ p1_index va = p3_index va))
    (hd21 : ¬(e2.addr = e3.addr ∧ p1_index va = p2_index va)) :
    ∃ w', set_page_user_accessible w l4f va wr ex = some w' ∧
      (w' l4f (p4_index va)).addr = e4.addr ∧
      (w' l4f (p4_index va)).flags.testBit 2 = true ∧
      (∀ i, i ≠ 2 → (w' l4f (p4_index va)).flags.testBit i = e4.flags.testBit i) ∧
      (w' e4.addr (p3_index va)).addr = e3.addr ∧
      (w' e4.addr (p3_index va)).flags.testBit 2 = true ∧
      (∀ i, i ≠ 2 → (w' e4.addr (p3_index va)).flags.testBit i = e3.flags.testBit i) ∧
      (e2.flags.testBit 7 = true →
        (w' e3.addr (p2_index va)).addr = e2.addr ∧
        (w' e3.addr (p2_index va)).flags.testBit 2 = true ∧
        (w' e3.addr (p2_index va)).flags.testBit 1 = (e2.flags.testBit 1 || wr) ∧
        (w' e3.addr (p2_index va)).flags.testBit 63 = (e2.flags.testBit 63 && !ex) ∧
        (∀ i, i < 64 → i ≠ 1 → i ≠ 2 → i ≠ 63 →
          (w' e3.addr (p2_index va)).flags.testBit i = e2.flags.testBit i) ∧
        (∀ t i, ¬(t = l4f ∧ i = p4_index va) → ¬(t = e4.addr ∧ i = p3_index va) →
          ¬(t = e3.addr ∧ i = p2_index va) → w' t i = w t i)) ∧
      (e2.flags.testBit 7 = false →
        (w' e3.addr (p2_index va)).addr = e2.addr ∧
        (w' e3.addr (p2_index va)).flags.testBit 2 = true ∧
        (∀ i, i ≠ 2 → (w' e3.addr (p2_index va)).flags.testBit i = e2.flags.testBit i) ∧
        (w' e2.addr (p1_index va)).addr = (w e2.addr (p1_index va)).addr ∧
        (w' e2.addr (p1_index va)).flags.testBit 2 = true ∧
        (w' e2.addr (p1_index va)).flags.testBit 1 =
          ((w e2.addr (p1_index va)).flags.testBit 1 || wr) ∧
        (w' e2.addr (p1_index va)).flags.testBit 63 =
          ((w e2.addr (p1_index va)).flags.testBit 63 && !ex) ∧
        (∀ i, i < 64 → i ≠ 1 → i ≠ 2 → i ≠ 63 →
          (w' e2.addr (p1_index va)).flags.testBit i =
            (w e2.addr (p1_index va)).flags.testBit i) ∧
        (∀ t i, ¬(t = l4f ∧ i = p4_index va) → ¬(t = e4.addr ∧ i = p3_index va) →
          ¬(t = e3.addr ∧ i = p2_index va) → ¬(t = e2.addr ∧ i = p1_index va) →
          w' t i = w t i)) := by
  cases hcase : e2.flags.testBit 7 with
  | true =>
    refine ⟨_, spua_eq_huge w l4f va wr ex e4 e3 e2 he4 he3 he2 hp4 hh4 hp3 hh3 hcase
      hd43 hd42 hd32, ?_, ?_, ?_, ?_, ?_, ?_, ?_, ?_⟩
    · rw [upd_other _ _ _ _ _ _ (nsymm hd42), upd_other _ _ _ _ _ _ (nsymm hd43), upd_self]
    · rw [upd_other _ _ _ _ _ _ (nsymm hd42), upd_other _ _ _ _ _ _ (nsymm hd43), upd_self]
      exact or_user_testBit2 e4.flags
    · intro i hi
      rw [upd_other _ _ _ _ _ _ (nsymm hd42), upd_other _ _ _ _ _ _ (nsymm hd43), upd_self]
      exact or_user_testBit e4.flags i hi
    · rw [upd_other _ _ _ _ _ _ (nsymm hd32), upd_self]
    · rw [upd_other _ _ _ _ _ _ (nsymm hd32), upd_self]
      exact or_user_testBit2 e3.flags
    · intro i hi
      rw [upd_other _ _ _ _ _ _ (nsymm hd32), upd_self]
      exact or_user_testBit e3.flags i hi
    · intro _
      refine ⟨?_, ?_, ?_, ?_, ?_, ?_⟩
      · rw [upd_self]
      · rw [upd_self]
        exact finalFlags_bit2 e2.flags wr ex
      · rw [upd_self]
        exact finalFlags_bit1 e2.flags wr ex
      · rw [upd_self]
        exact finalFlags_bit63 e2.flags wr ex
      · intro i h64 h1 h2 h63
        rw [upd_self]
        exact finalFlags_bit_other e2.flags wr ex i h64 h1 h2 h63
      · intro t i ht4 ht3 ht2
        rw [upd_other _ _ _ _ _ _ ht2, upd_other _ _ _ _ _ _ ht3,
          upd_other _ _ _ _ _ _ ht4]
    · intro hcontra
      exact absurd hcontra (by simp)
  | false =>
    refine ⟨_, spua_eq_nonhuge w l4f va wr ex e4 e3 e2 he4 he3 he2 hp4 hh4 hp3 hh3
      (hp2 hcase) hcase hd43 hd42 hd32 hd41 hd31 hd21, ?_, ?_, ?_, ?_, ?_, ?_, ?_, ?_⟩
    · rw [upd_other _ _ _ _ _ _ (nsymm hd41), upd_other _ _ _ _ _ _ (nsymm hd42),
        upd_other _ _ _ _ _ _ (nsymm hd43), upd_self]
    · rw [upd_other _ _ _ _ _ _ (nsymm hd41), upd_other _ _ _ _ _ _ (nsymm hd42),
        upd_other _ _ _ _ _ _ (nsymm hd43), upd_self]
      exact or_user_testBit2 e4.flags
    · intro i hi
      rw [upd_other _ _ _ _ _ _ (nsymm hd41), upd_other _ _ _ _ _ _ (nsymm hd42),
        upd_other _ _ _ _ _ _ (nsymm hd43), upd_self]
      exact or_user_testBit e4.flags i hi
    · rw [upd_other _ _ _ _ _ _ (nsymm hd31), upd_other _ _ _ _ _ _ (nsymm hd32), upd_self]
    · rw [upd_other _ _ _ _ _ _ (nsymm hd31), upd_other _ _ _ _ _ _ (nsymm hd32), upd_self]
      exact or_user_testBit2 e3.flags
    · intro i hi
      rw [upd_other _ _ _ _ _ _ (nsymm hd31), upd_other _ _ _ _ _ _ (nsymm hd32), upd_self]
      exact or_user_testBit e3.flags i hi
    · intro hcontra
      exact absurd hcontra (by simp)
    · intro _
      refine ⟨?_, ?_, ?_, ?_, ?_, ?_, ?_, ?_, ?_⟩
      · rw [upd_other _ _ _ _ _ _ (nsymm hd21), upd_self]
      · rw [upd_other _ _ _ _ _ _ (nsymm hd21), upd_self]
        exact or_user_testBit2 e2.flags
      · intro i hi
        rw [upd_other _ _ _ _ _ _ (nsymm hd21), upd_self]
        exact or_user_testBit e2.flags i hi
      · rw [upd_self]
      · rw [upd_self]
        exact finalFlags_bit2 _ wr ex
      · rw [upd_self]
        exact finalFlags_bit1 _ wr ex
      · rw [upd_self]
        exact finalFlags_bit63 _ wr ex
      · intro i h64 h1 h2 h63
        rw [upd_self]
        exact finalFlags_bit_other _ wr ex i h64 h1 h2 h63
      · intro t i ht4 ht3 ht2 ht1
        rw [upd_other _ _ _ _ _ _ ht1, upd_other _ _ _ _ _ _ ht2,
          upd_other _ _ _ _ _ _ ht3, upd_other _ _ _ _ _ _ ht4]

/-- A concrete four-level page-table world for the C7 witness: the level-4
table is frame 100, pointing to 200, 300 and 400 on the walk of virtual
address 0; all entries present, writable, non-huge; the level-1 entry also
has no-execute set. -/
def witnessWorld : World := fun t i =>
  if t = 100 ∧ i = 0 then ⟨200, 3⟩
  else if t = 200 ∧ i = 0 then ⟨300, 3⟩
  else if t = 300 ∧ i = 0 then ⟨400, 3⟩
  else if t = 400 ∧ i = 0 then ⟨555, 3 + 2 ^ 63⟩
  else ⟨0, 0⟩

/-- Witness for C7 at `witnessWorld`, virtual address 0, writable and not
executable: the user bit appears at all four levels, writable is set at
level 1, and the no-execute bit there survives (executable not requested). -/
theorem c7_set_page_user_accessible_spec_witness :
    ∃ w', set_page_user_accessible witnessWorld 100 0 true false = some w' ∧
      (w' 100 0).flags.testBit 2 = true ∧
      (w' 200 0).flags.testBit 2 = true ∧
      (w' 300 0).flags.testBit 2 = true ∧
      (w' 400 0).flags.testBit 2 = true ∧
      (w' 400 0).flags.testBit 1 = true ∧
      (w' 400 0).flags.testBit 63 = true := by
  obtain ⟨w', heq, h4a, h4b, h4c, h3a, h3b, h3c, hhuge, hnon⟩ :=
    c7_set_page_user_accessible_spec witnessWorld 100 0 true false
      ⟨200, 3⟩ ⟨300, 3⟩ ⟨400, 3⟩ (by decide) (by decide) (by decide)
      (by decide) (by decide) (by decide) (by decide)
      (fun _ => by decide) (by decide) (by decide) (by decide)
      (by decide) (by decide) (by decide)
  obtain ⟨h2a, h2b, h2c, h1a, h1b, h1c, h1d, h1e, hrest⟩ := hnon (by decide)
  have hi4 : p4_index 0 = 0 := by decide
  have hi3 : p3_index 0 = 0 := by decide
  have hi2 : p2_index 0 = 0 := by decide
  have hi1 : p1_index 0 = 0 := by decide
  dsimp only at h4b h3b h2b h1b h1c h1d
  rw [hi4] at h4b
  rw [hi3] at h3b
  rw [hi2] at h2b
  rw [hi1] at h1b h1c h1d
  refine ⟨w', heq, h4b, h3b, h2b, h1b, ?_, ?_⟩
  · rw [h1c]
    decide
  · rw [h1d]
    decide

end PTE

end LymadOS

namespace LymadOS

/-! ### C1 / C8 — ELF loader error variants and empty segments -/

namespace Elf

theorem processPage_no_err (data : List Nat) (ph : PH) (flags v : Nat) (st : MState)
    (e : Error) : processPage data ph flags v st ≠ LRes.err e := by
  unfold processPage
  dsimp only
  split
  · split
    · split
      · exact fun h => nomatch h
      · exact fun h => nomatch h
    · exact fun h => nomatch h
  · exact fun h => nomatch h

theorem processPages_no_err (data : List Nat) (ph : PH) (flags : Nat)
    (pages : List Nat) (st : MState) (e : Error) :
    processPages data ph flags pages st ≠ LRes.err e := by
  induction pages generalizing st with
  | nil => exact fun h => nomatch h
  | cons v vs ih =>
    show (match processPage data ph flags v st with
      | LRes.ok st' => processPages data ph flags vs st'
      | LRes.err e => LRes.err e
      | LRes.panic => LRes.panic) ≠ LRes.err e
    cases hp : processPage data ph flags v st with
    | ok st' => exact ih st'
    | err e' => exact absurd hp (processPage_no_err data ph flags v st e')
    | panic => exact fun h => nomatch h

theorem processSegment_no_err (data : List Nat) (ph : PH) (st : MState) (e : Error) :
    processSegment data ph st ≠ LRes.err e := by
  unfold processSegment
  split
  · exact processPages_no_err _ _ _ _ _ _
  · exact fun h => nomatch h

theorem phLoop_no_invalid_elf (data : List Nat) (po ps : Nat) (idxs : List Nat)
    (st : MState) : phLoop data po ps idxs st ≠ LRes.err Error.InvalidElf := by
  induction idxs generalizing st with
  | nil => exact fun h => nomatch h
  | cons i is ih =>
    show (if data.length < po + i * ps + 56 then
        LRes.err (Error.MappingFailed "Program header out of bounds")
      else
        match processSegment data (readPH data (po + i * ps)) st with
        | LRes.ok st' => phLoop data po ps is st'
        | LRes.err e => LRes.err e
        | LRes.panic => LRes.panic) ≠ LRes.err Error.InvalidElf
    split
    · exact fun h => nomatch h
    · cases hp : processSegment data (readPH data (po + i * ps)) st with
      | ok st' => exact ih st'
      | err e' => exact absurd hp (processSegment_no_err _ _ _ _)
      | panic => exact fun h => nomatch h

theorem phLoop_ok_all_in_bounds (data : List Nat) (po ps : Nat) (idxs : List Nat)
    (st : MState) (st' : MState) (h : phLoop data po ps idxs st = LRes.ok st') :
    ∀ i ∈ idxs, ¬ data.length < po + i * ps + 56 := by
  induction idxs generalizing st with
  | nil => intro i hi; exact absurd hi (List.not_mem_nil i)
  | cons j js ih =>
    intro i hi
    rw [show phLoop data po ps (j :: js) st = (if data.length < po + j * ps + 56 then
        LRes.err (Error.MappingFailed "Program header out of bounds")
      else
        match processSegment data (readPH data (po + j * ps)) st with
        | LRes.ok st1 => phLoop data po ps js st1
        | LRes.err e => LRes.err e
        | LRes.panic => LRes.panic) from rfl] at h
    by_cases hb : data.length < po + j * ps + 56
    · rw [if_pos hb] at h
      exact absurd h (fun hh => nomatch hh)
    · rw [if_neg hb] at h
      cases hi with
      | head => exact hb
      | tail _ hmem =>
        cases hp : processSegment data (readPH data (po + j * ps)) st with
        | ok st1 =>
          rw [hp] at h
          exact ih st1 h i hmem
        | err e' => exact absurd hp (processSegment_no_err _ _ _ _)
        | panic =>
          rw [hp] at h
          exact absurd h (fun hh => nomatch hh)

/-- C1, amended: the three malformed-input families of the claim (short
input, bad magic, wrong class byte) all make `load_elf` fail with the
`MappingFailed` variant; no input whatsoever makes it return the
`InvalidElf` variant (which the source defines but never constructs); and
an input whose program-header table has an entry extending beyond the byte
slice can never load successfully. -/
theorem c1_load_elf_error_variants :
    (∀ data : List Nat,
      (data.length < 64 ∨
        ¬(data.getD 0 0 = 0x7f ∧ data.getD 1 0 = 0x45 ∧ data.getD 2 0 = 0x4c ∧
          data.getD 3 0 = 0x46) ∨
        data.getD 4 0 ≠ 2) →
      ∃ msg, load_elf data = LRes.err (Error.MappingFailed msg)) ∧
    (∀ data : List Nat, load_elf data ≠ LRes.err Error.InvalidElf) ∧
    (∀ data : List Nat,
      (∃ i, i < readLE data 56 2 ∧
        data.length < readLE data 32 8 + i * readLE data 54 2 + 56) →
      ∀ r, load_elf data ≠ LRes.ok r) := by
  refine ⟨?_, ?_, ?_⟩
  · intro data hbad
    unfold load_elf
    by_cases h1 : data.length < 64
    · rw [if_pos h1]
      exact ⟨_, rfl⟩
    · rw [if_neg h1]
      by_cases h2 : data.getD 0 0 = 0x7f ∧ data.getD 1 0 = 0x45 ∧ data.getD 2 0 = 0x4c ∧
          data.getD 3 0 = 0x46
      · rw [if_neg (by simpa using h2)]
        have h3 : data.getD 4 0 ≠ 2 := by tauto
        rw [if_pos h3]
        exact ⟨_, rfl⟩
      · rw [if_pos (by simpa using h2)]
        exact ⟨_, rfl⟩
  · intro data
    unfold load_elf
    split
    · exact fun h => nomatch h
    · split
      · exact fun h => nomatch h
      · split
        · exact fun h => nomatch h
        · dsimp only
          cases hp : phLoop data (readLE data 32 8) (readLE data 54 2)
            (List.range (readLE data 56 2)) initM with
          | ok st => exact fun h => nomatch h
          | err e =>
            intro h
            have h' : LRes.err (α := LoadResult) e = LRes.err Error.InvalidElf := h
            injection h' with he
            rw [he] at hp
            exact phLoop_no_invalid_elf _ _ _ _ _ hp
          | panic => exact fun h => nomatch h
  · intro data hoob r
    obtain ⟨i, hi, hb⟩ := hoob
    unfold load_elf
    split
    · exact fun h => nomatch h
    · split
      · exact fun h => nomatch h
      · split
        · exact fun h => nomatch h
        · dsimp only
          cases hp : phLoop data (readLE data 32 8) (readLE data 54 2)
            (List.range (readLE data 56 2)) initM with
          | ok st =>
            have := phLoop_ok_all_in_bounds _ _ _ _ _ _ hp i (List.mem_range.mpr hi)
            exact absurd hb this
          | err e => exact fun h => nomatch h
          | panic => exact fun h => nomatch h

/-- Counterexample to C1 as stated: 64 zero bytes have a bad magic, and
`load_elf` fails with the `MappingFailed` variant, not `InvalidElf`. -/
theorem c1_load_elf_error_variants_counterexample :
    load_elf (List.replicate 64 0) = LRes.err (Error.MappingFailed "Invalid ELF magic") ∧
    load_elf (List.replicate 64 0) ≠ LRes.err Error.InvalidElf := by
  constructor
  · decide
  · decide

end Elf

end LymadOS

namespace LymadOS

namespace Elf

/-- C8, amended: a loadable (type-1) program header with `p_memsz == 0` and a
page-aligned `p_vaddr` is skipped entirely — no page is mapped, no frame
allocated, no byte written, and the loader state is returned unchanged.
(When `p_vaddr` is not page-aligned the page-range computation covers one
page, which the loader maps and zeroes — see the counterexample.) -/
theorem c8_zero_memsz_segment_skipped (data : List Nat) (ph : PH) (st : MState)
    (htype : ph.p_type = 1) (hmem : ph.p_memsz = 0)
    (halign : ph.p_vaddr % 4096 = 0) (h64 : ph.p_vaddr < 2 ^ 64) :
    processSegment data ph st = LRes.ok st := by
  have hpages : segPageList ph.p_vaddr ph.p_memsz = [] := by
    unfold segPageList
    rw [hmem]
    have h1 : ph.p_vaddr / 4096 * 4096 = ph.p_vaddr := by omega
    have h2 : (ph.p_vaddr + 0 + 0xFFF) % 2 ^ 64 / 4096 * 4096 = ph.p_vaddr := by
      have hlt : ph.p_vaddr + 0 + 0xFFF < 2 ^ 64 := by omega
      rw [Nat.mod_eq_of_lt hlt]
      omega
    rw [h1, h2]
    simp
  unfold processSegment
  rw [if_pos htype, hpages]
  rfl

/-- Witness for C8 at a concrete aligned empty segment. -/
theorem c8_zero_memsz_segment_skipped_witness :
    processSegment [] ⟨1, 5, 0, 0x2000, 0, 0⟩ ⟨0, []⟩ = LRes.ok ⟨0, []⟩ :=
  c8_zero_memsz_segment_skipped [] ⟨1, 5, 0, 0x2000, 0, 0⟩ ⟨0, []⟩
    (by decide) (by decide) (by decide) (by norm_num)

/-- Counterexample to C8 as stated ("regardless of the value of p_vaddr"): a
type-1 segment with `p_memsz == 0` but the unaligned `p_vaddr = 0x1001` maps
and zeroes one page (page 0x1000, fresh frame 0), so the loader state does
change. -/
theorem c8_zero_memsz_segment_skipped_counterexample :
    processSegment [] ⟨1, 0, 0, 0x1001, 0, 0⟩ ⟨0, []⟩ =
      LRes.ok ⟨1, [LEvent.map 0x1000 9223372036854775815 0, LEvent.zero 0]⟩ ∧
    LRes.ok (⟨1, [LEvent.map 0x1000 9223372036854775815 0, LEvent.zero 0]⟩ : MState) ≠
      LRes.ok (⟨0, []⟩ : MState) := by
  constructor
  · decide
  · decide

end Elf

end LymadOS

namespace LymadOS

/-! ### Buddy allocator: arithmetic ground work -/

namespace Buddy

theorem blockSize_eq (k : Nat) : blockSize k = 2 ^ (k + 12) := by
  unfold blockSize PAGE_SIZE
  rw [Nat.shiftLeft_eq, one_mul, pow_add]
  norm_num

theorem blockSize_pos (k : Nat) : 0 < blockSize k := by
  rw [blockSize_eq]; positivity

theorem blockSize_succ (k : Nat) : blockSize (k + 1) = 2 * blockSize k := by
  rw [blockSize_eq, blockSize_eq, pow_succ]
  ring

theorem blockSize_dvd {j k : Nat} (h : j ≤ k) : blockSize j ∣ blockSize k := by
  rw [blockSize_eq, blockSize_eq]
  exact pow_dvd_pow 2 (by omega)

theorem blockSize_dvd_total (k : Nat) (h : k < MAX_ORDER) :
    blockSize k ∣ MAX_PAGES * PAGE_SIZE := by
  rw [blockSize_eq, show MAX_PAGES * PAGE_SIZE = 2 ^ 30 from by norm_num [MAX_PAGES, PAGE_SIZE]]
  exact pow_dvd_pow 2 (by simp [MAX_ORDER] at h; omega)

theorem add_dvd_le {a b c : Nat} (hab : a < b) (hca : c ∣ a) (hcb : c ∣ b) : a + c ≤ b := by
  obtain ⟨u, rfl⟩ := hca
  obtain ⟨v, rfl⟩ := hcb
  rcases Nat.eq_zero_or_pos c with rfl | hc
  · omega
  · have huv : u < v := Nat.lt_of_mul_lt_mul_left hab
    calc c * u + c = c * (u + 1) := by ring
    _ ≤ c * v := Nat.mul_le_mul_left c huv

/-! band structure of the bitmap -/

theorem bandStart_succ (k : Nat) :
    bandStart (k + 1) = bandStart k + (MAX_PAGES >>> (k + 1)) := by
  unfold bandStart
  rw [List.range_succ, List.foldl_append]
  rfl

theorem bandStart_mono {j k : Nat} (h : j ≤ k) : bandStart j ≤ bandStart k := by
  induction k with
  | zero =>
    have hj : j = 0 := by omega
    subst hj
    exact le_refl _
  | succ n ih =>
    rcases Nat.lt_or_ge j (n + 1) with hlt | hge
    · calc bandStart j ≤ bandStart n := ih (by omega)
      _ ≤ bandStart (n + 1) := by rw [bandStart_succ]; exact Nat.le_add_right _ _
    · have hj : j = n + 1 := by omega
      subst hj
      exact le_refl _

theorem get_bit_index_eq (p k : Nat) :
    get_bit_index p k = bandStart k + (p >>> (k + 1)) := rfl

theorem shiftRight_lt_band (p k : Nat) (hp : p < MAX_PAGES) (hk : k + 1 < MAX_ORDER) :
    p >>> (k + 1) < MAX_PAGES >>> (k + 1) := by
  rw [Nat.shiftRight_eq_div_pow, Nat.shiftRight_eq_div_pow]
  have hMP : MAX_PAGES = 2 ^ 18 := by norm_num [MAX_PAGES]
  have hk18 : k + 1 ≤ 18 := by simp [MAX_ORDER] at hk; omega
  rw [hMP]
  have hsplit : (2 : Nat) ^ 18 = 2 ^ (k + 1) * 2 ^ (18 - (k + 1)) := by
    rw [← pow_add]
    congr 1
    omega
  rw [hsplit, Nat.mul_div_cancel_left _ (Nat.pos_pow_of_pos _ (by norm_num))]
  rw [Nat.div_lt_iff_lt_mul (Nat.pos_pow_of_pos _ (by norm_num))]
  calc p < 2 ^ 18 := by rw [← hMP]; exact hp
  _ = 2 ^ (18 - (k + 1)) * 2 ^ (k + 1) := by rw [← pow_add]; congr 1; omega

theorem get_bit_index_lt (p k : Nat) (hp : p < MAX_PAGES) (hk : k + 1 < MAX_ORDER) :
    get_bit_index p k < bandStart (k + 1) := by
  rw [get_bit_index_eq, bandStart_succ]
  exact Nat.add_lt_add_left (shiftRight_lt_band p k hp hk) _

theorem get_bit_index_cross (p q j k : Nat) (hp : p < MAX_PAGES) (hq : q < MAX_PAGES)
    (hj : j + 1 < MAX_ORDER) (hk : k + 1 < MAX_ORDER) (hjk : j ≠ k) :
    get_bit_index p j ≠ get_bit_index q k := by
  rcases Nat.lt_or_ge j k with h | h
  · have h1 : get_bit_index p j < bandStart (j + 1) := get_bit_index_lt p j hp hj
    have h2 : bandStart (j + 1) ≤ bandStart k := bandStart_mono (by omega)
    have h3 : bandStart k ≤ get_bit_index q k := by
      rw [get_bit_index_eq]
      exact Nat.le_add_right _ _
    exact Nat.ne_of_lt (lt_of_lt_of_le h1 (le_trans h2 h3))
  · have hkj : k < j := by omega
    have h1 : get_bit_index q k < bandStart (k + 1) := get_bit_index_lt q k hq hk
    have h2 : bandStart (k + 1) ≤ bandStart j := bandStart_mono (by omega)
    have h3 : bandStart j ≤ get_bit_index p j := by
      rw [get_bit_index_eq]
      exact Nat.le_add_right _ _
    exact (Nat.ne_of_lt (lt_of_lt_of_le h1 (le_trans h2 h3))).symm

theorem get_bit_index_same_band (p q k : Nat) :
    get_bit_index p k = get_bit_index q k ↔ p >>> (k + 1) = q >>> (k + 1) := by
  rw [get_bit_index_eq, get_bit_index_eq]
  omega

end Buddy

end LymadOS

namespace LymadOS

namespace Buddy

/-! the XOR with a single power of two, on a suitably aligned number -/

theorem testBit_of_mod_two_pow_zero {x s j : Nat} (h : x % 2 ^ s = 0) (hj : j < s) :
    x.testBit j = false := by
  rw [Nat.testBit_to_div_mod]
  obtain ⟨t, rfl⟩ : 2 ^ s ∣ x := Nat.dvd_of_mod_eq_zero h
  have hsplit : (2 : Nat) ^ s = 2 ^ j * 2 ^ (s - j) := by
    rw [← pow_add]
    congr 1
    omega
  have hdiv : 2 ^ s * t / 2 ^ j = 2 ^ (s - j) * t := by
    rw [hsplit, Nat.mul_assoc, Nat.mul_div_cancel_left _
      (Nat.pos_pow_of_pos _ (by norm_num))]
  rw [hdiv]
  have h2 : 2 ^ (s - j) * t % 2 = 0 := by
    obtain ⟨m, hm⟩ : ∃ m, s - j = m + 1 := ⟨s - j - 1, by omega⟩
    have hfact : 2 ^ (s - j) * t = 2 * (2 ^ m * t) := by
      rw [hm, pow_succ]
      ring
    rw [hfact, Nat.mul_mod_right]
  simp [h2]

theorem testBit_shift_up (x s j : Nat) : x.testBit (s + j) = (x / 2 ^ s).testBit j := by
  rw [Nat.testBit_to_div_mod, Nat.testBit_to_div_mod, Nat.div_div_eq_div_mul, ← pow_add]

theorem xor_two_pow_block (q r s : Nat) (hr : r < 2) :
    (q * 2 ^ (s + 1) + r * 2 ^ s) ^^^ 2 ^ s = q * 2 ^ (s + 1) + (1 - r) * 2 ^ s := by
  have hA : q * 2 ^ (s + 1) + r * 2 ^ s = (2 * q + r) * 2 ^ s := by
    rw [pow_succ]
    ring
  have hB : q * 2 ^ (s + 1) + (1 - r) * 2 ^ s = (2 * q + (1 - r)) * 2 ^ s := by
    rw [pow_succ]
    ring
  rw [hA, hB]
  apply Nat.eq_of_testBit_eq
  intro j
  rw [Nat.testBit_xor]
  rcases Nat.lt_trichotomy j s with hj | hj | hj
  · rw [testBit_of_mod_two_pow_zero (x := (2 * q + r) * 2 ^ s) (Nat.mul_mod_left _ _) hj,
      testBit_of_mod_two_pow_zero (x := (2 * q + (1 - r)) * 2 ^ s) (Nat.mul_mod_left _ _) hj,
      Nat.testBit_two_pow_of_ne (by omega)]
    rfl
  · subst hj
    have hdivA : (2 * q + r) * 2 ^ j / 2 ^ j = 2 * q + r :=
      Nat.mul_div_cancel _ (Nat.pos_pow_of_pos _ (by norm_num))
    have hdivB : (2 * q + (1 - r)) * 2 ^ j / 2 ^ j = 2 * q + (1 - r) :=
      Nat.mul_div_cancel _ (Nat.pos_pow_of_pos _ (by norm_num))
    rw [Nat.testBit_two_pow_self, Nat.testBit_to_div_mod, Nat.testBit_to_div_mod,
      hdivA, hdivB]
    rcases (show r = 0 ∨ r = 1 by omega) with rfl | rfl
    · have h1 : (2 * q + 0) % 2 = 0 := by omega
      have h2 : (2 * q + (1 - 0)) % 2 = 1 := by omega
      simp [h1, h2]
    · have h1 : (2 * q + 1) % 2 = 1 := by omega
      have h2 : (2 * q + (1 - 1)) % 2 = 0 := by omega
      simp [h1, h2]
  · obtain ⟨d, rfl⟩ : ∃ d, j = s + (d + 1) := ⟨j - s - 1, by omega⟩
    rw [Nat.testBit_two_pow_of_ne (by omega)]
    have hup : ∀ m : Nat, m < 2 → ((2 * q + m) * 2 ^ s).testBit (s + (d + 1)) =
        q.testBit d := by
      intro m hm
      rw [testBit_shift_up, Nat.mul_div_cancel _ (Nat.pos_pow_of_pos _ (by norm_num))]
      have : (2 * q + m) / 2 = q := by omega
      rw [show d + 1 = 1 + d from by omega, testBit_shift_up, pow_one, this]
    rw [hup r hr, hup (1 - r) (by omega)]
    simp

theorem calculate_buddy_char (s : BState) (off ptr k : Nat) (hoff : s.offset = off)
    (hle : off ≤ ptr) (halign : (ptr - off) % blockSize k = 0) :
    calculate_buddy_address s ptr k =
      if (ptr - off) / blockSize k % 2 = 0 then ptr + blockSize k
      else ptr - blockSize k := by
  unfold calculate_buddy_address
  rw [hoff]
  have hbs : (1 <<< k) * PAGE_SIZE = blockSize k := rfl
  rw [hbs]
  set rel := ptr - off with hrel
  set m := rel / blockSize k with hm
  have hrm : rel = m * blockSize k := by
    rw [hm]
    exact (Nat.div_mul_cancel (Nat.dvd_of_mod_eq_zero halign)).symm
  have hdecomp : rel = m / 2 * 2 ^ (k + 12 + 1) + m % 2 * 2 ^ (k + 12) := by
    rw [hrm, blockSize_eq]
    have : m = 2 * (m / 2) + m % 2 := by omega
    calc m * 2 ^ (k + 12) = (2 * (m / 2) + m % 2) * 2 ^ (k + 12) := by rw [← this]
    _ = m / 2 * 2 ^ (k + 12 + 1) + m % 2 * 2 ^ (k + 12) := by
        rw [pow_succ]
        ring
  have hxor : rel ^^^ blockSize k =
      m / 2 * 2 ^ (k + 12 + 1) + (1 - m % 2) * 2 ^ (k + 12) := by
    rw [blockSize_eq]
    calc rel ^^^ 2 ^ (k + 12)
        = (m / 2 * 2 ^ (k + 12 + 1) + m % 2 * 2 ^ (k + 12)) ^^^ 2 ^ (k + 12) := by
          rw [← hdecomp]
    _ = m / 2 * 2 ^ (k + 12 + 1) + (1 - m % 2) * 2 ^ (k + 12) :=
          xor_two_pow_block _ _ _ (Nat.mod_lt _ (by norm_num))
  rw [hxor]
  by_cases hpar : m % 2 = 0
  · rw [if_pos hpar]
    have heq : m / 2 * 2 ^ (k + 12 + 1) + (1 - m % 2) * 2 ^ (k + 12) = rel + blockSize k := by
      rw [hdecomp, hpar, blockSize_eq]
      ring_nf
    rw [heq, hrel]
    omega
  · rw [if_neg hpar]
    have hp1 : m % 2 = 1 := Nat.mod_two_eq_zero_or_one m |>.resolve_left hpar
    have heq : m / 2 * 2 ^ (k + 12 + 1) + (1 - m % 2) * 2 ^ (k + 12) = rel - blockSize k := by
      rw [hdecomp, hp1, blockSize_eq]
      simp
    have hm1 : 1 ≤ m := by
      rcases Nat.eq_zero_or_pos m with h0 | h1
      · rw [h0] at hp1
        norm_num at hp1
      · exact h1
    have hbsle : blockSize k ≤ rel := by
      rw [hrm, blockSize_eq]
      calc 2 ^ (k + 12) = 1 * 2 ^ (k + 12) := by ring
      _ ≤ m * 2 ^ (k + 12) := Nat.mul_le_mul_right _ hm1
    rw [heq, hrel]
    have h1 : blockSize k ≤ ptr - off := by rw [← hrel]; exact hbsle
    omega

end Buddy

end LymadOS

namespace LymadOS

namespace Buddy

/-! effect of the elementary state operations -/

theorem push_free_offset (s : BState) (p k : Nat) : (push_free s p k).offset = s.offset := rfl

theorem push_free_bits (s : BState) (p k : Nat) : (push_free s p k).bits = s.bits := rfl

theorem push_free_length (s : BState) (p k : Nat) :
    (push_free s p k).freeLists.length = s.freeLists.length := List.length_set _ _ _

theorem remove_frame_offset (s : BState) (p k : Nat) :
    (remove_frame s p k).offset = s.offset := rfl

theorem remove_frame_bits (s : BState) (p k : Nat) :
    (remove_frame s p k).bits = s.bits := rfl

theorem remove_frame_length (s : BState) (p k : Nat) :
    (remove_frame s p k).freeLists.length = s.freeLists.length := List.length_set _ _ _

theorem flist_push_self (s : BState) (p k : Nat) (h : k < s.freeLists.length) :
    flist (push_free s p k) k = p :: flist s k :=
  Util.getD_set_self _ _ _ _ h

theorem flist_push_other (s : BState) (p k j : Nat) (h : j ≠ k) :
    flist (push_free s p k) j = flist s j :=
  Util.getD_set_ne _ _ _ _ _ (Ne.symm h)

theorem flist_remove_self (s : BState) (p k : Nat) (h : k < s.freeLists.length) :
    flist (remove_frame s p k) k = (flist s k).erase p :=
  Util.getD_set_self _ _ _ _ h

theorem flist_remove_other (s : BState) (p k j : Nat) (h : j ≠ k) :
    flist (remove_frame s p k) j = flist s j :=
  Util.getD_set_ne _ _ _ _ _ (Ne.symm h)

theorem toggle_freeLists (s : BState) (p k : Nat) :
    ((toggle_bit s p k).2).freeLists = s.freeLists := by
  unfold toggle_bit
  dsimp only
  split <;> rfl

theorem toggle_offset (s : BState) (p k : Nat) :
    ((toggle_bit s p k).2).offset = s.offset := by
  unfold toggle_bit
  dsimp only
  split <;> rfl

theorem flist_toggle (s : BState) (p k j : Nat) :
    flist ((toggle_bit s p k).2) j = flist s j := by
  unfold flist
  rw [toggle_freeLists]

theorem toggle_fst (s : BState) (p k : Nat) :
    (toggle_bit s p k).1 = !(bitSet s (get_bit_index p k)) := by
  unfold toggle_bit bitSet
  dsimp only
  split <;> simp_all

theorem toggle_nodup (s : BState) (p k : Nat) (h : s.bits.Nodup) :
    ((toggle_bit s p k).2).bits.Nodup := by
  unfold toggle_bit
  dsimp only
  split
  · exact h.erase _
  · exact List.Nodup.cons (by assumption) h

theorem toggle_bitSet (s : BState) (p k : Nat) (hnd : s.bits.Nodup) (i : Nat) :
    bitSet ((toggle_bit s p k).2) i =
      if i = get_bit_index p k then !(bitSet s i) else bitSet s i := by
  unfold toggle_bit bitSet
  dsimp only
  by_cases hmem : get_bit_index p k ∈ s.bits
  · rw [if_pos hmem]
    dsimp only
    by_cases hi : i = get_bit_index p k
    · subst hi
      simp [List.Nodup.not_mem_erase hnd, hmem]
    · rw [if_neg hi]
      simp [List.mem_erase_of_ne hi]
  · rw [if_neg hmem]
    dsimp only
    by_cases hi : i = get_bit_index p k
    · subst hi
      simp [hmem]
    · rw [if_neg hi]
      simp [List.mem_cons, hi]

/-! counting lemmas -/

theorem listCnt_cons (k p : Nat) (l : List Nat) (x : Nat) :
    listCnt k (p :: l) x = listCnt k l x + cInd p k x := by
  unfold listCnt cInd
  rw [List.countP_cons]

theorem listCnt_erase (k p : Nat) (l : List Nat) (x : Nat) (h : p ∈ l) :
    listCnt k (l.erase p) x + cInd p k x = listCnt k l x := by
  unfold listCnt cInd
  exact Util.countP_erase_mem l p _ h

theorem freeCount_single_diff (s s' : BState) (k : Nat) (hk : k < MAX_ORDER)
    (hsame : ∀ j, j ≠ k → flist s' j = flist s j) (x : Nat) :
    freeCount s' x + listCnt k (flist s k) x = freeCount s x + listCnt k (flist s' k) x := by
  unfold freeCount
  have hkm : k ∈ Finset.range MAX_ORDER := Finset.mem_range.mpr hk
  rw [← Finset.sum_erase_add _ _ hkm, ← Finset.sum_erase_add _ _ hkm]
  have hcong : ∑ j in (Finset.range MAX_ORDER).erase k, listCnt j (flist s' j) x
      = ∑ j in (Finset.range MAX_ORDER).erase k, listCnt j (flist s j) x := by
    apply Finset.sum_congr rfl
    intro j hj
    rw [hsame j (Finset.ne_of_mem_erase hj)]
  rw [hcong]
  omega

theorem freeCount_push (s : BState) (p k x : Nat) (hk : k < MAX_ORDER)
    (hlen : s.freeLists.length = MAX_ORDER) :
    freeCount (push_free s p k) x = freeCount s x + cInd p k x := by
  have hd := freeCount_single_diff s (push_free s p k) k hk
    (fun j hj => flist_push_other s p k j hj) x
  rw [flist_push_self s p k (by rw [hlen]; exact hk), listCnt_cons] at hd
  omega

theorem freeCount_remove (s : BState) (p k x : Nat) (hk : k < MAX_ORDER)
    (hlen : s.freeLists.length = MAX_ORDER) (hp : p ∈ flist s k) :
    freeCount (remove_frame s p k) x + cInd p k x = freeCount s x := by
  have hd := freeCount_single_diff s (remove_frame s p k) k hk
    (fun j hj => flist_remove_other s p k j hj) x
  rw [flist_remove_self s p k (by rw [hlen]; exact hk)] at hd
  have he := listCnt_erase k p (flist s k) x hp
  omega

theorem freeCount_toggle (s : BState) (p k x : Nat) :
    freeCount ((toggle_bit s p k).2) x = freeCount s x := by
  unfold freeCount
  apply Finset.sum_congr rfl
  intro j _
  rw [flist_toggle]

end Buddy

end LymadOS

namespace LymadOS

namespace Buddy

/-! well-formed blocks -/

theorem WF_mono {off a k : Nat} (h : WF off a (k + 1)) : WF off a k := by
  obtain ⟨h1, h2, h3⟩ := h
  have hbs := blockSize_succ k
  refine ⟨h1, ?_, by omega⟩
  obtain ⟨c, hc⟩ := Nat.dvd_of_mod_eq_zero h2
  rw [hc, hbs]
  have : 2 * blockSize k * c = blockSize k * (2 * c) := by ring
  rw [this, Nat.mul_mod_right]

theorem WF_right {off a k : Nat} (h : WF off a (k + 1)) : WF off (a + blockSize k) k := by
  obtain ⟨h1, h2, h3⟩ := h
  have hbs := blockSize_succ k
  refine ⟨by omega, ?_, by omega⟩
  have hrw : a + blockSize k - off = (a - off) + blockSize k := by omega
  rw [hrw]
  obtain ⟨c, hc⟩ := Nat.dvd_of_mod_eq_zero h2
  rw [hc, hbs]
  have : 2 * blockSize k * c + blockSize k = blockSize k * (2 * c + 1) := by ring
  rw [this, Nat.mul_mod_right]

theorem WF_page_lt {off a k : Nat} (h : WF off a k) : (a - off) / PAGE_SIZE < MAX_PAGES := by
  obtain ⟨h1, h2, h3⟩ := h
  have hpos := blockSize_pos k
  have hlt : a - off < MAX_PAGES * PAGE_SIZE := by omega
  rw [Nat.div_lt_iff_lt_mul (show 0 < PAGE_SIZE from by norm_num [PAGE_SIZE])]
  exact hlt

theorem WF_lt_window {off a k : Nat} (h : WF off a k) :
    a < off + MAX_PAGES * PAGE_SIZE := by
  obtain ⟨h1, h2, h3⟩ := h
  have hpos := blockSize_pos k
  omega

theorem cInd_eq (p k x : Nat) :
    cInd p k x = if p ≤ x ∧ x < p + blockSize k then 1 else 0 := by
  simp [cInd, covB]

theorem cInd_split (p k x : Nat) :
    cInd p (k + 1) x = cInd p k x + cInd (p + blockSize k) k x := by
  rw [cInd_eq, cInd_eq, cInd_eq, blockSize_succ]
  have hpos := blockSize_pos k
  split_ifs <;> omega

theorem cInd_self (p k : Nat) : cInd p k p = 1 := by
  rw [cInd_eq, if_pos ⟨le_refl p, by have := blockSize_pos k; omega⟩]

/-! pairs of buddies -/

theorem pair_shift (y k : Nat) :
    (y / PAGE_SIZE) >>> (k + 1) = y / blockSize (k + 1) := by
  rw [Nat.shiftRight_eq_div_pow, Nat.div_div_eq_div_mul]
  congr 1
  rw [blockSize_eq]
  unfold PAGE_SIZE
  rw [show (4096 : Nat) = 2 ^ 12 from by norm_num, ← pow_add]
  congr 1
  omega

theorem pair_mem_iff (off a f k : Nat) (hA : off ≤ a)
    (halA : (a - off) % blockSize (k + 1) = 0) (hF : off ≤ f)
    (halF : (f - off) % blockSize k = 0) :
    (f - off) / blockSize (k + 1) = (a - off) / blockSize (k + 1) ↔
      (f = a ∨ f = a + blockSize k) := by
  have hbs := blockSize_succ k
  have hpos := blockSize_pos k
  have hpos1 := blockSize_pos (k + 1)
  have haq : a - off = blockSize (k + 1) * ((a - off) / blockSize (k + 1)) :=
    (Nat.div_mul_cancel (Nat.dvd_of_mod_eq_zero halA)).symm.trans (Nat.mul_comm _ _)
  constructor
  · intro h
    have hdm := Nat.div_add_mod (f - off) (blockSize (k + 1))
    have hrlt : (f - off) % blockSize (k + 1) < blockSize (k + 1) := Nat.mod_lt _ hpos1
    have hd1 : blockSize k ∣ (f - off) := Nat.dvd_of_mod_eq_zero halF
    have hd2 : blockSize k ∣ blockSize (k + 1) * ((f - off) / blockSize (k + 1)) :=
      dvd_mul_of_dvd_left (blockSize_dvd (Nat.le_succ k)) _
    have hr : (f - off) % blockSize (k + 1) =
        (f - off) - blockSize (k + 1) * ((f - off) / blockSize (k + 1)) := by omega
    obtain ⟨e, he⟩ := Nat.dvd_sub' hd1 hd2
    rw [← hr] at he
    have helt : e < 2 := by
      by_contra hcon
      have : 2 * blockSize k ≤ blockSize k * e := by
        calc 2 * blockSize k = blockSize k * 2 := by ring
        _ ≤ blockSize k * e := Nat.mul_le_mul_left _ (by omega)
      omega
    rcases (show e = 0 ∨ e = 1 by omega) with rfl | rfl
    · left
      have hfr : f - off = a - off := by
        rw [haq, ← h]
        omega
      omega
    · right
      have hfr : f - off = (a - off) + blockSize k := by
        rw [haq, ← h]
        omega
      omega
  · intro h
    rcases h with rfl | rfl
    · rfl
    · have hfo : a + blockSize k - off = (a - off) + blockSize k := by omega
      have hlt : blockSize k < blockSize (k + 1) := by omega
      rw [hfo]
      conv_lhs => rw [haq]
      rw [Nat.mul_add_div hpos1, Nat.div_eq_of_lt hlt, Nat.add_zero]

theorem idx_pair_iff (off a f k : Nat) (hA : WF off a (k + 1)) (hF : WF off f k) :
    get_bit_index ((f - off) / PAGE_SIZE) k = get_bit_index ((a - off) / PAGE_SIZE) k ↔
      (f = a ∨ f = a + blockSize k) := by
  rw [get_bit_index_same_band, pair_shift, pair_shift]
  exact pair_mem_iff off a f k hA.1 hA.2.1 hF.1 hF.2.1

end Buddy

end LymadOS

namespace LymadOS

namespace Buddy

theorem not_xor_left (x y : Bool) : (!(Bool.xor x y)) = Bool.xor (!x) y := by
  cases x <;> cases y <;> rfl

theorem not_xor_right (x y : Bool) : (!(Bool.xor x y)) = Bool.xor x (!y) := by
  cases x <;> cases y <;> rfl

/-- The bitmap pair invariant (the `hbit` field of `Inv`) survives a
modification that changes exactly one free list, at order `k`, by pushing or
unlinking one well-formed order-`k` block `f`, while toggling exactly the
bitmap bit of the pair of `f`. -/
theorem hbit_step (s s' : BState) (off f k : Nat)
    (hk : k + 1 < MAX_ORDER)
    (hF : WF off f k)
    (hsame : ∀ j, j ≠ k → flist s' j = flist s j)
    (hlist : (f ∉ flist s k ∧ flist s' k = f :: flist s k) ∨
      ((flist s k).Nodup ∧ f ∈ flist s k ∧ flist s' k = (flist s k).erase f))
    (htog : ∀ i, bitSet s' i =
      if i = get_bit_index ((f - off) / PAGE_SIZE) k then !(bitSet s i) else bitSet s i)
    (hbit : ∀ j, j + 1 < MAX_ORDER → ∀ a, WF off a (j + 1) →
      bitSet s (get_bit_index ((a - off) / PAGE_SIZE) j) =
        Bool.xor (decide (a ∈ flist s j)) (decide (a + blockSize j ∈ flist s j))) :
    ∀ j, j + 1 < MAX_ORDER → ∀ a, WF off a (j + 1) →
      bitSet s' (get_bit_index ((a - off) / PAGE_SIZE) j) =
        Bool.xor (decide (a ∈ flist s' j)) (decide (a + blockSize j ∈ flist s' j)) := by
  intro j hj a hA
  by_cases hjk : j = k
  · subst hjk
    by_cases hpair : f = a ∨ f = a + blockSize j
    · have hidx : get_bit_index ((f - off) / PAGE_SIZE) j =
          get_bit_index ((a - off) / PAGE_SIZE) j := (idx_pair_iff off a f j hA hF).mpr hpair
      rw [htog, if_pos hidx.symm, hbit j hj a hA]
      have hne0 : a + blockSize j ≠ a := by
        have := blockSize_pos j
        omega
      rcases hlist with ⟨hnm, hcons⟩ | ⟨hnd, hmem, herase⟩
      · rcases hpair with rfl | hfr
        · have hmA : decide (f ∈ flist s' j) = !(decide (f ∈ flist s j)) := by
            rw [hcons]
            simp [List.mem_cons, hnm]
          have hmB : decide (f + blockSize j ∈ flist s' j) =
              decide (f + blockSize j ∈ flist s j) := by
            rw [hcons]
            simp [List.mem_cons, hne0]
          rw [hmA, hmB, not_xor_left]
        · subst hfr
          have hmA : decide (a ∈ flist s' j) = decide (a ∈ flist s j) := by
            rw [hcons]
            simp [List.mem_cons, Ne.symm hne0]
          have hmB : decide (a + blockSize j ∈ flist s' j) =
              !(decide (a + blockSize j ∈ flist s j)) := by
            rw [hcons]
            simp [List.mem_cons, hnm]
          rw [hmA, hmB, not_xor_right]
      · rcases hpair with rfl | hfr
        · have hmA : decide (f ∈ flist s' j) = !(decide (f ∈ flist s j)) := by
            rw [herase]
            simp [List.Nodup.not_mem_erase hnd, hmem]
          have hmB : decide (f + blockSize j ∈ flist s' j) =
              decide (f + blockSize j ∈ flist s j) := by
            rw [herase]
            simp [List.mem_erase_of_ne hne0]
          rw [hmA, hmB, not_xor_left]
        · subst hfr
          have hmA : decide (a ∈ flist s' j) = decide (a ∈ flist s j) := by
            rw [herase]
            simp [List.mem_erase_of_ne (Ne.symm hne0)]
          have hmB : decide (a + blockSize j ∈ flist s' j) =
              !(decide (a + blockSize j ∈ flist s j)) := by
            rw [herase]
            simp [List.Nodup.not_mem_erase hnd, hmem]
          rw [hmA, hmB, not_xor_right]
    · have hidx : get_bit_index ((f - off) / PAGE_SIZE) j ≠
          get_bit_index ((a - off) / PAGE_SIZE) j :=
        fun h => hpair ((idx_pair_iff off a f j hA hF).mp h)
      rw [htog, if_neg (fun h => hidx h.symm), hbit j hj a hA]
      have haf : a ≠ f := fun h => hpair (Or.inl h.symm)
      have habf : a + blockSize j ≠ f := fun h => hpair (Or.inr h.symm)
      rcases hlist with ⟨hnm, hcons⟩ | ⟨hnd, hmem, herase⟩
      · rw [hcons]
        simp [List.mem_cons, haf, habf]
      · rw [herase]
        rw [show decide (a ∈ (flist s j).erase f) = decide (a ∈ flist s j) from by
          simp [List.mem_erase_of_ne haf]]
        rw [show decide (a + blockSize j ∈ (flist s j).erase f) =
            decide (a + blockSize j ∈ flist s j) from by
          simp [List.mem_erase_of_ne habf]]
  · have hsj := hsame j hjk
    rw [hsj]
    have hpalt : (a - off) / PAGE_SIZE < MAX_PAGES := WF_page_lt hA
    have hpflt : (f - off) / PAGE_SIZE < MAX_PAGES := WF_page_lt hF
    have hidx : get_bit_index ((f - off) / PAGE_SIZE) k ≠
        get_bit_index ((a - off) / PAGE_SIZE) j :=
      get_bit_index_cross _ _ _ _ hpflt hpalt hk hj (fun h => hjk h.symm)
    rw [htog, if_neg (fun h => hidx h.symm), hbit j hj a hA]

end Buddy

end LymadOS

namespace LymadOS

namespace Buddy

theorem outCount_cons (a b x : Nat) (out : List (Nat × Nat)) :
    outCount ((a, b) :: out) x = cInd a b x + outCount out x := by
  simp [outCount]

theorem listCnt_le_freeCount (s : BState) (k x : Nat) (hk : k < MAX_ORDER) :
    listCnt k (flist s k) x ≤ freeCount s x := by
  unfold freeCount
  exact Finset.single_le_sum (f := fun j => listCnt j (flist s j) x)
    (fun i _ => Nat.zero_le _) (Finset.mem_range.mpr hk)

theorem not_mem_of_count_zero (s : BState) (k p : Nat) (hk : k < MAX_ORDER)
    (h0 : freeCount s p = 0) : p ∉ flist s k := by
  intro hmem
  have hpos : 0 < listCnt k (flist s k) p := by
    unfold listCnt
    rw [List.countP_pos_iff]
    refine ⟨p, hmem, ?_⟩
    unfold covB
    have := blockSize_pos k
    simp
    omega
  have := listCnt_le_freeCount s k p hk
  omega

theorem count_le_countP_cov (l : List Nat) (k a : Nat) :
    l.count a ≤ l.countP (fun b => covB b k a) := by
  induction l with
  | nil => simp
  | cons b t ih =>
    rw [List.count_cons, List.countP_cons]
    by_cases hba : a = b
    · subst hba
      have hc : covB a k a = true := by
        unfold covB
        have := blockSize_pos k
        simp
        omega
      simp [hc]
      omega
    · have : (b == a) = false := by simp [Ne.symm hba]
      rw [this]
      simp
      split <;> omega

theorem flist_nodup_of_counts (s : BState) (k : Nat) (hk : k < MAX_ORDER)
    (hcnt : ∀ x, freeCount s x ≤ 1) : (flist s k).Nodup := by
  rw [List.nodup_iff_count_le_one]
  intro a
  calc (flist s k).count a ≤ (flist s k).countP (fun b => covB b k a) :=
        count_le_countP_cov _ _ _
  _ ≤ freeCount s a := listCnt_le_freeCount s k a hk
  _ ≤ 1 := hcnt a

end Buddy

end LymadOS

namespace LymadOS

namespace Buddy

theorem hbit_top (s s' : BState) (off : Nat)
    (hsame : ∀ j, j + 1 < MAX_ORDER → flist s' j = flist s j)
    (hbits : s'.bits = s.bits)
    (hbit : ∀ j, j + 1 < MAX_ORDER → ∀ a, WF off a (j + 1) →
      bitSet s (get_bit_index ((a - off) / PAGE_SIZE) j) =
        Bool.xor (decide (a ∈ flist s j)) (decide (a + blockSize j ∈ flist s j))) :
    ∀ j, j + 1 < MAX_ORDER → ∀ a, WF off a (j + 1) →
      bitSet s' (get_bit_index ((a - off) / PAGE_SIZE) j) =
        Bool.xor (decide (a ∈ flist s' j)) (decide (a + blockSize j ∈ flist s' j)) := by
  intro j hj a hA
  have hbs : bitSet s' (get_bit_index ((a - off) / PAGE_SIZE) j) =
      bitSet s (get_bit_index ((a - off) / PAGE_SIZE) j) := by
    unfold bitSet
    rw [hbits]
  rw [hbs, hsame j hj, hbit j hj a hA]

/-- `allocFuel` from an invariant state: the order is in range, the returned
pointer is well-formed at that order, the invariant is preserved with the
block recorded outstanding, and free coverage drops by exactly the block. -/
theorem allocFuel_spec (fuel : Nat) : ∀ (k : Nat) (s : BState) (out : List (Nat × Nat))
    (off p : Nat) (s2 : BState),
    Inv off ⟨s, out⟩ → allocFuel fuel s k = some (p, s2) →
    k < MAX_ORDER ∧ WF off p k ∧ Inv off ⟨s2, (p, k) :: out⟩ ∧
    (∀ x, freeCount s2 x + cInd p k x = freeCount s x) := by
  have hMO : MAX_ORDER = 12 := rfl
  induction fuel with
  | zero =>
    intro k s out off p s2 _ h
    exact absurd h (by simp [allocFuel])
  | succ n ih =>
    intro k s out off p s2 hInv halloc
    have hoff : s.offset = off := hInv.hoff
    have hlen : s.freeLists.length = MAX_ORDER := hInv.hlen
    have hnd : s.bits.Nodup := hInv.hnodup
    have hfreeI : ∀ j, j < MAX_ORDER → ∀ a, a ∈ flist s j → WF off a j := hInv.hfree
    have houtI : ∀ q, q ∈ out → q.2 < MAX_ORDER ∧ WF off q.1 q.2 := hInv.hout
    have hcntI : ∀ x, freeCount s x + outCount out x ≤ 1 := hInv.hcnt
    have hbitI : ∀ j, j + 1 < MAX_ORDER → ∀ a, WF off a (j + 1) →
        bitSet s (get_bit_index ((a - off) / PAGE_SIZE) j) =
          Bool.xor (decide (a ∈ flist s j)) (decide (a + blockSize j ∈ flist s j)) :=
      hInv.hbit
    rw [allocFuel] at halloc
    by_cases hk : MAX_ORDER ≤ k
    · rw [if_pos hk] at halloc
      exact absurd halloc (by simp)
    rw [if_neg hk] at halloc
    have hkMO : k < MAX_ORDER := by omega
    cases hfl : flist s k with
    | cons f rest =>
      rw [hfl] at halloc
      dsimp only at halloc
      have hfmem : f ∈ flist s k := by rw [hfl]; exact List.mem_cons_self f rest
      have hWf : WF off f k := hfreeI k hkMO f hfmem
      simp only [Option.some.injEq, Prod.mk.injEq] at halloc
      obtain ⟨rfl, rfl⟩ := halloc
      have hndk : (flist s k).Nodup :=
        flist_nodup_of_counts s k hkMO (fun x => by have := hcntI x; omega)
      have hs1cnt : ∀ x, freeCount (remove_frame s f k) x + cInd f k x = freeCount s x :=
        fun x => freeCount_remove s f k x hkMO hlen hfmem
      by_cases hktop : k < MAX_ORDER - 1
      · rw [if_pos hktop]
        set s1 := remove_frame s f k with hs1
        set s2 := (toggle_bit s1 ((f - s.offset) / PAGE_SIZE) k).2 with hs2
        have hfl1 : ∀ j, flist s2 j = flist s1 j := fun j => flist_toggle s1 _ k j
        have hcnt2 : ∀ x, freeCount s2 x + cInd f k x = freeCount s x := by
          intro x
          have ht : freeCount s2 x = freeCount s1 x := freeCount_toggle s1 _ k x
          rw [ht]
          exact hs1cnt x
        refine ⟨hkMO, hWf, ?_, hcnt2⟩
        refine ⟨?_, ?_, ?_, ?_, ?_, ?_, ?_⟩
        · show s2.offset = off
          rw [show s2.offset = s.offset from (toggle_offset _ _ _).trans rfl]
          exact hoff
        · show s2.freeLists.length = MAX_ORDER
          rw [show s2.freeLists = s1.freeLists from toggle_freeLists _ _ _]
          rw [show s1.freeLists.length = s.freeLists.length from remove_frame_length s f k]
          exact hlen
        · show s2.bits.Nodup
          exact toggle_nodup s1 _ k (show s1.bits.Nodup from hnd)
        · show ∀ j, j < MAX_ORDER → ∀ a, a ∈ flist s2 j → WF off a j
          intro j hj a ha
          rw [hfl1 j] at ha
          by_cases hjk : j = k
          · subst hjk
            rw [flist_remove_self s f j (by omega)] at ha
            exact hfreeI j hj a (List.mem_of_mem_erase ha)
          · rw [flist_remove_other s f k j hjk] at ha
            exact hfreeI j hj a ha
        · show ∀ q, q ∈ (f, k) :: out → q.2 < MAX_ORDER ∧ WF off q.1 q.2
          intro q hq
          rcases List.mem_cons.mp hq with rfl | hq2
          · exact ⟨hkMO, hWf⟩
          · exact houtI q hq2
        · show ∀ x, freeCount s2 x + outCount ((f, k) :: out) x ≤ 1
          intro x
          rw [outCount_cons]
          have h1 := hcnt2 x
          have h2 := hcntI x
          omega
        · show ∀ j, j + 1 < MAX_ORDER → ∀ a, WF off a (j + 1) →
            bitSet s2 (get_bit_index ((a - off) / PAGE_SIZE) j) =
              Bool.xor (decide (a ∈ flist s2 j)) (decide (a + blockSize j ∈ flist s2 j))
          refine hbit_step s s2 off f k (by omega) hWf
            (fun j hj => by rw [hfl1 j, flist_remove_other s f k j hj])
            (Or.inr ⟨hndk, hfmem, by rw [hfl1 k, flist_remove_self s f k (by omega)]⟩)
            (fun i => ?_) hbitI
          have ht := toggle_bitSet s1 ((f - s.offset) / PAGE_SIZE) k
            (show s1.bits.Nodup from hnd) i
          rw [← hs2] at ht
          rw [hoff] at ht
          rw [ht]
          rw [show bitSet s1 i = bitSet s i from rfl]
      · rw [if_neg hktop]
        have hk11 : k = MAX_ORDER - 1 := by omega
        set s1 := remove_frame s f k with hs1
        refine ⟨hkMO, hWf, ?_, hs1cnt⟩
        refine ⟨?_, ?_, ?_, ?_, ?_, ?_, ?_⟩
        · show s1.offset = off
          exact hoff
        · show s1.freeLists.length = MAX_ORDER
          rw [show s1.freeLists.length = s.freeLists.length from remove_frame_length s f k]
          exact hlen
        · show s1.bits.Nodup
          exact hnd
        · show ∀ j, j < MAX_ORDER → ∀ a, a ∈ flist s1 j → WF off a j
          intro j hj a ha
          by_cases hjk : j = k
          · subst hjk
            rw [flist_remove_self s f j (by omega)] at ha
            exact hfreeI j hj a (List.mem_of_mem_erase ha)
          · rw [flist_remove_other s f k j hjk] at ha
            exact hfreeI j hj a ha
        · show ∀ q, q ∈ (f, k) :: out → q.2 < MAX_ORDER ∧ WF off q.1 q.2
          intro q hq
          rcases List.mem_cons.mp hq with rfl | hq2
          · exact ⟨hkMO, hWf⟩
          · exact houtI q hq2
        · show ∀ x, freeCount s1 x + outCount ((f, k) :: out) x ≤ 1
          intro x
          rw [outCount_cons]
          have h1 := hs1cnt x
          have h2 := hcntI x
          omega
        · show ∀ j, j + 1 < MAX_ORDER → ∀ a, WF off a (j + 1) →
            bitSet s1 (get_bit_index ((a - off) / PAGE_SIZE) j) =
              Bool.xor (decide (a ∈ flist s1 j)) (decide (a + blockSize j ∈ flist s1 j))
          exact hbit_top s s1 off
            (fun j hj => flist_remove_other s f k j (by omega)) rfl hbitI
    | nil =>
      rw [hfl] at halloc
      dsimp only at halloc
      cases hrec : allocFuel n s (k + 1) with
      | none =>
        rw [hrec] at halloc
        exact absurd halloc (by simp)
      | some pr =>
        obtain ⟨q, s1⟩ := pr
        rw [hrec] at halloc
        dsimp only at halloc
        obtain ⟨hk1, hWf1, hInv1, hcnt1⟩ := ih (k + 1) s out off q s1 hInv hrec
        have hoff1 : s1.offset = off := hInv1.hoff
        have hlen1 : s1.freeLists.length = MAX_ORDER := hInv1.hlen
        have hnd1 : s1.bits.Nodup := hInv1.hnodup
        have hfree1 : ∀ j, j < MAX_ORDER → ∀ a, a ∈ flist s1 j → WF off a j := hInv1.hfree
        have hout1 : ∀ w, w ∈ (q, k + 1) :: out → w.2 < MAX_ORDER ∧ WF off w.1 w.2 :=
          hInv1.hout
        have hcnt1I : ∀ x, freeCount s1 x + outCount ((q, k + 1) :: out) x ≤ 1 := hInv1.hcnt
        have hbit1 : ∀ j, j + 1 < MAX_ORDER → ∀ a, WF off a (j + 1) →
            bitSet s1 (get_bit_index ((a - off) / PAGE_SIZE) j) =
              Bool.xor (decide (a ∈ flist s1 j))
                (decide (a + blockSize j ∈ flist s1 j)) := hInv1.hbit
        have hktop : k < MAX_ORDER - 1 := by omega
        rw [if_pos hktop] at halloc
        simp only [Option.some.injEq, Prod.mk.injEq] at halloc
        obtain ⟨rfl, rfl⟩ := halloc
        have hWk : WF off q k := WF_mono hWf1
        have hbuddy : calculate_buddy_address s1 q k = q + blockSize k := by
          rw [calculate_buddy_char s1 off q k hoff1 hWk.1 hWk.2.1]
          obtain ⟨c, hc⟩ := Nat.dvd_of_mod_eq_zero hWf1.2.1
          have hpar : (q - off) / blockSize k % 2 = 0 := by
            rw [hc, blockSize_succ]
            have hmc : 2 * blockSize k * c = blockSize k * (2 * c) := by ring
            rw [hmc, Nat.mul_div_cancel_left _ (blockSize_pos k), Nat.mul_mod_right]
          rw [if_pos hpar]
        rw [hbuddy]
        set bud := q + blockSize k with hbud
        have hWb : WF off bud k := WF_right hWf1
        have hzero : ∀ x, q ≤ x → x < q + blockSize (k + 1) → freeCount s1 x = 0 := by
          intro x h1 h2
          have hc := hcnt1I x
          rw [outCount_cons] at hc
          have hcv : cInd q (k + 1) x = 1 := by
            rw [cInd_eq, if_pos ⟨h1, h2⟩]
          omega
        have hqm : q ∉ flist s1 k :=
          not_mem_of_count_zero s1 k q hkMO
            (hzero q (le_refl q) (by have := blockSize_pos (k + 1); omega))
        have hbm : bud ∉ flist s1 k := by
          apply not_mem_of_count_zero s1 k bud hkMO
          apply hzero bud (by rw [hbud]; have := blockSize_pos k; omega)
          rw [hbud, blockSize_succ]
          have := blockSize_pos k
          omega
        set s2 := (toggle_bit s1 ((q - s1.offset) / PAGE_SIZE) k).2 with hs2
        have hfl2 : ∀ j, flist s2 j = flist s1 j := fun j => flist_toggle s1 _ k j
        have hlen2 : s2.freeLists.length = MAX_ORDER := by
          rw [show s2.freeLists = s1.freeLists from toggle_freeLists _ _ _]
          exact hlen1
        have hcnt3 : ∀ x, freeCount (push_free s2 bud k) x + cInd q k x = freeCount s x := by
          intro x
          rw [freeCount_push s2 bud k x hkMO hlen2]
          have ht : freeCount s2 x = freeCount s1 x := freeCount_toggle s1 _ k x
          have hsp := cInd_split q k x
          rw [← hbud] at hsp
          have h1 := hcnt1 x
          omega
        refine ⟨hkMO, hWk, ?_, hcnt3⟩
        refine ⟨?_, ?_, ?_, ?_, ?_, ?_, ?_⟩
        · show (push_free s2 bud k).offset = off
          rw [push_free_offset, show s2.offset = s1.offset from toggle_offset _ _ _]
          exact hoff1
        · show (push_free s2 bud k).freeLists.length = MAX_ORDER
          rw [push_free_length]
          exact hlen2
        · show (push_free s2 bud k).bits.Nodup
          exact toggle_nodup s1 _ k hnd1
        · show ∀ j, j < MAX_ORDER → ∀ a, a ∈ flist (push_free s2 bud k) j → WF off a j
          intro j hj a ha
          by_cases hjk : j = k
          · subst hjk
            rw [flist_push_self s2 bud j (by rw [hlen2]; exact hkMO), hfl2 j] at ha
            rcases List.mem_cons.mp ha with rfl | ha2
            · exact hWb
            · exact hfree1 j hj a ha2
          · rw [flist_push_other s2 bud k j hjk, hfl2 j] at ha
            exact hfree1 j hj a ha
        · show ∀ w, w ∈ (q, k) :: out → w.2 < MAX_ORDER ∧ WF off w.1 w.2
          intro w hw
          rcases List.mem_cons.mp hw with rfl | hw2
          · exact ⟨hkMO, hWk⟩
          · exact hout1 w (List.mem_cons_of_mem _ hw2)
        · show ∀ x, freeCount (push_free s2 bud k) x + outCount ((q, k) :: out) x ≤ 1
          intro x
          rw [outCount_cons]
          have h3 := hcnt3 x
          have hic := hcntI x
          have h1 := hcnt1 x
          omega
        · show ∀ j, j + 1 < MAX_ORDER → ∀ a, WF off a (j + 1) →
            bitSet (push_free s2 bud k) (get_bit_index ((a - off) / PAGE_SIZE) j) =
              Bool.xor (decide (a ∈ flist (push_free s2 bud k) j))
                (decide (a + blockSize j ∈ flist (push_free s2 bud k) j))
          have hidxeq : get_bit_index ((q - off) / PAGE_SIZE) k =
              get_bit_index ((bud - off) / PAGE_SIZE) k := by
            rw [get_bit_index_same_band, pair_shift, pair_shift]
            exact ((pair_mem_iff off q bud k hWf1.1 hWf1.2.1 hWb.1 hWb.2.1).mpr
              (Or.inr hbud)).symm
          refine hbit_step s1 (push_free s2 bud k) off bud k (by omega) hWb
            (fun j hj => by rw [flist_push_other s2 bud k j hj, hfl2 j])
            (Or.inl ⟨hbm, by rw [flist_push_self s2 bud k (by rw [hlen2]; exact hkMO),
              hfl2 k]⟩)
            (fun i => ?_) hbit1
          have ht := toggle_bitSet s1 ((q - s1.offset) / PAGE_SIZE) k hnd1 i
          rw [← hs2] at ht
          rw [hoff1] at ht
          rw [show bitSet (push_free s2 bud k) i = bitSet s2 i from rfl, ht, hidxeq]
end Buddy

end LymadOS

namespace LymadOS

namespace Buddy

theorem WF_succ_of_even {off ptr k : Nat} (hk1 : k + 1 < MAX_ORDER) (hW : WF off ptr k)
    (hpar : (ptr - off) / blockSize k % 2 = 0) : WF off ptr (k + 1) := by
  obtain ⟨h1, h2, h3⟩ := hW
  have hbsk := blockSize_pos k
  obtain ⟨c, hc⟩ := Nat.dvd_of_mod_eq_zero h2
  have hcq : (ptr - off) / blockSize k = c := by rw [hc, Nat.mul_div_cancel_left _ hbsk]
  rw [hcq] at hpar
  obtain ⟨d, hd⟩ : ∃ d, c = 2 * d := ⟨c / 2, by omega⟩
  refine ⟨h1, ?_, ?_⟩
  · rw [blockSize_succ, hc, hd, show blockSize k * (2 * d) = 2 * blockSize k * d from by ring]
    exact Nat.mul_mod_right _ _
  · rw [blockSize_succ]
    have hdvd1 : 2 * blockSize k ∣ ptr - off := ⟨d, by rw [hc, hd]; ring⟩
    have hdvd2 : 2 * blockSize k ∣ MAX_PAGES * PAGE_SIZE := by
      rw [← blockSize_succ]
      exact blockSize_dvd_total (k + 1) hk1
    have hlt : ptr - off < MAX_PAGES * PAGE_SIZE := by omega
    have hle := add_dvd_le hlt hdvd1 hdvd2
    omega

theorem WF_succ_of_odd {off ptr k : Nat} (hW : WF off ptr k)
    (hpar : ¬ (ptr - off) / blockSize k % 2 = 0) :
    off + blockSize k ≤ ptr ∧ WF off (ptr - blockSize k) (k + 1) ∧
      ptr - blockSize k + blockSize k = ptr := by
  obtain ⟨h1, h2, h3⟩ := hW
  have hbsk := blockSize_pos k
  obtain ⟨c, hc⟩ := Nat.dvd_of_mod_eq_zero h2
  have hcq : (ptr - off) / blockSize k = c := by rw [hc, Nat.mul_div_cancel_left _ hbsk]
  rw [hcq] at hpar
  obtain ⟨d, hd⟩ : ∃ d, c = 2 * d + 1 := ⟨c / 2, by omega⟩
  have hcsplit : ptr - off = 2 * blockSize k * d + blockSize k := by
    rw [hc, hd]; ring
  have hge : off + blockSize k ≤ ptr := by omega
  refine ⟨hge, ⟨by omega, ?_, ?_⟩, by omega⟩
  · show (ptr - blockSize k - off) % blockSize (k + 1) = 0
    rw [blockSize_succ]
    have hx : ptr - blockSize k - off = 2 * blockSize k * d := by omega
    rw [hx]
    exact Nat.mul_mod_right _ _
  · rw [blockSize_succ]
    omega

/-- `deallocFuel` on a well-formed block whose bytes are not currently free,
in a consistent state with enough fuel: the result keeps the window, lengths,
bitmap `Nodup`, well-formedness of all free blocks, and the pair-bit
invariant, and free coverage grows by exactly the freed block. -/
theorem deallocFuel_spec (fuel : Nat) : ∀ (k : Nat) (s : BState) (off ptr : Nat),
    MAX_ORDER ≤ fuel + k → k < MAX_ORDER →
    s.offset = off → s.freeLists.length = MAX_ORDER → s.bits.Nodup →
    (∀ j, j < MAX_ORDER → ∀ a, a ∈ flist s j → WF off a j) →
    (∀ x, freeCount s x ≤ 1) →
    WF off ptr k →
    (∀ x, ptr ≤ x → x < ptr + blockSize k → freeCount s x = 0) →
    (∀ j, j + 1 < MAX_ORDER → ∀ a, WF off a (j + 1) →
      bitSet s (get_bit_index ((a - off) / PAGE_SIZE) j) =
        Bool.xor (decide (a ∈ flist s j)) (decide (a + blockSize j ∈ flist s j))) →
    (deallocFuel fuel s ptr k).offset = off ∧
    (deallocFuel fuel s ptr k).freeLists.length = MAX_ORDER ∧
    (deallocFuel fuel s ptr k).bits.Nodup ∧
    (∀ j, j < MAX_ORDER → ∀ a, a ∈ flist (deallocFuel fuel s ptr k) j → WF off a j) ∧
    (∀ x, freeCount (deallocFuel fuel s ptr k) x = freeCount s x + cInd ptr k x) ∧
    (∀ j, j + 1 < MAX_ORDER → ∀ a, WF off a (j + 1) →
      bitSet (deallocFuel fuel s ptr k) (get_bit_index ((a - off) / PAGE_SIZE) j) =
        Bool.xor (decide (a ∈ flist (deallocFuel fuel s ptr k) j))
          (decide (a + blockSize j ∈ flist (deallocFuel fuel s ptr k) j))) := by
  have hMO : MAX_ORDER = 12 := rfl
  induction fuel with
  | zero =>
    intro k s off ptr hfuel hk
    omega
  | succ n ih =>
    intro k s off ptr hfuel hk hoff hlen hnd hfree hcap hW hfc hbit
    have hbsk := blockSize_pos k
    have hguard : ¬ (ptr < s.offset ∨ s.offset + MAX_PAGES * PAGE_SIZE ≤ ptr) := by
      rw [hoff]
      push_neg
      exact ⟨hW.1, WF_lt_window hW⟩
    have hptr_nm : ptr ∉ flist s k :=
      not_mem_of_count_zero s k ptr hk (hfc ptr (le_refl ptr) (by omega))
    by_cases htop : MAX_ORDER - 1 ≤ k
    · have hres : deallocFuel (n + 1) s ptr k = push_free s ptr k := by
        rw [deallocFuel, if_neg hguard, if_pos htop]
      rw [hres]
      refine ⟨?_, ?_, ?_, ?_, ?_, ?_⟩
      · rw [push_free_offset]; exact hoff
      · rw [push_free_length]; exact hlen
      · exact hnd
      · intro j hj a ha
        by_cases hjk : j = k
        · subst hjk
          rw [flist_push_self s ptr j (by omega)] at ha
          rcases List.mem_cons.mp ha with rfl | ha2
          · exact hW
          · exact hfree j hj a ha2
        · rw [flist_push_other s ptr k j hjk] at ha
          exact hfree j hj a ha
      · intro x
        exact freeCount_push s ptr k x hk hlen
      · exact hbit_top s (push_free s ptr k) off
          (fun j hj => flist_push_other s ptr k j (by omega)) rfl hbit
    · have hk1 : k + 1 < MAX_ORDER := by omega
      have hofftS : ((toggle_bit s ((ptr - off) / PAGE_SIZE) k).2).offset = off :=
        (toggle_offset _ _ _).trans hoff
      have hlentS : ((toggle_bit s ((ptr - off) / PAGE_SIZE) k).2).freeLists.length =
          MAX_ORDER := by
        rw [show ((toggle_bit s ((ptr - off) / PAGE_SIZE) k).2).freeLists = s.freeLists from
          toggle_freeLists _ _ _]
        exact hlen
      cases hbval : bitSet s (get_bit_index ((ptr - off) / PAGE_SIZE) k) with
      | false =>
        have hres : deallocFuel (n + 1) s ptr k =
            push_free (toggle_bit s ((ptr - off) / PAGE_SIZE) k).2 ptr k := by
          rw [deallocFuel, if_neg hguard, if_neg htop]
          dsimp only
          rw [hoff, toggle_fst, hbval, Bool.not_false]
          exact if_pos rfl
        rw [hres]
        refine ⟨?_, ?_, ?_, ?_, ?_, ?_⟩
        · rw [push_free_offset]; exact hofftS
        · rw [push_free_length]; exact hlentS
        · exact toggle_nodup s _ k hnd
        · intro j hj a ha
          by_cases hjk : j = k
          · subst hjk
            rw [flist_push_self _ ptr j (by rw [hlentS]; exact hk),
              flist_toggle s _ j j] at ha
            rcases List.mem_cons.mp ha with rfl | ha2
            · exact hW
            · exact hfree j hj a ha2
          · rw [flist_push_other _ ptr k j hjk, flist_toggle s _ k j] at ha
            exact hfree j hj a ha
        · intro x
          rw [freeCount_push _ ptr k x hk hlentS, freeCount_toggle s _ k x]
        · refine hbit_step s _ off ptr k hk1 hW
            (fun j hj => by rw [flist_push_other _ ptr k j hj, flist_toggle s _ k j])
            (Or.inl ⟨hptr_nm, by
              rw [flist_push_self _ ptr k (by rw [hlentS]; exact hk),
                flist_toggle s _ k k]⟩)
            (fun i => ?_) hbit
          rw [show bitSet (push_free (toggle_bit s ((ptr - off) / PAGE_SIZE) k).2 ptr k) i =
            bitSet (toggle_bit s ((ptr - off) / PAGE_SIZE) k).2 i from rfl]
          exact toggle_bitSet s ((ptr - off) / PAGE_SIZE) k hnd i
      | true =>
        obtain ⟨bud, a, hbudeq, hmin, hA, hcases⟩ :
            ∃ bud a, calculate_buddy_address
                (toggle_bit s ((ptr - off) / PAGE_SIZE) k).2 ptr k = bud ∧
              min ptr bud = a ∧ WF off a (k + 1) ∧
              ((a = ptr ∧ bud = ptr + blockSize k) ∨
                (a = bud ∧ ptr = bud + blockSize k)) := by
          rw [calculate_buddy_char _ off ptr k hofftS hW.1 hW.2.1]
          by_cases hpar : (ptr - off) / blockSize k % 2 = 0
          · exact ⟨ptr + blockSize k, ptr, by rw [if_pos hpar],
              Nat.min_eq_left (by omega), WF_succ_of_even hk1 hW hpar,
              Or.inl ⟨rfl, rfl⟩⟩
          · obtain ⟨hge, hWo, hadd⟩ := WF_succ_of_odd hW hpar
            exact ⟨ptr - blockSize k, ptr - blockSize k, by rw [if_neg hpar],
              Nat.min_eq_right (by omega), hWo, Or.inr ⟨rfl, hadd.symm⟩⟩
        have hWb : WF off bud k := by
          rcases hcases with ⟨ha, hb⟩ | ⟨ha, hb⟩
          · rw [hb, ← ha]
            exact WF_right hA
          · rw [← ha]
            exact WF_mono hA
        have hidxp : get_bit_index ((ptr - off) / PAGE_SIZE) k =
            get_bit_index ((a - off) / PAGE_SIZE) k := by
          apply (idx_pair_iff off a ptr k hA hW).mpr
          rcases hcases with ⟨ha, _⟩ | ⟨ha, hb⟩
          · exact Or.inl ha.symm
          · rw [hb, ha]
            exact Or.inr rfl
        have hidxb : get_bit_index ((bud - off) / PAGE_SIZE) k =
            get_bit_index ((a - off) / PAGE_SIZE) k := by
          apply (idx_pair_iff off a bud k hA hWb).mpr
          rcases hcases with ⟨ha, hb⟩ | ⟨ha, _⟩
          · rw [hb, ha]
            exact Or.inr rfl
          · exact Or.inl ha.symm
        have hbmem : bud ∈ flist s k := by
          have hx := hbit k hk1 a hA
          rw [← hidxp, hbval] at hx
          rcases hcases with ⟨ha, hb⟩ | ⟨ha, hb⟩
          · rw [← ha] at hptr_nm
            rw [decide_eq_false hptr_nm, Bool.false_xor] at hx
            have hm : a + blockSize k ∈ flist s k := of_decide_eq_true hx.symm
            rw [hb, ← ha]
            exact hm
          · rw [hb, ← ha] at hptr_nm
            rw [decide_eq_false hptr_nm, Bool.xor_false] at hx
            rw [← ha]
            exact of_decide_eq_true hx.symm
        have hbmem2 : bud ∈ flist (toggle_bit s ((ptr - off) / PAGE_SIZE) k).2 k := by
          rw [flist_toggle s _ k k]
          exact hbmem
        have hrem : ∀ x, freeCount (remove_frame
              (toggle_bit s ((ptr - off) / PAGE_SIZE) k).2 bud k) x + cInd bud k x =
            freeCount s x := by
          intro x
          have h1 := freeCount_remove _ bud k x hk hlentS hbmem2
          rw [freeCount_toggle s _ k x] at h1
          exact h1
        have hsplit : ∀ x, cInd a (k + 1) x = cInd ptr k x + cInd bud k x := by
          intro x
          rcases hcases with ⟨ha, hb⟩ | ⟨ha, hb⟩
          · rw [cInd_split, ha, ← hb]
          · rw [cInd_split, ha, ← hb]
            omega
        have hres : deallocFuel (n + 1) s ptr k =
            deallocFuel n (remove_frame
              (toggle_bit s ((ptr - off) / PAGE_SIZE) k).2 bud k) (min ptr bud) (k + 1) := by
          rw [deallocFuel, if_neg hguard, if_neg htop]
          dsimp only
          rw [hoff, toggle_fst, hbval, Bool.not_true, if_neg (by simp), hbudeq]
        have hcap2 : ∀ x, freeCount (remove_frame
            (toggle_bit s ((ptr - off) / PAGE_SIZE) k).2 bud k) x ≤ 1 := by
          intro x
          have := hrem x
          have := hcap x
          omega
        have hfc2 : ∀ x, a ≤ x → x < a + blockSize (k + 1) →
            freeCount (remove_frame
              (toggle_bit s ((ptr - off) / PAGE_SIZE) k).2 bud k) x = 0 := by
          intro x h1 h2
          have hr := hrem x
          rw [blockSize_succ] at h2
          rcases hcases with ⟨ha, hb⟩ | ⟨ha, hb⟩
          · subst ha
            by_cases hhalf : x < a + blockSize k
            · have h0 := hfc x h1 hhalf
              omega
            · have hcov : cInd bud k x = 1 := by
                rw [cInd_eq, if_pos ⟨by omega, by omega⟩]
              have := hcap x
              omega
          · rw [← ha] at hb
            by_cases hhalf : x < a + blockSize k
            · have hcov : cInd bud k x = 1 := by
                rw [cInd_eq, if_pos ⟨by rw [← ha]; exact h1, by rw [← ha]; exact hhalf⟩]
              have := hcap x
              omega
            · have h0 := hfc x (by omega) (by omega)
              omega
        have hnd2 : (flist s k).Nodup :=
          flist_nodup_of_counts s k hk hcap
        have hbit2 : ∀ j, j + 1 < MAX_ORDER → ∀ x, WF off x (j + 1) →
            bitSet (remove_frame (toggle_bit s ((ptr - off) / PAGE_SIZE) k).2 bud k)
                (get_bit_index ((x - off) / PAGE_SIZE) j) =
              Bool.xor
                (decide (x ∈ flist (remove_frame
                  (toggle_bit s ((ptr - off) / PAGE_SIZE) k).2 bud k) j))
                (decide (x + blockSize j ∈ flist (remove_frame
                  (toggle_bit s ((ptr - off) / PAGE_SIZE) k).2 bud k) j)) := by
          refine hbit_step s _ off bud k hk1 hWb
            (fun j hj => by
              rw [flist_remove_other _ bud k j hj, flist_toggle s _ k j])
            (Or.inr ⟨hnd2, hbmem, by
              rw [flist_remove_self _ bud k (by rw [hlentS]; exact hk),
                flist_toggle s _ k k]⟩)
            (fun i => ?_) hbit
          rw [show bitSet (remove_frame
              (toggle_bit s ((ptr - off) / PAGE_SIZE) k).2 bud k) i =
            bitSet (toggle_bit s ((ptr - off) / PAGE_SIZE) k).2 i from rfl]
          rw [toggle_bitSet s ((ptr - off) / PAGE_SIZE) k hnd i, hidxp, hidxb]
        obtain ⟨ih1, ih2, ih3, ih4, ih5, ih6⟩ :=
          ih (k + 1) (remove_frame (toggle_bit s ((ptr - off) / PAGE_SIZE) k).2 bud k)
            off a (by omega) hk1
            ((remove_frame_offset _ _ _).trans hofftS)
            (by rw [remove_frame_length]; exact hlentS)
            (toggle_nodup s _ k hnd)
            (by
              intro j hj x hx
              by_cases hjk : j = k
              · subst hjk
                rw [flist_remove_self _ bud j (by rw [hlentS]; exact hk),
                  flist_toggle s _ j j] at hx
                exact hfree j hj x (List.mem_of_mem_erase hx)
              · rw [flist_remove_other _ bud k j hjk, flist_toggle s _ k j] at hx
                exact hfree j hj x hx)
            hcap2 hA hfc2 hbit2
        rw [hres, hmin]
        refine ⟨ih1, ih2, ih3, ih4, ?_, ih6⟩
        intro x
        rw [ih5 x]
        have h1 := hrem x
        have h2 := hsplit x
        omega

theorem deallocFuel_top (fuel : Nat) (s : BState) (ptr k : Nat)
    (hg : ¬ (ptr < s.offset ∨ s.offset + MAX_PAGES * PAGE_SIZE ≤ ptr))
    (hkt : MAX_ORDER - 1 ≤ k) :
    deallocFuel (fuel + 1) s ptr k = push_free s ptr k := by
  rw [deallocFuel, if_neg hg, if_pos hkt]

theorem deallocFuel_push (fuel : Nat) (s : BState) (ptr k : Nat)
    (hg : ¬ (ptr < s.offset ∨ s.offset + MAX_PAGES * PAGE_SIZE ≤ ptr))
    (hkt : ¬ MAX_ORDER - 1 ≤ k)
    (hbitv : bitSet s (get_bit_index ((ptr - s.offset) / PAGE_SIZE) k) = false) :
    deallocFuel (fuel + 1) s ptr k =
      push_free (toggle_bit s ((ptr - s.offset) / PAGE_SIZE) k).2 ptr k := by
  rw [deallocFuel, if_neg hg, if_neg hkt]
  dsimp only
  rw [toggle_fst, hbitv, Bool.not_false]
  exact if_pos rfl

theorem deallocFuel_merge (fuel : Nat) (s : BState) (ptr k : Nat)
    (hg : ¬ (ptr < s.offset ∨ s.offset + MAX_PAGES * PAGE_SIZE ≤ ptr))
    (hkt : ¬ MAX_ORDER - 1 ≤ k)
    (hbitv : bitSet s (get_bit_index ((ptr - s.offset) / PAGE_SIZE) k) = true) :
    deallocFuel (fuel + 1) s ptr k =
      deallocFuel fuel
        (remove_frame (toggle_bit s ((ptr - s.offset) / PAGE_SIZE) k).2
          (calculate_buddy_address (toggle_bit s ((ptr - s.offset) / PAGE_SIZE) k).2 ptr k) k)
        (min ptr
          (calculate_buddy_address (toggle_bit s ((ptr - s.offset) / PAGE_SIZE) k).2 ptr k))
        (k + 1) := by
  rw [deallocFuel, if_neg hg, if_neg hkt]
  dsimp only
  rw [toggle_fst, hbitv, Bool.not_true]
  exact if_neg (by simp)

theorem deallocFuel_congr (f1 : Nat) : ∀ (f2 k : Nat) (s : BState) (p : Nat),
    MAX_ORDER ≤ f1 + k → MAX_ORDER ≤ f2 + k → k < MAX_ORDER →
    deallocFuel f1 s p k = deallocFuel f2 s p k := by
  have hMO : MAX_ORDER = 12 := rfl
  induction f1 with
  | zero =>
    intro f2 k s p h1 h2 hk
    omega
  | succ f1 ih =>
    intro f2 k s p h1 h2 hk
    cases f2 with
    | zero => omega
    | succ f2 =>
      rw [deallocFuel, deallocFuel]
      split
      · rfl
      · split
        · rfl
        · dsimp only
          split
          · rfl
          · exact ih f2 (k + 1) _ _ (by omega) (by omega) (by omega)

theorem flist_newState (off k : Nat) : flist (newState off) k = [] := by
  unfold flist newState
  dsimp only
  rcases Nat.lt_or_ge k MAX_ORDER with h | h
  · rw [List.getD_eq_getElem?_getD, List.getElem?_replicate, if_pos h]
    rfl
  · rw [List.getD_eq_getElem?_getD, List.getElem?_eq_none (by simpa using h)]
    rfl

theorem freeCount_newState (off x : Nat) : freeCount (newState off) x = 0 := by
  unfold freeCount
  apply Finset.sum_eq_zero
  intro k _
  rw [flist_newState]
  rfl

theorem Inv_init (off : Nat) : Inv off ⟨newState off, []⟩ := by
  refine ⟨rfl, by simp [newState], by simp [newState], ?_, ?_, ?_, ?_⟩
  · intro k _ a ha
    rw [flist_newState] at ha
    simp at ha
  · intro p hp
    simp at hp
  · intro x
    rw [freeCount_newState]
    simp [outCount]
  · intro k _ a _
    rw [flist_newState]
    simp [bitSet, newState]

theorem Inv_step {off : Nat} {c c2 : Config} (hInv : Inv off c) (hstep : BStep c c2) :
    Inv off c2 := by
  have hMO : MAX_ORDER = 12 := rfl
  have hoff : c.st.offset = off := hInv.hoff
  have hlen : c.st.freeLists.length = MAX_ORDER := hInv.hlen
  have hnd : c.st.bits.Nodup := hInv.hnodup
  have hfree : ∀ j, j < MAX_ORDER → ∀ a, a ∈ flist c.st j → WF off a j := hInv.hfree
  have houtI : ∀ q, q ∈ c.out → q.2 < MAX_ORDER ∧ WF off q.1 q.2 := hInv.hout
  have hcntI : ∀ x, freeCount c.st x + outCount c.out x ≤ 1 := hInv.hcnt
  have hbit : ∀ j, j + 1 < MAX_ORDER → ∀ a, WF off a (j + 1) →
      bitSet c.st (get_bit_index ((a - off) / PAGE_SIZE) j) =
        Bool.xor (decide (a ∈ flist c.st j)) (decide (a + blockSize j ∈ flist c.st j)) :=
    hInv.hbit
  have hcap : ∀ x, freeCount c.st x ≤ 1 := by
    intro x
    have := hcntI x
    omega
  cases hstep with
  | add_frame f hal hge hfcS hfcO =>
    by_cases hg : f < c.st.offset ∨ c.st.offset + MAX_PAGES * PAGE_SIZE ≤ f
    · rw [show add_frame c.st f = c.st from by unfold add_frame; rw [if_pos hg]]
      exact hInv
    · have hadd : add_frame c.st f = deallocFuel MAX_ORDER c.st f 0 := by
        unfold add_frame
        rw [if_neg hg]
        rfl
      rw [hadd]
      have hbs0 : blockSize 0 = PAGE_SIZE := rfl
      push_neg at hg
      rw [hoff] at hal hg
      have hW : WF off f 0 := by
        refine ⟨hg.1, by rw [hbs0]; exact hal, ?_⟩
        rw [hbs0]
        exact add_dvd_le (by omega) (Nat.dvd_of_mod_eq_zero hal)
          ⟨MAX_PAGES, Nat.mul_comm _ _⟩
      have hfc : ∀ x, f ≤ x → x < f + blockSize 0 → freeCount c.st x = 0 := by
        intro x h1 h2
        rw [hbs0] at h2
        exact hfcS x h1 h2
      obtain ⟨d1, d2, d3, d4, d5, d6⟩ := deallocFuel_spec MAX_ORDER 0 c.st off f
        (by omega) (by omega) hoff hlen hnd hfree hcap hW hfc hbit
      refine ⟨d1, d2, d3, d4, houtI, ?_, d6⟩
      intro x
      show freeCount (deallocFuel MAX_ORDER c.st f 0) x + outCount c.out x ≤ 1
      rw [d5 x]
      rw [cInd_eq]
      by_cases hcov : f ≤ x ∧ x < f + blockSize 0
      · rw [if_pos hcov]
        have h1 := hfcS x hcov.1 (by rw [← hbs0]; exact hcov.2)
        have h2 := hfcO x hcov.1 (by rw [← hbs0]; exact hcov.2)
        omega
      · rw [if_neg hcov]
        have := hcntI x
        omega
  | alloc k p s2 halloc =>
    exact (allocFuel_spec MAX_ORDER k c.st c.out off p s2 hInv halloc).2.2.1
  | dealloc p k hmem =>
    have hpk := houtI (p, k) hmem
    have houtc : ∀ x, outCount (c.out.erase (p, k)) x + cInd p k x = outCount c.out x := by
      intro x
      have hs := Util.sum_map_erase c.out (p, k) (fun w => cInd w.1 w.2 x) hmem
      simpa [outCount] using hs
    have hfc : ∀ x, p ≤ x → x < p + blockSize k → freeCount c.st x = 0 := by
      intro x h1 h2
      have h3 := hcntI x
      have h4 := houtc x
      have h5 : cInd p k x = 1 := by rw [cInd_eq, if_pos ⟨h1, h2⟩]
      omega
    obtain ⟨d1, d2, d3, d4, d5, d6⟩ := deallocFuel_spec MAX_ORDER k c.st off p
      (by omega) hpk.1 hoff hlen hnd hfree hcap hpk.2 hfc hbit
    show Inv off ⟨deallocFuel MAX_ORDER c.st p k, c.out.erase (p, k)⟩
    refine ⟨d1, d2, d3, d4, ?_, ?_, d6⟩
    · intro w hw
      exact houtI w (List.mem_of_mem_erase hw)
    · intro x
      show freeCount (deallocFuel MAX_ORDER c.st p k) x + outCount (c.out.erase (p, k)) x ≤ 1
      rw [d5 x]
      have h4 := houtc x
      have h3 := hcntI x
      omega

theorem Reachable_Inv {off : Nat} {c : Config} (h : Reachable off c) : Inv off c := by
  induction h with
  | init => exact Inv_init off
  | step hr hs ih => exact Inv_step ih hs

/-- C4: in every buddy-allocator configuration reachable by feeding page-aligned
frames via `add_frame` and any legal sequence of `alloc`/`dealloc`, a successful
`alloc k` returns a pointer `p` with `p - offset` a multiple of `2^k * 4096`. -/
theorem c4_alloc_aligned (off k p : Nat) (c : Config) (s2 : BState)
    (hr : Reachable off c) (h : alloc c.st k = some (p, s2)) :
    (p - off) % (2 ^ k * 4096) = 0 := by
  have hInv := Reachable_Inv hr
  have hspec := allocFuel_spec MAX_ORDER k c.st c.out off p s2 hInv h
  have hal : (p - off) % blockSize k = 0 := hspec.2.1.2.1
  have hbs : (2 : Nat) ^ k * 4096 = blockSize k := by
    rw [blockSize_eq, pow_add]
    norm_num
  rw [hbs]
  exact hal

theorem c4_alloc_aligned_witness : (0 - 0) % (2 ^ 0 * 4096) = 0 :=
  c4_alloc_aligned 0 0 0 ⟨add_frame (newState 0) 0, []⟩
    ⟨[[], [], [], [], [], [], [], [], [], [], [], []], [], 0⟩
    (Reachable.step Reachable.init
      (BStep.add_frame ⟨newState 0, []⟩ 0 (by decide) (by decide)
        (fun x h1 h2 => freeCount_newState 0 x) (fun x h1 h2 => rfl)))
    (by decide)

/-- C5: from every reachable buddy-allocator configuration, if `alloc k`
succeeds returning `p`, then immediately calling `dealloc p k` yields a state
with exactly the same free coverage of every byte address as before the
`alloc` — the same set of free blocks at each order, modulo coalescing of
buddies into larger blocks. -/
theorem c5_alloc_dealloc_roundtrip (off k p : Nat) (c : Config) (s2 : BState)
    (hr : Reachable off c) (h : alloc c.st k = some (p, s2)) :
    ∀ x, freeCount (dealloc s2 p k) x = freeCount c.st x := by
  have hInv := Reachable_Inv hr
  obtain ⟨hkMO, hWf, hInv2, hcnt⟩ := allocFuel_spec MAX_ORDER k c.st c.out off p s2 hInv h
  have hoff2 : s2.offset = off := hInv2.hoff
  have hlen2 : s2.freeLists.length = MAX_ORDER := hInv2.hlen
  have hnd2 : s2.bits.Nodup := hInv2.hnodup
  have hfree2 : ∀ j, j < MAX_ORDER → ∀ a, a ∈ flist s2 j → WF off a j := hInv2.hfree
  have hcnt2 : ∀ x, freeCount s2 x + outCount ((p, k) :: c.out) x ≤ 1 := hInv2.hcnt
  have hbit2 : ∀ j, j + 1 < MAX_ORDER → ∀ a, WF off a (j + 1) →
      bitSet s2 (get_bit_index ((a - off) / PAGE_SIZE) j) =
        Bool.xor (decide (a ∈ flist s2 j)) (decide (a + blockSize j ∈ flist s2 j)) :=
    hInv2.hbit
  have hcap2 : ∀ x, freeCount s2 x ≤ 1 := fun x => by have := hcnt2 x; omega
  have hfc2 : ∀ x, p ≤ x → x < p + blockSize k → freeCount s2 x = 0 := by
    intro x h1 h2
    have hc := hcnt2 x
    rw [outCount_cons] at hc
    have h5 : cInd p k x = 1 := by rw [cInd_eq, if_pos ⟨h1, h2⟩]
    omega
  obtain ⟨d1, d2, d3, d4, d5, d6⟩ := deallocFuel_spec MAX_ORDER k s2 off p
    (Nat.le_add_right _ _) hkMO hoff2 hlen2 hnd2 hfree2 hcap2 hWf hfc2 hbit2
  intro x
  show freeCount (deallocFuel MAX_ORDER s2 p k) x = freeCount c.st x
  rw [d5 x]
  have := hcnt x
  omega

theorem c5_alloc_dealloc_roundtrip_witness :
    freeCount (dealloc ⟨[[], [], [], [], [], [], [], [], [], [], [], []], [], 0⟩ 0 0) 0 =
      freeCount (add_frame (newState 0) 0) 0 :=
  c5_alloc_dealloc_roundtrip 0 0 0 ⟨add_frame (newState 0) 0, []⟩
    ⟨[[], [], [], [], [], [], [], [], [], [], [], []], [], 0⟩
    (Reachable.step Reachable.init
      (BStep.add_frame ⟨newState 0, []⟩ 0 (by decide) (by decide)
        (fun x h1 h2 => freeCount_newState 0 x) (fun x h1 h2 => rfl)))
    (by decide) 0

theorem feedLin_snoc (n : Nat) : ∀ (s : BState) (b : Nat),
    feedLin s b (n + 1) = add_frame (feedLin s b n) (b + n * PAGE_SIZE) := by
  induction n with
  | zero =>
    intro s b
    show feedLin (add_frame s b) (b + PAGE_SIZE) 0 = add_frame (feedLin s b 0) (b + 0 * PAGE_SIZE)
    show add_frame s b = add_frame s (b + 0 * PAGE_SIZE)
    rw [Nat.zero_mul, Nat.add_zero]
  | succ n ih =>
    intro s b
    show feedLin (add_frame s b) (b + PAGE_SIZE) (n + 1) =
      add_frame (feedLin (add_frame s b) (b + PAGE_SIZE) n) (b + (n + 1) * PAGE_SIZE)
    rw [ih (add_frame s b) (b + PAGE_SIZE)]
    congr 1
    ring

theorem feedLin_add (m : Nat) : ∀ (n : Nat) (s : BState) (b : Nat),
    feedLin s b (m + n) = feedLin (feedLin s b m) (b + m * PAGE_SIZE) n := by
  induction m with
  | zero =>
    intro n s b
    rw [Nat.zero_add, Nat.zero_mul, Nat.add_zero]
    rfl
  | succ m ih =>
    intro n s b
    rw [show m + 1 + n = (m + n) + 1 from by omega]
    show feedLin (add_frame s b) (b + PAGE_SIZE) (m + n) =
      feedLin (feedLin (add_frame s b) (b + PAGE_SIZE) m) (b + (m + 1) * PAGE_SIZE) n
    rw [ih n (add_frame s b) (b + PAGE_SIZE)]
    congr 1
    ring

theorem feedBlock_eq_lin (j : Nat) : ∀ (s : BState) (b : Nat),
    feedBlock s b j = feedLin s b (2 ^ j) := by
  induction j with
  | zero =>
    intro s b
    show add_frame s b = feedLin s b (2 ^ 0)
    rw [pow_zero]
    show add_frame s b = feedLin (add_frame s b) (b + PAGE_SIZE) 0
    rfl
  | succ j ih =>
    intro s b
    show feedBlock (feedBlock s b j) (b + blockSize j) j = feedLin s b (2 ^ (j + 1))
    rw [ih, ih, pow_succ, Nat.mul_two, feedLin_add (2 ^ j) (2 ^ j) s b]
    have harg : blockSize j = 2 ^ j * PAGE_SIZE := by
      rw [blockSize_eq]
      have hp : PAGE_SIZE = 2 ^ 12 := by norm_num [PAGE_SIZE]
      rw [hp, pow_add]
    rw [harg]

theorem blockSize_le {i j : Nat} (h : i ≤ j) : blockSize i ≤ blockSize j :=
  Nat.le_of_dvd (blockSize_pos j) (blockSize_dvd h)

theorem blockSize_as_pages (t : Nat) : blockSize t = 2 ^ t * PAGE_SIZE := by
  rw [blockSize_eq]
  have hp : PAGE_SIZE = 2 ^ 12 := by norm_num [PAGE_SIZE]
  rw [hp, pow_add]

theorem PAGE_SIZE_pos : 0 < PAGE_SIZE := by norm_num [PAGE_SIZE]

theorem div_page_of_aligned (m t : Nat) : (blockSize t * m) / PAGE_SIZE = m * 2 ^ t := by
  rw [blockSize_as_pages,
    show 2 ^ t * PAGE_SIZE * m = m * 2 ^ t * PAGE_SIZE from by ring]
  exact Nat.mul_div_cancel _ PAGE_SIZE_pos

theorem BitsClear_mono {s : BState} {b j : Nat} (h : BitsClear s b (j + 1)) :
    BitsClear s b j := by
  intro i q hi h1 h2
  apply h i q hi h1
  exact le_trans h2 (Nat.add_le_add_left (blockSize_le (Nat.le_succ j)) b)


theorem toggle_bits_of_mem (s : BState) (p k : Nat) (h : get_bit_index p k ∈ s.bits) :
    ((toggle_bit s p k).2).bits = s.bits.erase (get_bit_index p k) := by
  unfold toggle_bit
  dsimp only
  rw [if_pos h]

/-- Feeding the `2^j` frames of an aligned order-`j` block one page at a time
has exactly the same effect as freeing the whole block at order `j`: the
buddy merges cascade all the way up. -/
theorem feedBlock_eq_dealloc (j : Nat) : ∀ (s : BState) (b : Nat),
    s.offset = 0 → s.freeLists.length = MAX_ORDER →
    j < MAX_ORDER →
    b % blockSize j = 0 →
    b + blockSize j ≤ MAX_PAGES * PAGE_SIZE →
    BitsClear s b j →
    feedBlock s b j = dealloc s b j := by
  have hMO : MAX_ORDER = 12 := rfl
  induction j with
  | zero =>
    intro s b hoff hlen _ hal hwin _
    show add_frame s b = dealloc s b 0
    have hg : ¬ (b < s.offset ∨ s.offset + MAX_PAGES * PAGE_SIZE ≤ b) := by
      rw [hoff]
      push_neg
      refine ⟨Nat.zero_le b, ?_⟩
      have hbs : blockSize 0 = PAGE_SIZE := rfl
      have := blockSize_pos 0
      omega
    unfold add_frame
    rw [if_neg hg]
  | succ j ih =>
    intro s b hoff hlen hj hal hwin hbc
    have hj1 : j < MAX_ORDER := by omega
    have hkt : ¬ MAX_ORDER - 1 ≤ j := by omega
    have hbsj := blockSize_pos j
    have hbss := blockSize_succ j
    obtain ⟨m, hm⟩ := Nat.dvd_of_mod_eq_zero hal
    have hdvdj : blockSize j ∣ b := dvd_trans (blockSize_dvd (Nat.le_succ j)) ⟨m, hm⟩
    have halj : b % blockSize j = 0 := by
      obtain ⟨c, hc⟩ := hdvdj
      rw [hc]
      exact Nat.mul_mod_right _ _
    have hmb1 : m * blockSize (j + 1) = b := by rw [hm, Nat.mul_comm]
    have hmb2 : (m + 1) * blockSize (j + 1) = b + blockSize (j + 1) := by
      rw [Nat.succ_mul, hmb1]
    have hnm : get_bit_index (m * 2 ^ (j + 1)) j ∉ s.bits :=
      hbc j m hj (le_of_eq hmb1.symm) (le_of_eq hmb2)
    have hdivb : b / PAGE_SIZE = m * 2 ^ (j + 1) := by
      rw [hm]
      exact div_page_of_aligned m (j + 1)
    have hlow : feedBlock s b j = dealloc s b j :=
      ih s b hoff hlen hj1 halj (by omega) (BitsClear_mono hbc)
    have hg : ¬ (b < s.offset ∨ s.offset + MAX_PAGES * PAGE_SIZE ≤ b) := by
      rw [hoff]
      push_neg
      refine ⟨Nat.zero_le b, ?_⟩
      have := blockSize_pos (j + 1)
      omega
    have hpidx : (b - s.offset) / PAGE_SIZE = m * 2 ^ (j + 1) := by
      rw [hoff, Nat.sub_zero, hdivb]
    have hbitb : bitSet s (get_bit_index ((b - s.offset) / PAGE_SIZE) j) = false := by
      rw [hpidx]
      exact decide_eq_false hnm
    have hpush : dealloc s b j = push_free (toggle_bit s (m * 2 ^ (j + 1)) j).2 b j := by
      have h1 : deallocFuel (11 + 1) s b j =
          push_free (toggle_bit s ((b - s.offset) / PAGE_SIZE) j).2 b j :=
        deallocFuel_push 11 s b j hg hkt hbitb
      rw [hpidx] at h1
      exact h1
    have hbitsTS : ((toggle_bit s (m * 2 ^ (j + 1)) j).2).bits =
        get_bit_index (m * 2 ^ (j + 1)) j :: s.bits := by
      unfold toggle_bit
      dsimp only
      rw [if_neg hnm]
    have hbitsS : (push_free (toggle_bit s (m * 2 ^ (j + 1)) j).2 b j).bits = get_bit_index (m * 2 ^ (j + 1)) j :: s.bits := by
      rw [push_free_bits, hbitsTS]
    have hoffS : (push_free (toggle_bit s (m * 2 ^ (j + 1)) j).2 b j).offset = 0 := by
      rw [push_free_offset, toggle_offset, hoff]
    have hlenTS : ((toggle_bit s (m * 2 ^ (j + 1)) j).2).freeLists.length = MAX_ORDER := by
      rw [toggle_freeLists]
      exact hlen
    have hlenS : (push_free (toggle_bit s (m * 2 ^ (j + 1)) j).2 b j).freeLists.length = MAX_ORDER := by
      rw [push_free_length]
      exact hlenTS
    have hflS : flist (push_free (toggle_bit s (m * 2 ^ (j + 1)) j).2 b j) j = b :: flist s j := by
      rw [flist_push_self _ b j (by rw [hlenTS]; omega), flist_toggle]
    have hbcHi : BitsClear (push_free (toggle_bit s (m * 2 ^ (j + 1)) j).2 b j) (b + blockSize j) j := by
      intro i q hi h1 h2
      rw [hbitsS]
      intro hmem
      rcases List.mem_cons.mp hmem with heq | hmem2
      · have hij : i < j := by
          by_contra hge
          push_neg at hge
          have hbs2 : blockSize (j + 1) ≤ blockSize (i + 1) := blockSize_le (by omega)
          have hq1 : (q + 1) * blockSize (i + 1) =
              q * blockSize (i + 1) + blockSize (i + 1) := by ring
          omega
        have hqlt : q * 2 ^ (i + 1) < MAX_PAGES := by
          have hb1 : q * blockSize (i + 1) < MAX_PAGES * PAGE_SIZE := by
            have hq1 : (q + 1) * blockSize (i + 1) =
                q * blockSize (i + 1) + blockSize (i + 1) := by ring
            have := blockSize_pos (i + 1)
            omega
          rw [blockSize_as_pages,
            show q * (2 ^ (i + 1) * PAGE_SIZE) = q * 2 ^ (i + 1) * PAGE_SIZE from by
              ring] at hb1
          exact Nat.lt_of_mul_lt_mul_right hb1
        have hmlt : m * 2 ^ (j + 1) < MAX_PAGES := by
          have hb1 : m * blockSize (j + 1) < MAX_PAGES * PAGE_SIZE := by
            have := blockSize_pos (j + 1)
            omega
          rw [blockSize_as_pages,
            show m * (2 ^ (j + 1) * PAGE_SIZE) = m * 2 ^ (j + 1) * PAGE_SIZE from by
              ring] at hb1
          exact Nat.lt_of_mul_lt_mul_right hb1
        exact get_bit_index_cross _ _ i j hqlt hmlt hi hj (by omega) heq
      · refine absurd hmem2 (hbc i q hi (by omega) ?_)
        omega
    have halHi : (b + blockSize j) % blockSize j = 0 := by
      rw [Nat.add_mod_right]
      exact halj
    have hhigh : feedBlock (push_free (toggle_bit s (m * 2 ^ (j + 1)) j).2 b j) (b + blockSize j) j =
        dealloc (push_free (toggle_bit s (m * 2 ^ (j + 1)) j).2 b j) (b + blockSize j) j :=
      ih _ (b + blockSize j) hoffS hlenS hj1 halHi (by omega) hbcHi
    have hgHi : ¬ (b + blockSize j < (push_free (toggle_bit s (m * 2 ^ (j + 1)) j).2 b j).offset ∨
        (push_free (toggle_bit s (m * 2 ^ (j + 1)) j).2 b j).offset + MAX_PAGES * PAGE_SIZE ≤ b + blockSize j) := by
      rw [hoffS]
      push_neg
      refine ⟨Nat.zero_le _, ?_⟩
      omega
    have hpidxHi : ((b + blockSize j) - (push_free (toggle_bit s (m * 2 ^ (j + 1)) j).2 b j).offset) / PAGE_SIZE =
        m * 2 ^ (j + 1) + 2 ^ j := by
      rw [hoffS, Nat.sub_zero, hm, blockSize_as_pages (j + 1), blockSize_as_pages j,
        show 2 ^ (j + 1) * PAGE_SIZE * m + 2 ^ j * PAGE_SIZE =
          (m * 2 ^ (j + 1) + 2 ^ j) * PAGE_SIZE from by ring]
      exact Nat.mul_div_cancel _ PAGE_SIZE_pos
    have hidxHi : get_bit_index (m * 2 ^ (j + 1) + 2 ^ j) j =
        get_bit_index (m * 2 ^ (j + 1)) j := by
      rw [get_bit_index_eq, get_bit_index_eq]
      congr 1
      rw [Nat.shiftRight_eq_div_pow, Nat.shiftRight_eq_div_pow,
        show m * 2 ^ (j + 1) + 2 ^ j = 2 ^ (j + 1) * m + 2 ^ j from by ring,
        Nat.mul_add_div (by positivity),
        Nat.div_eq_of_lt (Nat.pow_lt_pow_succ (by norm_num)),
        Nat.add_zero, Nat.mul_div_cancel _ (by positivity)]
    have hbitHi : bitSet (push_free (toggle_bit s (m * 2 ^ (j + 1)) j).2 b j)
        (get_bit_index (((b + blockSize j) - (push_free (toggle_bit s (m * 2 ^ (j + 1)) j).2 b j).offset) / PAGE_SIZE) j) = true := by
      rw [hpidxHi, hidxHi]
      unfold bitSet
      rw [hbitsS]
      simp
    have hmerge := deallocFuel_merge 11 (push_free (toggle_bit s (m * 2 ^ (j + 1)) j).2 b j) (b + blockSize j) j hgHi hkt hbitHi
    rw [hpidxHi] at hmerge
    have hoffTS2 : ((toggle_bit (push_free (toggle_bit s (m * 2 ^ (j + 1)) j).2 b j) (m * 2 ^ (j + 1) + 2 ^ j) j).2).offset = 0 := by
      rw [toggle_offset, hoffS]
    have hbud : calculate_buddy_address ((toggle_bit (push_free (toggle_bit s (m * 2 ^ (j + 1)) j).2 b j) (m * 2 ^ (j + 1) + 2 ^ j) j).2) (b + blockSize j) j = b := by
      rw [calculate_buddy_char _ 0 (b + blockSize j) j hoffTS2 (Nat.zero_le _)
        (by rw [Nat.sub_zero]; exact halHi)]
      rw [Nat.sub_zero]
      have hpar : (b + blockSize j) / blockSize j = 2 * m + 1 := by
        rw [hm, blockSize_succ,
          show 2 * blockSize j * m + blockSize j = blockSize j * (2 * m + 1) from by ring]
        exact Nat.mul_div_cancel_left _ hbsj
      rw [hpar, if_neg (by omega)]
      omega
    rw [hbud] at hmerge
    rw [Nat.min_eq_right (Nat.le_add_right _ _)] at hmerge
    have hbitsTS2 : ((toggle_bit (push_free (toggle_bit s (m * 2 ^ (j + 1)) j).2 b j) (m * 2 ^ (j + 1) + 2 ^ j) j).2).bits = s.bits := by
      rw [toggle_bits_of_mem (push_free (toggle_bit s (m * 2 ^ (j + 1)) j).2 b j) (m * 2 ^ (j + 1) + 2 ^ j) j
        (by rw [hidxHi, hbitsS]; exact List.mem_cons_self _ _)]
      rw [hidxHi, hbitsS]
      exact List.erase_cons_head _ _
    have hfls : ((toggle_bit (push_free (toggle_bit s (m * 2 ^ (j + 1)) j).2 b j) (m * 2 ^ (j + 1) + 2 ^ j) j).2).freeLists = s.freeLists.set j (b :: flist s j) := by
      rw [toggle_freeLists]
      show ((toggle_bit s (m * 2 ^ (j + 1)) j).2).freeLists.set j
        (b :: flist ((toggle_bit s (m * 2 ^ (j + 1)) j).2) j) = _
      rw [toggle_freeLists, flist_toggle]
    have hfl2 : flist ((toggle_bit (push_free (toggle_bit s (m * 2 ^ (j + 1)) j).2 b j) (m * 2 ^ (j + 1) + 2 ^ j) j).2) j = b :: flist s j := by
      rw [flist_toggle, hflS]
    have hS2 : remove_frame ((toggle_bit (push_free (toggle_bit s (m * 2 ^ (j + 1)) j).2 b j) (m * 2 ^ (j + 1) + 2 ^ j) j).2) b j = s := by
      have h1 : (remove_frame ((toggle_bit (push_free (toggle_bit s (m * 2 ^ (j + 1)) j).2 b j) (m * 2 ^ (j + 1) + 2 ^ j) j).2) b j).freeLists = s.freeLists := by
        show ((toggle_bit (push_free (toggle_bit s (m * 2 ^ (j + 1)) j).2 b j) (m * 2 ^ (j + 1) + 2 ^ j) j).2).freeLists.set j ((flist ((toggle_bit (push_free (toggle_bit s (m * 2 ^ (j + 1)) j).2 b j) (m * 2 ^ (j + 1) + 2 ^ j) j).2) j).erase b) = s.freeLists
        rw [hfl2, List.erase_cons_head, hfls, List.set_set]
        exact Util.set_getD_self s.freeLists j []
      have h2 : (remove_frame ((toggle_bit (push_free (toggle_bit s (m * 2 ^ (j + 1)) j).2 b j) (m * 2 ^ (j + 1) + 2 ^ j) j).2) b j).bits = s.bits := hbitsTS2
      have h3 : (remove_frame ((toggle_bit (push_free (toggle_bit s (m * 2 ^ (j + 1)) j).2 b j) (m * 2 ^ (j + 1) + 2 ^ j) j).2) b j).offset = s.offset := by
        show ((toggle_bit (push_free (toggle_bit s (m * 2 ^ (j + 1)) j).2 b j) (m * 2 ^ (j + 1) + 2 ^ j) j).2).offset = s.offset
        rw [hoffTS2, hoff]
      calc remove_frame ((toggle_bit (push_free (toggle_bit s (m * 2 ^ (j + 1)) j).2 b j) (m * 2 ^ (j + 1) + 2 ^ j) j).2) b j
          = ⟨(remove_frame ((toggle_bit (push_free (toggle_bit s (m * 2 ^ (j + 1)) j).2 b j) (m * 2 ^ (j + 1) + 2 ^ j) j).2) b j).freeLists, (remove_frame ((toggle_bit (push_free (toggle_bit s (m * 2 ^ (j + 1)) j).2 b j) (m * 2 ^ (j + 1) + 2 ^ j) j).2) b j).bits,
            (remove_frame ((toggle_bit (push_free (toggle_bit s (m * 2 ^ (j + 1)) j).2 b j) (m * 2 ^ (j + 1) + 2 ^ j) j).2) b j).offset⟩ := rfl
        _ = ⟨s.freeLists, s.bits, s.offset⟩ := by rw [h1, h2, h3]
        _ = s := rfl
    rw [hS2] at hmerge
    calc feedBlock s b (j + 1)
        = feedBlock (feedBlock s b j) (b + blockSize j) j := rfl
      _ = feedBlock (push_free (toggle_bit s (m * 2 ^ (j + 1)) j).2 b j) (b + blockSize j) j := by rw [hlow, hpush]
      _ = dealloc (push_free (toggle_bit s (m * 2 ^ (j + 1)) j).2 b j) (b + blockSize j) j := hhigh
      _ = deallocFuel 11 s b (j + 1) := hmerge
      _ = deallocFuel 12 s b (j + 1) :=
          deallocFuel_congr 11 12 (j + 1) s b (by omega) (by omega) (by omega)
      _ = dealloc s b (j + 1) := rfl

/-- Feeding the first `n` frames one page at a time from a fresh allocator is
a legal interaction sequence, and afterwards exactly the bytes below
`n * PAGE_SIZE` are free. -/
theorem feed_reach (n : Nat) : n ≤ MAX_PAGES →
    Reachable 0 ⟨feedLin (newState 0) 0 n, []⟩ ∧
    (∀ x, freeCount (feedLin (newState 0) 0 n) x =
      if x < n * PAGE_SIZE then 1 else 0) := by
  induction n with
  | zero =>
    intro _
    refine ⟨Reachable.init, ?_⟩
    intro x
    show freeCount (newState 0) x = if x < 0 * PAGE_SIZE then 1 else 0
    rw [freeCount_newState]
    simp
  | succ n ih =>
    intro hn
    obtain ⟨hr, hcnt⟩ := ih (by omega)
    have hInv := Reachable_Inv hr
    have hoffN : (feedLin (newState 0) 0 n).offset = 0 := hInv.hoff
    have hlenN : (feedLin (newState 0) 0 n).freeLists.length = MAX_ORDER := hInv.hlen
    have hndN : (feedLin (newState 0) 0 n).bits.Nodup := hInv.hnodup
    have hfreeN : ∀ j, j < MAX_ORDER → ∀ a, a ∈ flist (feedLin (newState 0) 0 n) j →
        WF 0 a j := hInv.hfree
    have hbitN : ∀ j, j + 1 < MAX_ORDER → ∀ a, WF 0 a (j + 1) →
        bitSet (feedLin (newState 0) 0 n) (get_bit_index ((a - 0) / PAGE_SIZE) j) =
          Bool.xor (decide (a ∈ flist (feedLin (newState 0) 0 n) j))
            (decide (a + blockSize j ∈ flist (feedLin (newState 0) 0 n) j)) := hInv.hbit
    have hcapN : ∀ x, freeCount (feedLin (newState 0) 0 n) x ≤ 1 := by
      intro x
      rw [hcnt x]
      split_ifs <;> omega
    have hP := PAGE_SIZE_pos
    have hbs : blockSize 0 = PAGE_SIZE := rfl
    have hPP : (n + 1) * PAGE_SIZE = n * PAGE_SIZE + PAGE_SIZE := by ring
    have hstep : BStep ⟨feedLin (newState 0) 0 n, []⟩
        ⟨add_frame (feedLin (newState 0) 0 n) (0 + n * PAGE_SIZE), []⟩ :=
      BStep.add_frame ⟨feedLin (newState 0) 0 n, []⟩ (0 + n * PAGE_SIZE)
        (by
          show (0 + n * PAGE_SIZE - (feedLin (newState 0) 0 n).offset) % PAGE_SIZE = 0
          rw [hoffN, Nat.zero_add, Nat.sub_zero]
          exact Nat.mul_mod_left n PAGE_SIZE)
        (by
          show (feedLin (newState 0) 0 n).offset ≤ 0 + n * PAGE_SIZE
          rw [hoffN]
          exact Nat.zero_le _)
        (by
          intro x h1 h2
          rw [Nat.zero_add] at h1
          show freeCount (feedLin (newState 0) 0 n) x = 0
          rw [hcnt x]
          rw [if_neg (by omega)])
        (fun x h1 h2 => rfl)
    have hg : ¬ (0 + n * PAGE_SIZE < (feedLin (newState 0) 0 n).offset ∨
        (feedLin (newState 0) 0 n).offset + MAX_PAGES * PAGE_SIZE ≤
          0 + n * PAGE_SIZE) := by
      rw [hoffN]
      push_neg
      refine ⟨Nat.zero_le _, ?_⟩
      simp only [Nat.zero_add]
      exact (Nat.mul_lt_mul_right hP).mpr (by omega)
    have hadd : add_frame (feedLin (newState 0) 0 n) (0 + n * PAGE_SIZE) =
        deallocFuel MAX_ORDER (feedLin (newState 0) 0 n) (0 + n * PAGE_SIZE) 0 := by
      unfold add_frame
      rw [if_neg hg]
      rfl
    have hW : WF 0 (0 + n * PAGE_SIZE) 0 := by
      refine ⟨Nat.zero_le _, ?_, ?_⟩
      · show (0 + n * PAGE_SIZE - 0) % blockSize 0 = 0
        rw [hbs, Nat.zero_add, Nat.sub_zero]
        exact Nat.mul_mod_left n PAGE_SIZE
      · show (0 + n * PAGE_SIZE - 0) + blockSize 0 ≤ MAX_PAGES * PAGE_SIZE
        rw [hbs, Nat.zero_add, Nat.sub_zero, ← hPP]
        exact Nat.mul_le_mul_right _ hn
    have hfcN : ∀ x, 0 + n * PAGE_SIZE ≤ x → x < 0 + n * PAGE_SIZE + blockSize 0 →
        freeCount (feedLin (newState 0) 0 n) x = 0 := by
      intro x h1 h2
      rw [Nat.zero_add] at h1
      rw [hcnt x]
      rw [if_neg (by omega)]
    obtain ⟨d1, d2, d3, d4, d5, d6⟩ := deallocFuel_spec MAX_ORDER 0
      (feedLin (newState 0) 0 n) 0 (0 + n * PAGE_SIZE) (by omega)
      (by norm_num [MAX_ORDER]) hoffN hlenN hndN hfreeN hcapN hW hfcN hbitN
    refine ⟨?_, ?_⟩
    · rw [feedLin_snoc]
      exact Reachable.step hr hstep
    · intro x
      rw [feedLin_snoc n (newState 0) 0, hadd, d5 x, hcnt x, cInd_eq, hbs]
      simp only [Nat.zero_add]
      split_ifs <;> omega

theorem alloc_order11 (s : BState) (f : Nat) (rest : List Nat)
    (hfl : flist s 11 = f :: rest) :
    alloc s 11 = some (f, remove_frame s f 11) := by
  show allocFuel MAX_ORDER s 11 = _
  rw [show (MAX_ORDER : Nat) = 11 + 1 from rfl, allocFuel,
    if_neg (by norm_num [MAX_ORDER]), hfl]
  dsimp only
  rw [if_neg (by norm_num [MAX_ORDER])]

theorem flist_after_full_feed : flist (feedLin (newState 0) 0 2048) 11 = [0] := by
  have h2 : feedBlock (newState 0) 0 11 = dealloc (newState 0) 0 11 := by
    refine feedBlock_eq_dealloc 11 (newState 0) 0 rfl (by simp [newState])
      (by norm_num [MAX_ORDER]) (Nat.zero_mod _) ?_ ?_
    · rw [blockSize_eq]
      norm_num [MAX_PAGES, PAGE_SIZE]
    · intro i q _ _ _
      simp [newState]
  have h3 : dealloc (newState 0) 0 11 = push_free (newState 0) 0 11 :=
    deallocFuel_top 11 (newState 0) 0 11 (by simp [newState, MAX_PAGES, PAGE_SIZE])
      (by norm_num [MAX_ORDER])
  have h4 : feedBlock (newState 0) 0 11 = feedLin (newState 0) 0 2048 := by
    rw [feedBlock_eq_lin]
    norm_num
  rw [← h4, h2, h3, flist_push_self _ 0 11 (by simp [newState, MAX_ORDER]), flist_newState]

/-- C2 (corrected): `MAX_ORDER = 12` is an exclusive bound on block orders —
the supported orders are 0 through `MAX_ORDER - 1 = 11`.  `alloc` returns
`None` for every requested order `≥ MAX_ORDER`; after feeding the 2^11
contiguous aligned frames of an order-11 block the buddy merges cascade, so a
reachable state offers a full order-11 (2^11-page) block which `alloc 11`
returns; and `dealloc` at order `MAX_ORDER - 1` pushes the block directly
onto that order's free list without attempting to merge. -/
theorem c2_aux_t1 : Reachable 0 ⟨feedLin (newState 0) 0 2048, []⟩ :=
  (feed_reach 2048 (by norm_num [MAX_PAGES])).1

theorem c2_aux_t2 : alloc (feedLin (newState 0) 0 2048) 11 =
    some (0, remove_frame (feedLin (newState 0) 0 2048) 0 11) :=
  alloc_order11 (feedLin (newState 0) 0 2048) 0 [] flist_after_full_feed

theorem c2_aux_t0 : Reachable 0 ⟨feedLin (newState 0) 0 2048, []⟩ := c2_aux_t1

theorem c2_aux_t3 : alloc (feedLin (newState 0) 0 2048) (MAX_ORDER - 1) =
    some (0, remove_frame (feedLin (newState 0) 0 2048) 0 (MAX_ORDER - 1)) := by
  rw [show MAX_ORDER - 1 = 11 from rfl]
  exact c2_aux_t2

theorem c2_exists_aux : ∃ (s : BState) (out : List (Nat × Nat)), Reachable 0 ⟨s, out⟩ ∧
    alloc s (MAX_ORDER - 1) = some (0, remove_frame s 0 (MAX_ORDER - 1)) :=
  ⟨feedLin (newState 0) 0 2048, [], c2_aux_t0, c2_aux_t3⟩

theorem c2_buddy_orders :
    MAX_ORDER = 12 ∧
    (∀ (s : BState) (k : Nat), MAX_ORDER ≤ k → alloc s k = none) ∧
    (∃ (s : BState) (out : List (Nat × Nat)), Reachable 0 ⟨s, out⟩ ∧
      alloc s (MAX_ORDER - 1) = some (0, remove_frame s 0 (MAX_ORDER - 1))) ∧
    (∀ (s : BState) (ptr : Nat),
      s.offset ≤ ptr → ptr < s.offset + MAX_PAGES * PAGE_SIZE →
      dealloc s ptr (MAX_ORDER - 1) = push_free s ptr (MAX_ORDER - 1)) := by
  refine ⟨rfl, ?_, ?_, ?_⟩
  · intro s k hk
    show allocFuel MAX_ORDER s k = none
    rw [show (MAX_ORDER : Nat) = 11 + 1 from rfl, allocFuel, if_pos hk]
  · exact c2_exists_aux
  · intro s ptr h1 h2
    exact deallocFuel_top 11 s ptr 11 (by push_neg; exact ⟨h1, h2⟩)
      (by norm_num [MAX_ORDER])

/-- C2 counterexample: contrary to the claim as stated, `alloc 12` fails even
at the reachable state obtained by feeding the 2^11 contiguous aligned frames
of a full order-11 block (the state at which `alloc 11` succeeds) —
`MAX_ORDER = 12` is an exclusive bound, and the `order >= MAX_ORDER` guard
returns `None` before any free list is consulted. -/
theorem c2_buddy_orders_counterexample :
    alloc (feedLin (newState 0) 0 2048) 12 = none := by
  show allocFuel MAX_ORDER (feedLin (newState 0) 0 2048) 12 = none
  rw [show (MAX_ORDER : Nat) = 11 + 1 from rfl, allocFuel,
    if_pos (by norm_num [MAX_ORDER])]

end Buddy

end LymadOS

namespace LymadOS

namespace BFA

theorem insert_perm (r : PhysRange) : ∀ l : List PhysRange,
    (insert_range_sorted r l).Perm (r :: l) := by
  intro l
  induction l with
  | nil => exact List.Perm.refl _
  | cons x xs ih =>
    show (if r.start < x.start then r :: x :: xs else x :: insert_range_sorted r xs).Perm _
    split
    · exact List.Perm.refl _
    · exact List.Perm.trans (List.Perm.cons x ih) (List.Perm.swap r x xs)

theorem foldl_insert_perm : ∀ (l acc : List PhysRange),
    (l.foldl (fun a x => insert_range_sorted x a) acc).Perm (l ++ acc) := by
  intro l
  induction l with
  | nil => intro acc; exact List.Perm.refl _
  | cons x xs ih =>
    intro acc
    show (xs.foldl (fun a y => insert_range_sorted y a) (insert_range_sorted x acc)).Perm _
    refine List.Perm.trans (ih (insert_range_sorted x acc)) ?_
    refine List.Perm.trans (List.Perm.append_left xs (insert_perm x acc)) ?_
    exact List.perm_middle.symm.symm.trans (List.Perm.refl _) |>.trans (List.Perm.refl _)

theorem sortRanges_perm (l : List PhysRange) : (sortRanges l).Perm l := by
  refine List.Perm.trans (foldl_insert_perm l []) ?_
  rw [List.append_nil]

theorem rangeSum_perm {l1 l2 : List PhysRange} (h : l1.Perm l2) :
    rangeSum l1 = rangeSum l2 := by
  unfold rangeSum
  exact List.Perm.sum_eq (List.Perm.map _ h)

theorem rangeSum_insert (r : PhysRange) (l : List PhysRange) :
    rangeSum (insert_range_sorted r l) = (r.stop - r.start) + rangeSum l := by
  rw [rangeSum_perm (insert_perm r l)]
  rfl

theorem mem_insert {x r : PhysRange} {l : List PhysRange} :
    x ∈ insert_range_sorted r l ↔ x = r ∨ x ∈ l := by
  rw [(insert_perm r l).mem_iff, List.mem_cons]

/-- Inserting a nonempty range disjoint from everything into an ordered
disjoint list keeps it ordered. -/
theorem insert_ordered (r : PhysRange) : ∀ l : List PhysRange,
    (∀ x ∈ l, x.start < x.stop) → r.start < r.stop →
    (∀ x ∈ l, x.stop ≤ r.start ∨ r.stop ≤ x.start) →
    l.Pairwise (fun a b => a.stop ≤ b.start) →
    (insert_range_sorted r l).Pairwise (fun a b => a.stop ≤ b.start) := by
  intro l
  induction l with
  | nil =>
    intro _ _ _ _
    exact List.pairwise_singleton _ _
  | cons x xs ih =>
    intro hne hr hdis hord
    rw [List.pairwise_cons] at hord
    show (if r.start < x.start then r :: x :: xs else x :: insert_range_sorted r xs).Pairwise _
    split
    · rename_i hrx
      rw [List.pairwise_cons]
      constructor
      · intro y hy
        rcases List.mem_cons.mp hy with rfl | hyxs
        · rcases hdis y (List.mem_cons_self _ _) with h | h
          · have := hne y (List.mem_cons_self _ _)
            omega
          · exact h
        · rcases hdis y (List.mem_cons_of_mem _ hyxs) with h | h
          · have h1 := hne y (List.mem_cons_of_mem _ hyxs)
            have h2 := hord.1 y hyxs
            have h3 := hne x (List.mem_cons_self _ _)
            omega
          · exact h
      · exact List.pairwise_cons.mpr hord
    · rename_i hrx
      push_neg at hrx
      rw [List.pairwise_cons]
      constructor
      · intro y hy
        rcases mem_insert.mp hy with rfl | hyxs
        · rcases hdis x (List.mem_cons_self _ _) with h | h
          · exact h
          · omega
        · exact hord.1 y hyxs
      · exact ih (fun z hz => hne z (List.mem_cons_of_mem _ hz)) hr
          (fun z hz => hdis z (List.mem_cons_of_mem _ hz)) hord.2

theorem collect_sum : ∀ regions : List Region,
    (collect regions).2 = rangeSum (collect regions).1 := by
  intro regions
  induction regions with
  | nil => rfl
  | cons r rest ih =>
    show (collect (r :: rest)).2 = rangeSum (collect (r :: rest)).1
    unfold collect
    dsimp only
    split
    · split
      · rename_i hcase
        show (_ - _) + (collect rest).2 = rangeSum (⟨_, _⟩ :: (collect rest).1)
        rw [ih]
        rfl
      · exact ih
    · exact ih

theorem collect_ne : ∀ regions : List Region,
    ∀ x ∈ (collect regions).1, x.start < x.stop := by
  intro regions
  induction regions with
  | nil => intro x hx; simp [collect] at hx
  | cons r rest ih =>
    intro x hx
    unfold collect at hx
    dsimp only at hx
    split at hx
    · split at hx
      · rename_i hcase
        rcases List.mem_cons.mp hx with rfl | hx2
        · exact hcase.1
        · exact ih x hx2
      · exact ih x hx
    · exact ih x hx

theorem insert_sorted_le (r : PhysRange) : ∀ l : List PhysRange,
    l.Pairwise (fun a b => a.start ≤ b.start) →
    (insert_range_sorted r l).Pairwise (fun a b => a.start ≤ b.start) := by
  intro l
  induction l with
  | nil =>
    intro _
    exact List.pairwise_singleton _ _
  | cons x xs ih =>
    intro hord
    rw [List.pairwise_cons] at hord
    show (if r.start < x.start then r :: x :: xs else x :: insert_range_sorted r xs).Pairwise _
    split
    · rename_i hrx
      rw [List.pairwise_cons]
      refine ⟨?_, List.pairwise_cons.mpr hord⟩
      intro y hy
      rcases List.mem_cons.mp hy with rfl | hyxs
      · omega
      · have := hord.1 y hyxs
        omega
    · rename_i hrx
      push_neg at hrx
      rw [List.pairwise_cons]
      constructor
      · intro y hy
        rcases mem_insert.mp hy with rfl | hyxs
        · exact hrx
        · exact hord.1 y hyxs
      · exact ih hord.2

theorem foldl_insert_sorted : ∀ (l acc : List PhysRange),
    acc.Pairwise (fun a b => a.start ≤ b.start) →
    (l.foldl (fun a x => insert_range_sorted x a) acc).Pairwise
      (fun a b => a.start ≤ b.start) := by
  intro l
  induction l with
  | nil => intro acc h; exact h
  | cons x xs ih =>
    intro acc h
    exact ih (insert_range_sorted x acc) (insert_sorted_le x acc h)

theorem sortRanges_sorted (l : List PhysRange) :
    (sortRanges l).Pairwise (fun a b => a.start ≤ b.start) :=
  foldl_insert_sorted l [] (List.Pairwise.nil)

theorem DisjR_symm : Symmetric DisjR := by
  intro a b h
  exact h.symm

theorem InvF_init (regions : List Region)
    (hdis : ((collect regions).1).Pairwise DisjR) :
    InvF ⟨init regions, []⟩ := by
  rcases hc : collect regions with ⟨l, t⟩
  rw [hc] at hdis
  dsimp only at hdis
  have hne : ∀ x ∈ l, x.start < x.stop := by
    have h := collect_ne regions
    rw [hc] at h
    exact h
  have hsum : t = rangeSum l := by
    have h := collect_sum regions
    rw [hc] at h
    exact h
  have hinit : init regions = ⟨sortRanges l, 0, t⟩ := by
    unfold init
    rw [hc]
  have hmemS : ∀ x, x ∈ sortRanges l ↔ x ∈ l := fun x => (sortRanges_perm l).mem_iff
  have hneS : ∀ x ∈ sortRanges l, x.start < x.stop := fun x hx => hne x ((hmemS x).mp hx)
  have hdisS : (sortRanges l).Pairwise DisjR :=
    ((sortRanges_perm l).pairwise_iff (fun h => DisjR_symm h)).mpr hdis
  refine ⟨?_, ?_, ?_, ?_, ?_, ?_, ?_⟩
  · show ∀ r ∈ (init regions).free_ranges, r.start < r.stop
    rw [hinit]
    exact hneS
  · show (init regions).free_ranges.Pairwise (fun a b => a.stop ≤ b.start)
    rw [hinit]
    refine List.Pairwise.imp_of_mem ?_ ((sortRanges_sorted l).and hdisS)
    intro a b ha hb hab
    rcases hab.2 with h | h
    · exact h
    · have h1 := hneS a ha
      have h2 := hneS b hb
      omega
  · show (init regions).total_bytes =
      (init regions).allocated_bytes + rangeSum (init regions).free_ranges
    rw [hinit]
    show t = 0 + rangeSum (sortRanges l)
    rw [rangeSum_perm (sortRanges_perm l), Nat.zero_add]
    exact hsum
  · rfl
  · intro o ho
    simp at ho
  · intro o ho
    simp at ho
  · exact List.Pairwise.nil

theorem rangeSum_cons (r : PhysRange) (l : List PhysRange) :
    rangeSum (r :: l) = (r.stop - r.start) + rangeSum l := by
  simp [rangeSum]

theorem coalesceFuel_spec (fuel : Nat) : ∀ l : List PhysRange,
    (∀ r ∈ l, r.start < r.stop) →
    l.Pairwise (fun a b => a.stop ≤ b.start) →
    (∀ r ∈ coalesceFuel fuel l, r.start < r.stop) ∧
    (coalesceFuel fuel l).Pairwise (fun a b => a.stop ≤ b.start) ∧
    rangeSum (coalesceFuel fuel l) = rangeSum l ∧
    (∀ y ∈ coalesceFuel fuel l, ∃ x ∈ l, x.start ≤ y.start) ∧
    (∀ o : Nat × Nat, 0 < o.2 * PAGE_SIZE → (∀ x ∈ l, DisjO o x) →
      ∀ y ∈ coalesceFuel fuel l, DisjO o y) := by
  induction fuel with
  | zero =>
    intro l hne hord
    refine ⟨hne, hord, rfl, ?_, ?_⟩
    · intro y hy
      exact ⟨y, hy, le_refl _⟩
    · intro o _ hdis y hy
      exact hdis y hy
  | succ fuel ih =>
    intro l hne hord
    match l with
    | [] =>
      have hz : coalesceFuel (fuel + 1) [] = [] := rfl
      rw [hz]
      refine ⟨?_, List.Pairwise.nil, rfl, ?_, ?_⟩
      · intro r hr
        simp at hr
      · intro y hy
        simp at hy
      · intro o _ _ y hy
        simp at hy
    | [r] =>
      refine ⟨hne, hord, rfl, ?_, ?_⟩
      · intro y hy
        exact ⟨y, hy, le_refl _⟩
      · intro o _ hdis y hy
        exact hdis y hy
    | r1 :: r2 :: rest =>
      rw [List.pairwise_cons] at hord
      obtain ⟨hord1, hord2⟩ := hord
      rw [List.pairwise_cons] at hord2
      obtain ⟨hord2a, hord2b⟩ := hord2
      have hner1 := hne r1 (List.mem_cons_self _ _)
      have hner2 := hne r2 (List.mem_cons_of_mem _ (List.mem_cons_self _ _))
      show _ ∧ (coalesceFuel (fuel + 1) (r1 :: r2 :: rest)).Pairwise _ ∧ _ ∧ _ ∧ _
      rw [coalesceFuel]
      split
      · rename_i heq
        have hne' : ∀ r ∈ (⟨r1.start, r2.stop⟩ : PhysRange) :: rest, r.start < r.stop := by
          intro r hr
          rcases List.mem_cons.mp hr with rfl | hr2
          · show r1.start < r2.stop
            omega
          · exact hne r (List.mem_cons_of_mem _ (List.mem_cons_of_mem _ hr2))
        have hord' : ((⟨r1.start, r2.stop⟩ : PhysRange) :: rest).Pairwise
            (fun a b => a.stop ≤ b.start) := by
          rw [List.pairwise_cons]
          exact ⟨fun y hy => hord2a y hy, hord2b⟩
        obtain ⟨d1, d2, d3, d4, d5⟩ := ih _ hne' hord'
        refine ⟨d1, d2, ?_, ?_, ?_⟩
        · rw [d3, rangeSum_cons, rangeSum_cons, rangeSum_cons]
          dsimp only
          omega
        · intro y hy
          obtain ⟨x, hx, hxy⟩ := d4 y hy
          rcases List.mem_cons.mp hx with rfl | hx2
          · exact ⟨r1, List.mem_cons_self _ _, hxy⟩
          · exact ⟨x, List.mem_cons_of_mem _ (List.mem_cons_of_mem _ hx2), hxy⟩
        · intro o hopos hdis y hy
          refine d5 o hopos ?_ y hy
          intro x hx
          rcases List.mem_cons.mp hx with rfl | hx2
          · have hd1 := hdis r1 (List.mem_cons_self _ _)
            have hd2 := hdis r2 (List.mem_cons_of_mem _ (List.mem_cons_self _ _))
            unfold DisjO at hd1 hd2 ⊢
            dsimp only
            omega
          · exact hdis x (List.mem_cons_of_mem _ (List.mem_cons_of_mem _ hx2))
      · rename_i hne12
        have hneT : ∀ r ∈ r2 :: rest, r.start < r.stop := by
          intro r hr
          exact hne r (List.mem_cons_of_mem _ hr)
        have hordT : (r2 :: rest).Pairwise (fun a b => a.stop ≤ b.start) := by
          rw [List.pairwise_cons]
          exact ⟨hord2a, hord2b⟩
        obtain ⟨d1, d2, d3, d4, d5⟩ := ih _ hneT hordT
        refine ⟨?_, ?_, ?_, ?_, ?_⟩
        · intro r hr
          rcases List.mem_cons.mp hr with rfl | hr2
          · exact hner1
          · exact d1 r hr2
        · rw [List.pairwise_cons]
          constructor
          · intro y hy
            obtain ⟨x, hx, hxy⟩ := d4 y hy
            have := hord1 x hx
            omega
          · exact d2
        · rw [rangeSum_cons, rangeSum_cons, rangeSum_cons, d3, rangeSum_cons]
        · intro y hy
          rcases List.mem_cons.mp hy with rfl | hy2
          · exact ⟨y, List.mem_cons_self _ _, le_refl _⟩
          · obtain ⟨x, hx, hxy⟩ := d4 y hy2
            exact ⟨x, List.mem_cons_of_mem _ hx, hxy⟩
        · intro o hopos hdis y hy
          rcases List.mem_cons.mp hy with rfl | hy2
          · exact hdis y (List.mem_cons_self _ _)
          · exact d5 o hopos (fun x hx => hdis x (List.mem_cons_of_mem _ hx)) y hy2

theorem rangeSum_append (A B : List PhysRange) :
    rangeSum (A ++ B) = rangeSum A + rangeSum B := by
  simp [rangeSum]

theorem maybe_insert_spec (c : Prop) [Decidable c] (p : PhysRange) (X : List PhysRange)
    (hne : ∀ x ∈ X, x.start < x.stop)
    (hord : X.Pairwise (fun a b => a.stop ≤ b.start))
    (hp : c → p.start < p.stop)
    (hdis : c → ∀ x ∈ X, x.stop ≤ p.start ∨ p.stop ≤ x.start) :
    (∀ x ∈ (if c then insert_range_sorted p X else X), x.start < x.stop) ∧
    ((if c then insert_range_sorted p X else X).Pairwise (fun a b => a.stop ≤ b.start)) ∧
    rangeSum (if c then insert_range_sorted p X else X) =
      (if c then p.stop - p.start else 0) + rangeSum X ∧
    (∀ x ∈ (if c then insert_range_sorted p X else X), x = p ∨ x ∈ X) := by
  split
  · rename_i hc
    refine ⟨?_, insert_ordered p X hne (hp hc) (hdis hc) hord, rangeSum_insert p X, ?_⟩
    · intro x hx
      rcases mem_insert.mp hx with rfl | hx2
      · exact hp hc
      · exact hne x hx2
    · intro x hx
      exact mem_insert.mp hx
  · exact ⟨hne, hord, by rw [Nat.zero_add], fun x hx => Or.inr hx⟩

theorem allocGo_spec : ∀ (l acc : List PhysRange) (alignment required n addr : Nat)
    (l2 : List PhysRange),
    0 < required →
    (∀ r ∈ acc.reverse ++ l, r.start < r.stop) →
    (acc.reverse ++ l).Pairwise (fun a b => a.stop ≤ b.start) →
    allocGo alignment required n acc l = some (addr, l2) →
    (∀ r ∈ l2, r.start < r.stop) ∧
    l2.Pairwise (fun a b => a.stop ≤ b.start) ∧
    rangeSum l2 + required = rangeSum (acc.reverse ++ l) ∧
    (∀ r ∈ l2, ∃ r0 ∈ acc.reverse ++ l, r0.start ≤ r.start ∧ r.stop ≤ r0.stop) ∧
    (∃ r0 ∈ acc.reverse ++ l, r0.start ≤ addr ∧ addr + required ≤ r0.stop) ∧
    (∀ r ∈ l2, addr + required ≤ r.start ∨ r.stop ≤ addr) := by
  intro l
  induction l with
  | nil =>
    intro acc alignment required n addr l2 _ _ _ h
    rw [allocGo] at h
    exact absurd h (by simp)
  | cons r rest ih =>
    intro acc alignment required n addr l2 hreq hne hord h
    have hLL : (r :: acc).reverse ++ rest = acc.reverse ++ (r :: rest) := by
      rw [List.reverse_cons, List.append_assoc, List.singleton_append]
    rw [allocGo] at h
    dsimp only at h
    split at h
    · rename_i hfit
      split at h
      · have hres := ih (r :: acc) alignment required n addr l2 hreq
          (by rw [hLL]; exact hne) (by rw [hLL]; exact hord) h
        rw [hLL] at hres
        exact hres
      · rename_i hcap
        simp only [Option.some.injEq, Prod.mk.injEq] at h
        obtain ⟨rfl, rfl⟩ := h
        have hrmem : r ∈ acc.reverse ++ r :: rest :=
          List.mem_append.mpr (Or.inr (List.mem_cons_self _ _))
        have hner : r.start < r.stop := hne r hrmem
        rw [List.pairwise_append] at hord
        obtain ⟨hPA, hPcons, hAB⟩ := hord
        rw [List.pairwise_cons] at hPcons
        obtain ⟨hrB, hPrest⟩ := hPcons
        have hmemBL : ∀ x ∈ acc.reverse ++ rest, x ∈ acc.reverse ++ r :: rest := by
          intro x hx
          rcases List.mem_append.mp hx with hx1 | hx2
          · exact List.mem_append.mpr (Or.inl hx1)
          · exact List.mem_append.mpr (Or.inr (List.mem_cons_of_mem _ hx2))
        have hneB : ∀ x ∈ acc.reverse ++ rest, x.start < x.stop :=
          fun x hx => hne x (hmemBL x hx)
        have hordB : (acc.reverse ++ rest).Pairwise (fun a b => a.stop ≤ b.start) :=
          List.pairwise_append.mpr
            ⟨hPA, hPrest, fun a ha b hb => hAB a ha b (List.mem_cons_of_mem _ hb)⟩
        have hdisB : ∀ x ∈ acc.reverse ++ rest,
            x.stop ≤ r.start ∨ r.stop ≤ x.start := by
          intro x hx
          rcases List.mem_append.mp hx with hx1 | hx2
          · exact Or.inl (hAB x hx1 r (List.mem_cons_self _ _))
          · exact Or.inr (hrB x hx2)
        have hAS1 : r.start ≤ alignUp r.start alignment := hfit.1
        have hAS2 : alignUp r.start alignment + required ≤ r.stop := hfit.2
        obtain ⟨f1, f2, f3, f4⟩ := maybe_insert_spec (r.start < alignUp r.start alignment)
          ⟨r.start, alignUp r.start alignment⟩ (acc.reverse ++ rest) hneB hordB
          (fun hc => hc)
          (fun _ x hx => by
            dsimp only
            rcases hdisB x hx with hd | hd
            · exact Or.inl hd
            · refine Or.inr ?_
              omega)
        obtain ⟨g1, g2, g3, g4⟩ := maybe_insert_spec
          (alignUp r.start alignment + required < r.stop)
          ⟨alignUp r.start alignment + required, r.stop⟩ _ f1 f2
          (fun hc => hc)
          (fun _ x hx => by
            dsimp only
            rcases f4 x hx with rfl | hx2
            · exact Or.inl (by dsimp only; omega)
            · rcases hdisB x hx2 with hd | hd
              · refine Or.inl ?_
                omega
              · exact Or.inr hd)
        refine ⟨g1, g2, ?_, ?_, ?_, ?_⟩
        · rw [g3, f3, rangeSum_append, rangeSum_append, rangeSum_cons]
          dsimp only
          split_ifs <;> omega
        · intro x hx
          rcases g4 x hx with rfl | hx1
          · exact ⟨r, hrmem, by dsimp only; omega, by dsimp only; omega⟩
          · rcases f4 x hx1 with rfl | hx2
            · exact ⟨r, hrmem, by dsimp only; omega, by dsimp only; omega⟩
            · exact ⟨x, hmemBL x hx2, le_refl _, le_refl _⟩
        · exact ⟨r, hrmem, hAS1, hAS2⟩
        · intro x hx
          rcases g4 x hx with rfl | hx1
          · exact Or.inl (by dsimp only; omega)
          · rcases f4 x hx1 with rfl | hx2
            · exact Or.inr (by dsimp only; omega)
            · rcases hdisB x hx2 with hd | hd
              · exact Or.inr (le_trans hd hAS1)
              · exact Or.inl (le_trans hAS2 hd)
    · have hres := ih (r :: acc) alignment required n addr l2 hreq
        (by rw [hLL]; exact hne) (by rw [hLL]; exact hord) h
      rw [hLL] at hres
      exact hres

theorem pairwise_rel_erase {α : Type} [BEq α] [LawfulBEq α] {R : α → α → Prop} :
    ∀ (l : List α), l.Pairwise R → ∀ b ∈ l, ∀ a ∈ l.erase b, R b a ∨ R a b := by
  intro l
  induction l with
  | nil =>
    intro _ b hb
    simp at hb
  | cons x xs ih =>
    intro h b hb a ha
    rw [List.pairwise_cons] at h
    by_cases hxb : x = b
    · subst hxb
      rw [List.erase_cons_head] at ha
      exact Or.inl (h.1 a ha)
    · rw [List.erase_cons_tail (by simp [hxb])] at ha
      have hbxs : b ∈ xs := by
        rcases List.mem_cons.mp hb with heq | h2
        · exact absurd heq.symm hxb
        · exact h2
      rcases List.mem_cons.mp ha with rfl | ha2
      · exact Or.inr (h.1 b hbxs)
      · exact ih h.2 b hbxs a ha2

theorem pageSizePos : 0 < PAGE_SIZE := by norm_num [PAGE_SIZE]

theorem InvF_step {c c2 : FConfig} (hInv : InvF c) (hstep : FStep c c2) : InvF c2 := by
  have hneF : ∀ r ∈ c.st.free_ranges, r.start < r.stop := hInv.hne
  have hordF : c.st.free_ranges.Pairwise (fun a b => a.stop ≤ b.start) := hInv.hord
  have hsumF : c.st.total_bytes = c.st.allocated_bytes + rangeSum c.st.free_ranges :=
    hInv.hsum
  have hallocF : c.st.allocated_bytes = (c.out.map (fun o => o.2 * PAGE_SIZE)).sum :=
    hInv.halloc
  have houtposF : ∀ o ∈ c.out, 0 < o.2 := hInv.houtpos
  have houtdisF : ∀ o ∈ c.out, ∀ r ∈ c.st.free_ranges, DisjO o r := hInv.houtdis
  have houtpairF : c.out.Pairwise DisjOO := hInv.houtpair
  cases hstep with
  | alloc count alignment j addr s2 halign halloc =>
    unfold allocate_contiguous_aligned at halloc
    split at halloc
    · exact absurd halloc (by simp)
    rename_i hcount
    dsimp only at halloc
    cases hgo : allocGo alignment (count * PAGE_SIZE) c.st.free_ranges.length []
        c.st.free_ranges with
    | none =>
      rw [hgo] at halloc
      exact absurd halloc (by simp)
    | some pr =>
      obtain ⟨a2, l2⟩ := pr
      rw [hgo] at halloc
      dsimp only at halloc
      simp only [Option.some.injEq, Prod.mk.injEq] at halloc
      obtain ⟨rfl, rfl⟩ := halloc
      have hreq : 0 < count * PAGE_SIZE :=
        Nat.mul_pos (Nat.pos_of_ne_zero hcount) pageSizePos
      obtain ⟨d1, d2, d3, d4, d5, d6⟩ := allocGo_spec c.st.free_ranges [] alignment
        (count * PAGE_SIZE) c.st.free_ranges.length a2 l2 hreq hneF hordF hgo
      have hid : ([] : List PhysRange).reverse ++ c.st.free_ranges = c.st.free_ranges :=
        rfl
      rw [hid] at d3 d4 d5
      obtain ⟨r0, hr0, hr0a, hr0b⟩ := d5
      refine ⟨d1, d2, ?_, ?_, ?_, ?_, ?_⟩
      · show c.st.total_bytes = c.st.allocated_bytes + count * PAGE_SIZE + rangeSum l2
        omega
      · show c.st.allocated_bytes + count * PAGE_SIZE =
          (((a2, count) :: c.out).map (fun o => o.2 * PAGE_SIZE)).sum
        rw [List.map_cons, List.sum_cons]
        dsimp only
        omega
      · intro o ho
        rcases List.mem_cons.mp ho with rfl | ho2
        · exact Nat.pos_of_ne_zero hcount
        · exact houtposF o ho2
      · intro o ho r hr
        rcases List.mem_cons.mp ho with rfl | ho2
        · have h6 := d6 r hr
          unfold DisjO
          dsimp only
          omega
        · obtain ⟨q0, hq0, hq0a, hq0b⟩ := d4 r hr
          have hd := houtdisF o ho2 q0 hq0
          unfold DisjO at hd ⊢
          omega
      · rw [List.pairwise_cons]
        constructor
        · intro o ho
          have hd := houtdisF o ho r0 hr0
          unfold DisjO at hd
          unfold DisjOO
          dsimp only
          omega
        · exact houtpairF
  | free addr count hmem hlenR =>
    have hcpos : 0 < count := houtposF (addr, count) hmem
    have hreq : 0 < count * PAGE_SIZE := Nat.mul_pos hcpos pageSizePos
    have hfc : free_contiguous c.st addr count =
        { free_ranges := coalesce_ranges (insert_range_sorted
            ⟨addr, addr + count * PAGE_SIZE⟩ c.st.free_ranges),
          allocated_bytes := c.st.allocated_bytes - count * PAGE_SIZE,
          total_bytes := c.st.total_bytes } := by
      unfold free_contiguous
      rw [if_neg (by omega)]
    have hdisF : ∀ x ∈ c.st.free_ranges,
        x.stop ≤ (⟨addr, addr + count * PAGE_SIZE⟩ : PhysRange).start ∨
        (⟨addr, addr + count * PAGE_SIZE⟩ : PhysRange).stop ≤ x.start := by
      intro x hx
      have hd := houtdisF (addr, count) hmem x hx
      unfold DisjO at hd
      dsimp only at hd ⊢
      omega
    have hins1 : ∀ x ∈ insert_range_sorted ⟨addr, addr + count * PAGE_SIZE⟩
        c.st.free_ranges, x.start < x.stop := by
      intro x hx
      rcases mem_insert.mp hx with rfl | hx2
      · dsimp only
        omega
      · exact hneF x hx2
    have hins2 : (insert_range_sorted ⟨addr, addr + count * PAGE_SIZE⟩
        c.st.free_ranges).Pairwise (fun a b => a.stop ≤ b.start) :=
      insert_ordered _ _ hneF (by dsimp only; omega) hdisF hordF
    obtain ⟨e1, e2, e3, e4, e5⟩ := coalesceFuel_spec
      (insert_range_sorted ⟨addr, addr + count * PAGE_SIZE⟩ c.st.free_ranges).length
      _ hins1 hins2
    have herase := Util.sum_map_erase c.out (addr, count)
      (fun o => o.2 * PAGE_SIZE) hmem
    dsimp only at herase
    have hsumI : rangeSum (insert_range_sorted ⟨addr, addr + count * PAGE_SIZE⟩
        c.st.free_ranges) = count * PAGE_SIZE + rangeSum c.st.free_ranges := by
      rw [rangeSum_insert]
      dsimp only
      omega
    refine ⟨?_, ?_, ?_, ?_, ?_, ?_, ?_⟩
    · show ∀ r ∈ (free_contiguous c.st addr count).free_ranges, r.start < r.stop
      rw [hfc]
      exact e1
    · show (free_contiguous c.st addr count).free_ranges.Pairwise
        (fun a b => a.stop ≤ b.start)
      rw [hfc]
      exact e2
    · show (free_contiguous c.st addr count).total_bytes =
        (free_contiguous c.st addr count).allocated_bytes +
          rangeSum (free_contiguous c.st addr count).free_ranges
      rw [hfc]
      show c.st.total_bytes = c.st.allocated_bytes - count * PAGE_SIZE +
        rangeSum (coalesce_ranges _)
      rw [show coalesce_ranges (insert_range_sorted ⟨addr, addr + count * PAGE_SIZE⟩
          c.st.free_ranges) = coalesceFuel (insert_range_sorted
          ⟨addr, addr + count * PAGE_SIZE⟩ c.st.free_ranges).length
          (insert_range_sorted ⟨addr, addr + count * PAGE_SIZE⟩ c.st.free_ranges)
        from rfl, e3, hsumI]
      omega
    · show (free_contiguous c.st addr count).allocated_bytes =
        ((c.out.erase (addr, count)).map (fun o => o.2 * PAGE_SIZE)).sum
      rw [hfc]
      show c.st.allocated_bytes - count * PAGE_SIZE = _
      omega
    · intro o ho
      exact houtposF o (List.mem_of_mem_erase ho)
    · intro o ho r hr
      show DisjO o r
      have hoin := List.mem_of_mem_erase ho
      have hopos : 0 < o.2 * PAGE_SIZE :=
        Nat.mul_pos (houtposF o hoin) pageSizePos
      refine e5 o hopos ?_ r ?_
      · intro x hx
        rcases mem_insert.mp hx with rfl | hx2
        · have hp := pairwise_rel_erase c.out houtpairF (addr, count) hmem o ho
          unfold DisjOO at hp
          unfold DisjO
          dsimp only at hp ⊢
          omega
        · exact houtdisF o hoin x hx2
      · rw [hfc] at hr
        exact hr
    · show (c.out.erase (addr, count)).Pairwise DisjOO
      exact List.Pairwise.sublist (List.erase_sublist _ _) houtpairF

theorem ReachableF_InvF {regions : List Region} {c : FConfig}
    (hdis : ((collect regions).1).Pairwise DisjR)
    (h : ReachableF regions c) : InvF c := by
  induction h with
  | init => exact InvF_init regions hdis
  | step hr hs ih => exact InvF_step ih hs

/-- C3: starting from `init` on a memory map whose collected usable ranges
are pairwise disjoint, in every configuration reachable by any legal sequence
of `allocate_contiguous_aligned` and `free_contiguous` calls (frees only of
previously allocated, non-overlapping regions), the byte accounting balances
(`total_bytes = allocated_bytes + Σ (end - start)`), the tracked ranges are
strictly sorted by start address, and no two tracked ranges overlap. -/
theorem c3_bfa_invariant (regions : List Region) (c : FConfig)
    (hdis : ((collect regions).1).Pairwise DisjR)
    (hr : ReachableF regions c) :
    c.st.total_bytes = c.st.allocated_bytes + rangeSum c.st.free_ranges ∧
    c.st.free_ranges.Pairwise (fun a b => a.start < b.start) ∧
    c.st.free_ranges.Pairwise DisjR := by
  have hInv := ReachableF_InvF hdis hr
  have hne : ∀ r ∈ c.st.free_ranges, r.start < r.stop := hInv.hne
  refine ⟨hInv.hsum, ?_, ?_⟩
  · refine List.Pairwise.imp_of_mem ?_ hInv.hord
    intro a b ha _ hab
    have := hne a ha
    omega
  · exact hInv.hord.imp (fun h => Or.inl h)

theorem c3_bfa_invariant_witness :
    (init [⟨0, 8192, true⟩]).total_bytes =
      (init [⟨0, 8192, true⟩]).allocated_bytes +
        rangeSum (init [⟨0, 8192, true⟩]).free_ranges ∧
    (init [⟨0, 8192, true⟩]).free_ranges.Pairwise (fun a b => a.start < b.start) ∧
    (init [⟨0, 8192, true⟩]).free_ranges.Pairwise DisjR :=
  c3_bfa_invariant [⟨0, 8192, true⟩] ⟨init [⟨0, 8192, true⟩], []⟩
    (by decide) ReachableF.init

end BFA

end LymadOS
